import Mathlib

/-!
FinanceApplications: Monte Carlo option pricing engine.

A shallow embedding of `src/MonteCarloOptionPricing` (SDE.hpp, FDM.hpp, RNG.hpp,
Pricer.hpp, Mediator.hpp, Builder.hpp and the lambdas of main.cpp), of
`src/ComputeYieldNewtonMethod` and of `src/BlackScholesOptionPricer`, and the
properties proved about them.

Conventions of the embedding:

* A C++ `double` is an element of an arbitrary linear ordered field `α`
  (exact arithmetic: rounding, infinities and NaN are not represented).
  The definitions are polymorphic in `α` and computable; they run on `ℚ`.
* `std::sqrt` and `std::pow` are not field operations: they are the two
  components of a `CMath α` environment that every function using them
  receives. Nothing is assumed about them except where a theorem says so.
* In C++ `x / 0.0` is an infinity or a NaN, in a field it is `0` by
  convention. The theorems below do not rest on that convention for the
  quotients by a count of paths or of steps: where a conclusion gives the value
  of a quotient by `m_NSim`, a hypothesis makes the count at least 1, and the
  mesh size `m_k` is read by a run only when `m_NT` is at least 1. The divisor
  `pow(x, 1 - beta)` of `CEV::DiffusionDerivative` is taken as the field gives
  it, and so are the quotients `f(xold) / df(xold)` of `newtonMethod` and
  `-2.0 * log(W) / W` of the Polar Marsaglia generator. Where a statement is
  about a quotient whose divisor can be zero, it is written with `quotient?`,
  which has no value there.
* Where the program can compute a NaN or an infinity from numbers (a quotient
  by zero, `std::pow` of a negative base with an exponent that is no integer,
  `log` of a number that is not positive, `std::sqrt` of a negative number), the
  member concerned is also given with an optional value (`CMath.pow?`,
  `ISDE.Diffusion?`, `IFDM.advance?`, `BlackScholesOptionPricer.d1`): it is
  `none` there, and as a NaN propagates through arithmetic, also through a
  product with zero, so does `none`.
* Where the rounding or the range of binary64 decides a statement, the members
  concerned are also given in binary64 (`Double`, `IFDM.m_vec64`,
  `AsianPricer.ProcessPath64`, `Accumulators64.radicand`,
  `GeometricAverage.product64`): every operation is rounded to nearest, ties to
  even, with 53 significant binary digits; subnormal numbers are not
  represented, and `Double.finite` says whether a result is within the range.
* The values that the builders read from `std::cin` are arguments of the
  functions that read them.
* A loop whose number of passes is not known on entry (`while`, `do while`)
  takes a bound `fuel` on the number of its passes and returns `none` when the
  bound is reached before the loop exits.
* The unqualified `abs` of the two utilities is the absolute value of a
  `double`. (In a build where it resolves to `abs(int)` the difference is
  truncated first and the loops exit earlier; what is proved about the getters
  of `ComputeYieldNewtonMethod` holds for whichever yield the loop returns, and
  at the inputs evaluated below both exit tests agree.)
* A C++ `int` is an `Int` (signed overflow is undefined behaviour in C++ and
  is not reached by a run whose counts fit in an `int`).
* Objects that the program mutates are passed and returned explicitly.
  `std::shared_ptr<IPricer>` is an object identifier (`Nat`) into a store
  `Nat → IPricer α`, so that one pricer connected twice is one object.
* Virtual dispatch is a `match` on the dynamic type of the object.
* Console output other than the three numbers printed by `PostProcess` (the
  progress percentage, the timer) is not modelled.
-/

/-! ## Library functions on `double` -/

/-- The functions of `<cmath>` used by the program. -/
structure CMath (α : Type) where
  /-- Models `std::sqrt`. -/
  sqrt : α → α
  /-- Models `std::pow`. -/
  pow : α → α → α

/-- The further functions and the constant of `<cmath>` used by the program. -/
structure CMathExp (α : Type) where
  /-- Models `exp`. -/
  exp : α → α
  /-- Models `log`. -/
  log : α → α
  /-- Models the constant `M_PI`. -/
  pi : α

/-- The quotient `x / y` of two doubles as a number: where `y` is zero C++
gives an infinity or a NaN, which is no element of the field. -/
def quotient? {α : Type} [LinearOrderedField α] (x y : α) : Option α :=
  if y = 0 then none else some (x / y)

/-- The value of `std::sqrt(x)` as a number: for a negative `x` C++ gives a
NaN. -/
def CMath.sqrt? {α : Type} [LinearOrderedField α] (M : CMath α) (x : α) : Option α :=
  if 0 ≤ x then some (M.sqrt x) else none

/-- The value of `std::pow(x, y)` as a number: C++ gives a NaN for a negative
base with an exponent that is no integer, and an infinity for the base zero
with a negative exponent. -/
def CMath.pow? {α : Type} [LinearOrderedField α] [FloorRing α] (M : CMath α) (x y : α) :
    Option α :=
  if x < 0 ∧ ((Int.floor y : Int) : α) ≠ y then none
  else if x = 0 ∧ y < 0 then none
  else some (M.pow x y)

/-- The value of `log(x)` as a number: C++ gives minus infinity at zero and a
NaN for a negative `x`. -/
def CMathExp.log? {α : Type} [LinearOrderedField α] (E : CMathExp α) (x : α) : Option α :=
  if 0 < x then some (E.log x) else none

/-- The accumulation `for (int i = 1; i <= count; i++) total += body(i);`
entered with the value `total`. -/
def loopSum {α : Type} [Add α] (body : Nat → α) : Nat → α → α
  | 0, total => total
  | count + 1, total => loopSum body count total + body (count + 1)

/-! ## Binary64 arithmetic -/

/-- A finite number of the format binary64: `m * 2^e`. The results of the
operations below are zero (`m = 0`, `e = 0`) or have `2^52 ≤ |m| < 2^53`, so
that two results are the same number exactly when they are equal. The exponent
is not bounded here; `Double.finite` says whether a result is within the range
of the format. -/
structure Double where
  m : Int
  e : Int
deriving DecidableEq

/-- The integer nearest to `n / d`, a tie going to the even one. -/
def Double.roundHalfEven (n d : Nat) : Nat :=
  let q := n / d
  let r := n % d
  if 2 * r < d then q else if d < 2 * r then q + 1 else if q % 2 = 0 then q else q + 1

/-- The number of binary digits of `n`, found with at most `fuel` halvings. -/
def Double.bitsAux : Nat → Nat → Nat
  | 0, _ => 0
  | fuel + 1, n => if n = 0 then 0 else Double.bitsAux fuel (n / 2) + 1

/-- The number of binary digits of `n`. -/
def Double.bits (n : Nat) : Nat := Double.bitsAux n n

/-- The exponent `ex` with `2^ex ≤ n / d < 2^(ex + 1)`, for positive `n` and
`d`. -/
def Double.exponent (n d : Nat) : Int :=
  let e0 : Int := (Double.bits n : Int) - (Double.bits d : Int)
  if 0 ≤ e0 then (if 2 ^ e0.toNat * d ≤ n then e0 else e0 - 1)
  else (if d ≤ n * 2 ^ (-e0).toNat then e0 else e0 - 1)

/-- The number `(n / d) * 2^k` rounded to nearest, ties to even, with 53
significant binary digits: the rounding of every arithmetic operation on
`double`. -/
def Double.round (n : Int) (d : Nat) (k : Int) : Double :=
  if n = 0 then { m := 0, e := 0 }
  else
    let ex := Double.exponent n.natAbs d
    let s : Int := 52 - ex
    let mant : Nat :=
      if 0 ≤ s then Double.roundHalfEven (n.natAbs * 2 ^ s.toNat) d
      else Double.roundHalfEven n.natAbs (d * 2 ^ (-s).toNat)
    let sign : Int := if 0 < n then 1 else -1
    if mant = 2 ^ 53 then { m := sign * 2 ^ 52, e := k - s + 1 }
    else { m := sign * mant, e := k - s }

/-- The conversion of an `int` to `double`. -/
def Double.ofInt (n : Int) : Double := Double.round n 1 0

/-- The product `a * b` of two doubles. -/
def Double.mul (a b : Double) : Double := Double.round (a.m * b.m) 1 (a.e + b.e)

/-- The quotient `a / b` of two doubles, for `b` not zero. -/
def Double.div (a b : Double) : Double :=
  Double.round (if 0 < b.m then a.m else -a.m) b.m.natAbs (a.e - b.e)

/-- The sum `a + b` of two doubles. -/
def Double.add (a b : Double) : Double :=
  Double.round (a.m * 2 ^ (a.e - min a.e b.e).toNat + b.m * 2 ^ (b.e - min a.e b.e).toNat) 1
    (min a.e b.e)

/-- The double `-a`. -/
def Double.neg (a : Double) : Double := { m := -a.m, e := a.e }

/-- The difference `a - b` of two doubles. -/
def Double.sub (a b : Double) : Double := Double.add a (Double.neg b)

/-- The comparison `a < b` of two doubles. -/
def Double.lt (a b : Double) : Bool :=
  decide (a.m * 2 ^ (a.e - min a.e b.e).toNat < b.m * 2 ^ (b.e - min a.e b.e).toNat)

/-- Whether a result is within the range of binary64, its magnitude being below
`2^1024`; a result that is not is an infinity in C++. -/
def Double.finite (a : Double) : Bool := decide (a.e ≤ 971)

/-- The number that a double is. -/
def Double.toRat (a : Double) : ℚ := (a.m : ℚ) * (2 : ℚ) ^ a.e

/-! ## SDE.hpp -/

/-- Data members of `GBM` (with those inherited from `ISDE`). -/
structure GBM (α : Type) where
  m_ic : α
  m_exp : α
  m_mu : α
  m_vol : α
  m_div : α

/-- Data members of `CEV` (with those inherited from `ISDE`). -/
structure CEV (α : Type) where
  m_ic : α
  m_exp : α
  m_mu : α
  m_vol : α
  m_div : α
  m_beta : α

/-- An object behind an `SDEPointer`: its dynamic type is `GBM` or `CEV`. -/
inductive ISDE (α : Type) where
  | gbm (s : GBM α)
  | cev (s : CEV α)

section SDE
variable {α : Type} [LinearOrderedField α]

/-- Constructor `GBM::GBM`. -/
def GBM.new (driftCoeff diffusionCoeff dividend initialCondition expiry : α) : ISDE α :=
  ISDE.gbm
    { m_ic := initialCondition, m_exp := expiry, m_mu := driftCoeff,
      m_vol := diffusionCoeff, m_div := dividend }

/-- Constructor `CEV::CEV`: the volatility is rescaled by `pow(ic, 1 - beta)`. -/
def CEV.new (M : CMath α) (driftCoeff diffusionCoeff dividend initialCondition expiry beta : α) :
    ISDE α :=
  ISDE.cev
    { m_ic := initialCondition, m_exp := expiry, m_mu := driftCoeff,
      m_vol := diffusionCoeff * M.pow initialCondition (1 - beta),
      m_div := dividend, m_beta := beta }

/-- Getter `ISDE::InitialCondition`. -/
def ISDE.InitialCondition : ISDE α → α
  | ISDE.gbm s => s.m_ic
  | ISDE.cev s => s.m_ic

/-- Getter `ISDE::ExpiryTime`. -/
def ISDE.ExpiryTime : ISDE α → α
  | ISDE.gbm s => s.m_exp
  | ISDE.cev s => s.m_exp

/-- The virtual `Drift`. -/
def ISDE.Drift : ISDE α → α → α
  | ISDE.gbm s, x => (s.m_mu - s.m_div) * x
  | ISDE.cev s, x => (s.m_mu - s.m_div) * x

/-- The virtual `Diffusion`. -/
def ISDE.Diffusion (M : CMath α) : ISDE α → α → α
  | ISDE.gbm s, x => s.m_vol * x
  | ISDE.cev s, x => s.m_vol * M.pow x s.m_beta

/-- The virtual `DiffusionDerivative`. -/
def ISDE.DiffusionDerivative (M : CMath α) : ISDE α → α → α
  | ISDE.gbm s, _ => s.m_vol
  | ISDE.cev s, x =>
    if s.m_beta > 1 then s.m_vol * s.m_beta * M.pow x (s.m_beta - 1)
    else s.m_vol * s.m_beta / M.pow x (1 - s.m_beta)

/-- The virtual `DriftCorrected` (same body in both classes). -/
def ISDE.DriftCorrected (M : CMath α) (s : ISDE α) (x B : α) : α :=
  s.Drift x - B * s.Diffusion M x * s.DiffusionDerivative M x

end SDE

/-! ## FDM.hpp -/

/-- Dynamic type of an `IFDM` object, with the members the derived class adds. -/
inductive FDMClass (α : Type) where
  | EulerFDM
  | MilsteinFDM
  | ModifiedPredictorCorrectorFDM (m_A m_B m_VMid : α)

/-- Data members of `IFDM`, and the derived part. -/
structure IFDM (α : Type) where
  m_sde : ISDE α
  m_NT : Int
  m_vec : List α
  m_k : α
  derived : FDMClass α

section FDM
variable {α : Type} [LinearOrderedField α]

/-- Constructor `IFDM::IFDM`, run by the constructor of each derived class. -/
def IFDM.new (stochasticEquation : ISDE α) (numSubdivisions : Int) (derived : FDMClass α) :
    IFDM α :=
  let m_NT : Int := if numSubdivisions < 0 then 0 else numSubdivisions
  let m_k : α := stochasticEquation.ExpiryTime / (m_NT : α)
  { m_sde := stochasticEquation
    m_NT := m_NT
    m_vec := (List.range (m_NT + 1).toNat).map (fun (n : Nat) => m_k * (n : α))
    m_k := m_k
    derived := derived }

/-- Constructor `EulerFDM::EulerFDM`. -/
def EulerFDM (stochasticEquation : ISDE α) (numSubdivisions : Int) : IFDM α :=
  IFDM.new stochasticEquation numSubdivisions FDMClass.EulerFDM

/-- Constructor `MilsteinFDM::MilsteinFDM`. -/
def MilsteinFDM (stochasticEquation : ISDE α) (numSubdivisions : Int) : IFDM α :=
  IFDM.new stochasticEquation numSubdivisions FDMClass.MilsteinFDM

/-- Constructor `ModifiedPredictorCorrectorFDM::ModifiedPredictorCorrectorFDM`. -/
def ModifiedPredictorCorrectorFDM (stochasticEquation : ISDE α) (numSubdivisions : Int)
    (a b : α) : IFDM α :=
  IFDM.new stochasticEquation numSubdivisions (FDMClass.ModifiedPredictorCorrectorFDM a b 0)

/-- The virtual `advance`: the returned level, and the object after the call
(the predictor-corrector scheme overwrites its scratch member `m_VMid`). -/
def IFDM.advance (M : CMath α) (f : IFDM α) (xn _tn dt normalVar : α) : α × IFDM α :=
  match f.derived with
  | FDMClass.EulerFDM =>
    (xn + f.m_sde.Drift xn * dt + f.m_sde.Diffusion M xn * M.sqrt dt * normalVar, f)
  | FDMClass.MilsteinFDM =>
    (xn + f.m_sde.Drift xn * dt + f.m_sde.Diffusion M xn * M.sqrt dt * normalVar
      + (1 / 2) * dt * f.m_sde.Diffusion M xn * f.m_sde.DiffusionDerivative M xn
        * (normalVar * normalVar - 1), f)
  | FDMClass.ModifiedPredictorCorrectorFDM m_A m_B _ =>
    let m_VMid := xn + f.m_sde.Drift xn * dt + f.m_sde.Diffusion M xn * M.sqrt dt * normalVar
    let driftTerm :=
      (m_A * f.m_sde.DriftCorrected M m_VMid m_B
        + ((1 - m_A) * f.m_sde.DriftCorrected M xn m_B)) * dt
    let diffusionTerm :=
      (m_B * f.m_sde.Diffusion M m_VMid + ((1 - m_B) * f.m_sde.Diffusion M xn))
        * M.sqrt dt * normalVar
    (xn + driftTerm + diffusionTerm,
      { f with derived := FDMClass.ModifiedPredictorCorrectorFDM m_A m_B m_VMid })

end FDM

/-! ## RNG.hpp -/

/-- An object behind an `RNGPointer`: the function wrapper `rng` together with
the engine state `σ` it captures; a call returns a sample and the next state. -/
structure IRNG (α σ : Type) where
  state : σ
  rng : σ → α × σ

section RNG
variable {α σ : Type}

/-- Member `IRNG::GenerateRng`: the sample and the generator after the call. -/
def IRNG.GenerateRng (r : IRNG α σ) : α × IRNG α σ :=
  ((r.rng r.state).1, { r with state := (r.rng r.state).2 })

/-- The generator after `k` calls of `GenerateRng`. -/
def IRNG.after (r : IRNG α σ) : Nat → IRNG α σ
  | 0 => r
  | k + 1 => IRNG.after r.GenerateRng.2 k

/-- The sample returned by call number `k` (counted from 0) of `GenerateRng`. -/
def IRNG.sample (r : IRNG α σ) (k : Nat) : α :=
  (r.after k).GenerateRng.1

end RNG

/-! ## Pricer.hpp -/

/-- Dynamic type of an `IPricer` object, with the members the derived class adds. -/
inductive PricerClass (α : Type) where
  | EuropeanPricer
  | AsianPricer (m_average : α) (m_avgfunc : List α → α)
  | BarrierPricer (m_knock : List α → Bool)

/-- Data members of `IPricer`, and the derived part. -/
structure IPricer (α : Type) where
  m_payoff : α → α
  m_discounter : α
  m_price : α
  m_squaredpayoff : α
  m_sum : α
  m_NSim : Int
  derived : PricerClass α

/-- The three numbers that `PostProcess` prints. -/
structure Report (α : Type) where
  price : α
  sd : α
  se : α

section Pricer
variable {α : Type} [LinearOrderedField α]

/-- Constructor `IPricer::IPricer`, run by the constructor of each derived class. -/
def IPricer.new (payoff : α → α) (discounter : α) (derived : PricerClass α) : IPricer α :=
  { m_payoff := payoff, m_discounter := discounter, m_price := 0, m_squaredpayoff := 0,
    m_sum := 0, m_NSim := 0, derived := derived }

/-- Constructor `EuropeanPricer::EuropeanPricer`. -/
def EuropeanPricer (payoff : α → α) (discounter : α) : IPricer α :=
  IPricer.new payoff discounter PricerClass.EuropeanPricer

/-- Constructor `AsianPricer::AsianPricer`. -/
def AsianPricer (payoff : α → α) (discounter : α) (avgfunc : List α → α) : IPricer α :=
  IPricer.new payoff discounter (PricerClass.AsianPricer 0 avgfunc)

/-- Constructor `BarrierPricer::BarrierPricer`. -/
def BarrierPricer (payoff : α → α) (discounter : α) (knock : List α → Bool) : IPricer α :=
  IPricer.new payoff discounter (PricerClass.BarrierPricer knock)

/-- Getter `IPricer::DiscountFactor`. -/
def IPricer.DiscountFactor (p : IPricer α) : α := p.m_discounter

/-- Getter `IPricer::Price`. -/
def IPricer.Price (p : IPricer α) : α := p.m_price

/-- Models `arr.back()`. A run applies it to non-empty vectors only; on an
empty vector it is undefined behaviour in C++ and `0` here, and the statements
that name the last element of a path take the path non-empty. -/
def back (arr : List α) : α := arr.getLastD 0

/-- The virtual `ProcessPath`. -/
def IPricer.ProcessPath (p : IPricer α) (arr : List α) : IPricer α :=
  match p.derived with
  | PricerClass.EuropeanPricer =>
    let current_payoff := p.m_payoff (back arr)
    { p with
      m_squaredpayoff := p.m_squaredpayoff + current_payoff * current_payoff
      m_sum := p.m_sum + current_payoff
      m_NSim := p.m_NSim + 1 }
  | PricerClass.AsianPricer _ m_avgfunc =>
    let m_average := m_avgfunc arr
    let current_payoff := p.m_payoff m_average
    { p with
      derived := PricerClass.AsianPricer m_average m_avgfunc
      m_squaredpayoff := p.m_squaredpayoff + current_payoff * current_payoff
      m_sum := p.m_sum + current_payoff
      m_NSim := p.m_NSim + 1 }
  | PricerClass.BarrierPricer m_knock =>
    if !m_knock arr then
      let current_payoff := p.m_payoff (back arr)
      { p with
        m_squaredpayoff := p.m_squaredpayoff + current_payoff * current_payoff
        m_sum := p.m_sum + current_payoff
        m_NSim := p.m_NSim + 1 }
    else
      { p with m_NSim := p.m_NSim + 1 }

/-- The virtual `PostProcess` (the three overrides have the same body up to the
label they print): the object after the call and the numbers printed. -/
def IPricer.PostProcess (M : CMath α) (p : IPricer α) : IPricer α × Report α :=
  let payoff := p.m_sum / ((p.m_NSim : α) * 1)
  let m_price := p.DiscountFactor * payoff
  let sd := M.sqrt ((p.m_squaredpayoff / ((p.m_NSim : α) * 1)) - payoff * payoff)
  let se := sd / M.sqrt (p.m_NSim : α)
  ({ p with m_price := m_price }, { price := m_price, sd := sd, se := se })

end Pricer

/-! ## main.cpp: the payoff, average and knock functions handed to the pricers -/

section MainLambdas
variable {α : Type} [LinearOrderedField α]

/-- The lambda `Call`, with the captured strike `K`. -/
def Call (K : α) (x : α) : α := max 0 (x - K)

/-- The lambda `Put`, with the captured strike `K`. -/
def Put (K : α) (x : α) : α := max 0 (K - x)

/-- The lambda `ArithmeticAverage`. -/
def ArithmeticAverage (arr : List α) : α :=
  arr.foldl (fun acc x => acc + x) 0 / (arr.length : α)

/-- The lambda `GeometricAverage`. -/
def GeometricAverage (M : CMath α) (arr : List α) : α :=
  M.pow (arr.foldl (fun acc x => acc * x) 1) (1 / (arr.length : α))

/-- The lambda `UpAndIn`, with the captured `barrier`. -/
def UpAndIn (barrier : α) : List α → Bool
  | [] => true
  | x :: v => if x ≥ barrier then false else UpAndIn barrier v

/-- The lambda `UpAndOut`, with the captured `barrier`. -/
def UpAndOut (barrier : α) : List α → Bool
  | [] => false
  | x :: v => if x ≥ barrier then true else UpAndOut barrier v

/-- The lambda `DownAndIn`, with the captured `barrier`. -/
def DownAndIn (barrier : α) : List α → Bool
  | [] => true
  | x :: v => if x ≤ barrier then false else DownAndIn barrier v

/-- The lambda `DownAndOut`, with the captured `barrier`. -/
def DownAndOut (barrier : α) : List α → Bool
  | [] => false
  | x :: v => if x ≤ barrier then true else DownAndOut barrier v

end MainLambdas

/-! ## Mediator.hpp -/

/-- Data members of `MCMediator`. The two signals are the lists of their
connected slots, in connection order; a slot is the identifier of the pricer
object it is bound to. -/
structure MCMediator (α σ : Type) where
  m_sde : ISDE α
  m_fdm : IFDM α
  m_rng : IRNG α σ
  m_NSim : Int
  m_result : List α
  m_path : List Nat
  m_finish : List Nat

/-- A call that a signal makes on a connected slot. -/
inductive SlotCall (α : Type) where
  | ProcessPath (pricer : Nat) (arr : List α)
  | PostProcess (pricer : Nat) (printed : Report α)

/-- The state of a run of `MCMediator::start`: the mediator, the pricer
objects its slots are bound to, and two logs kept for the statements below:
the vectors passed to the signal `m_path` and the calls made on the slots,
both in the order of their occurrence. -/
structure Run (α σ : Type) where
  med : MCMediator α σ
  pricers : Nat → IPricer α
  published : List (List α)
  calls : List (SlotCall α)

section Mediator
variable {α σ : Type} [LinearOrderedField α]

/-- Constructor `MCMediator::MCMediator`: `resize` fills the buffer with `0.0`. -/
def MCMediator.new (parts : ISDE α × IFDM α × IRNG α σ) (numberSimulations : Int) :
    MCMediator α σ :=
  { m_sde := parts.1
    m_fdm := parts.2.1
    m_rng := parts.2.2
    m_NSim := numberSimulations
    m_result := List.replicate (parts.2.1.m_NT + 1).toNat 0
    m_path := []
    m_finish := [] }

/-- Member `MCMediator::AddPricer`: connects the pricer `p` to both signals. -/
def MCMediator.AddPricer (med : MCMediator α σ) (p : Nat) : MCMediator α σ :=
  { med with m_path := med.m_path ++ [p], m_finish := med.m_finish ++ [p] }

/-- The call `m_path(arr)`: every connected slot runs `ProcessPath(arr)` on
its pricer, in connection order. -/
def Run.emit_path (w : Run α σ) (arr : List α) : Run α σ :=
  w.med.m_path.foldl
    (fun w q =>
      { w with
        pricers := Function.update w.pricers q ((w.pricers q).ProcessPath arr)
        calls := w.calls ++ [SlotCall.ProcessPath q arr] })
    { w with published := w.published ++ [arr] }

/-- The call `m_finish()`: every connected slot runs `PostProcess()` on its
pricer, in connection order. -/
def Run.emit_finish (M : CMath α) (w : Run α σ) : Run α σ :=
  w.med.m_finish.foldl
    (fun w q =>
      { w with
        pricers := Function.update w.pricers q ((w.pricers q).PostProcess M).1
        calls := w.calls ++ [SlotCall.PostProcess q ((w.pricers q).PostProcess M).2] })
    w

/-- The inner loop `for (n = 1; n <= m_NT; n++)` of `start`, entered at
counter `n` with `steps` iterations left and the local `VOld`. -/
def MCMediator.innerLoop (M : CMath α) :
    Nat → Nat → α → MCMediator α σ → MCMediator α σ
  | 0, _, _, med => med
  | steps + 1, n, VOld, med =>
    let drawn := med.m_rng.GenerateRng
    let adv := med.m_fdm.advance M VOld (back med.m_fdm.m_vec) med.m_fdm.m_k drawn.1
    let VNew := adv.1
    MCMediator.innerLoop M steps (n + 1) VNew
      { med with m_rng := drawn.2, m_fdm := adv.2, m_result := med.m_result.set n VNew }

/-- The outer loop `for (i = 1; i <= m_NSim; ++i)` of `start` with `iters`
iterations left. -/
def Run.outerLoop (M : CMath α) : Nat → Run α σ → Run α σ
  | 0, w => w
  | iters + 1, w =>
    let VOld := w.med.m_sde.InitialCondition
    let med0 := { w.med with m_result := w.med.m_result.set 0 VOld }
    let med1 := med0.innerLoop M med0.m_fdm.m_NT.toNat 1 VOld
    Run.outerLoop M iters (Run.emit_path { w with med := med1 } med1.m_result)

/-- Member `MCMediator::start`, run on the mediator `med` with the pricer
objects `pricers`; the logs start empty. -/
def MCMediator.start (M : CMath α) (med : MCMediator α σ) (pricers : Nat → IPricer α) :
    Run α σ :=
  Run.emit_finish M
    (Run.outerLoop M med.m_NSim.toNat
      { med := med, pricers := pricers, published := [], calls := [] })

end Mediator

/-! ## Builder.hpp -/

/-- The object that a builder constructs behind an `RNGPointer`: its class and
the arguments of its constructor (the engines are default-constructed). -/
inductive RNGClass (α : Type) where
  | MTNormalRNG (v1 v2 : α)
  | BoxMullerRNG
  | PolarMarsagliaRNG

/-- Data members of `IBuilder`. -/
structure IBuilder (α : Type) where
  m_rate : α
  m_vol : α
  m_div : α
  m_IC : α
  m_K : α
  m_T : α

/-- The values typed at the prompts of the builders; each is read from
`std::cin` only when the dialogue reaches its prompt. -/
structure Answers (α : Type) where
  /-- Read by `BuilderFactory::ChooseBuilder`. -/
  builder : Int
  /-- Read by `MCBuilder::GetSde`. -/
  sde : Int
  /-- Read by `MCBuilder::GetSde` in its case 2. -/
  beta : α
  /-- Read by `MCBuilder::GetFdm`. -/
  fdm : Int
  /-- Read by `GetFdm` of both builders. -/
  NT : Int
  /-- Read by `MCBuilder::GetFdm` in its case 3. -/
  a : α
  /-- Read by `MCBuilder::GetFdm` in its case 3. -/
  b : α
  /-- Read by `MCBuilder::GetRng`. -/
  rng : Int

section Builder
variable {α : Type} [LinearOrderedField α]

/-- Constructor `IBuilder::IBuilder`, run by the constructors of both
builders; the tuple is rate, volatility, dividend, initial condition, strike,
expiry. -/
def IBuilder.new (optionData : α × α × α × α × α × α) : IBuilder α :=
  { m_rate := optionData.1
    m_vol := optionData.2.1
    m_div := optionData.2.2.1
    m_IC := optionData.2.2.2.1
    m_K := optionData.2.2.2.2.1
    m_T := optionData.2.2.2.2.2 }

/-- Member `MCBuilder::GetSde`: the `switch` on the choice read. -/
def MCBuilder.GetSde (M : CMath α) (bld : IBuilder α) (ans : Answers α) : ISDE α :=
  if ans.sde = 1 then GBM.new bld.m_rate bld.m_vol bld.m_div bld.m_IC bld.m_T
  else if ans.sde = 2 then
    CEV.new M bld.m_rate bld.m_vol bld.m_div bld.m_IC bld.m_T ans.beta
  else GBM.new bld.m_rate bld.m_vol bld.m_div bld.m_IC bld.m_T

/-- Member `MCBuilder::GetFdm`: the `switch` on the choice read. -/
def MCBuilder.GetFdm (sde : ISDE α) (ans : Answers α) : IFDM α :=
  if ans.fdm = 1 then EulerFDM sde ans.NT
  else if ans.fdm = 2 then MilsteinFDM sde ans.NT
  else if ans.fdm = 3 then ModifiedPredictorCorrectorFDM sde ans.NT ans.a ans.b
  else EulerFDM sde ans.NT

/-- Member `MCBuilder::GetRng`: the `switch` on the choice read. -/
def MCBuilder.GetRng (ans : Answers α) : RNGClass α :=
  if ans.rng = 1 then RNGClass.MTNormalRNG 0 1
  else if ans.rng = 2 then RNGClass.BoxMullerRNG
  else if ans.rng = 3 then RNGClass.PolarMarsagliaRNG
  else RNGClass.MTNormalRNG 0 1

/-- Member `MCDefaultBuilder::GetSde`. -/
def MCDefaultBuilder.GetSde (bld : IBuilder α) : ISDE α :=
  GBM.new bld.m_rate bld.m_vol bld.m_div bld.m_IC bld.m_T

/-- Member `MCDefaultBuilder::GetFdm`. -/
def MCDefaultBuilder.GetFdm (sde : ISDE α) (ans : Answers α) : IFDM α :=
  EulerFDM sde ans.NT

/-- Member `MCDefaultBuilder::GetRng`. -/
def MCDefaultBuilder.GetRng : RNGClass α :=
  RNGClass.MTNormalRNG 0 1

/-- Member `IBuilder::Parts()` on an `MCBuilder`. -/
def MCBuilder.Parts (M : CMath α) (bld : IBuilder α) (ans : Answers α) :
    ISDE α × IFDM α × RNGClass α :=
  (MCBuilder.GetSde M bld ans, MCBuilder.GetFdm (MCBuilder.GetSde M bld ans) ans,
    MCBuilder.GetRng ans)

/-- Member `IBuilder::Parts()` on an `MCDefaultBuilder`. -/
def MCDefaultBuilder.Parts (bld : IBuilder α) (ans : Answers α) :
    ISDE α × IFDM α × RNGClass α :=
  (MCDefaultBuilder.GetSde bld, MCDefaultBuilder.GetFdm (MCDefaultBuilder.GetSde bld) ans,
    MCDefaultBuilder.GetRng)

/-- Member `BuilderFactory::ChooseBuilder`: the `switch` on the choice read. -/
def BuilderFactory.ChooseBuilder (M : CMath α) (data : α × α × α × α × α × α)
    (ans : Answers α) : ISDE α × IFDM α × RNGClass α :=
  if ans.builder = 1 then MCDefaultBuilder.Parts (IBuilder.new data) ans
  else if ans.builder = 2 then MCBuilder.Parts M (IBuilder.new data) ans
  else MCDefaultBuilder.Parts (IBuilder.new data) ans

end Builder

/-! ## RNG.hpp: the Polar Marsaglia generator -/

/-- The members `eng` and `uniform` of `PolarMarsagliaRNG`: the state of the
engine, and what a call `uniform(eng)` returns together with the next state. -/
structure UniformSource (α σ : Type) where
  eng : σ
  uniform : σ → α × σ

section PolarMarsaglia
variable {α σ : Type} [LinearOrderedField α]

/-- The loop `do { V1 = ...; V2 = ...; W = ...; } while (W > 1.0);` of the
lambda of `PolarMarsagliaRNG`: the values of `V1`, `V2`, `W` on exit and the
engine then. -/
def PolarMarsagliaRNG.loop (uniform : σ → α × σ) : Nat → σ → Option ((α × α × α) × σ)
  | 0, _ => none
  | fuel + 1, eng =>
    let V1 := 2 * (uniform eng).1 - 1
    let eng1 := (uniform eng).2
    let V2 := 2 * (uniform eng1).1 - 1
    let eng2 := (uniform eng1).2
    let W := V1 * V1 + V2 * V2
    if W > 1 then PolarMarsagliaRNG.loop uniform fuel eng2 else some ((V1, V2, W), eng2)

/-- The lambda that the constructor of `PolarMarsagliaRNG` stores in `rng`:
the sample returned and the generator after the call. -/
def PolarMarsagliaRNG.rng (M : CMath α) (E : CMathExp α) (fuel : Nat)
    (src : UniformSource α σ) : Option (α × UniformSource α σ) :=
  match PolarMarsagliaRNG.loop src.uniform fuel src.eng with
  | none => none
  | some ((V1, _, W), eng) =>
    let Y := M.sqrt (-2 * E.log W / W)
    some (V1 * Y, { src with eng := eng })

end PolarMarsaglia

/-! ## ComputeYieldNewtonMethod -/

/-- Data members of `ComputeYieldNewtonMethod`. -/
structure ComputeYieldNewtonMethod (α : Type) where
  couponInterval : Int
  monthToExpiry : Int
  couponNumber : Int
  couponRate : α
  coupon : α
  price : α
  faceValue : α

section Newton
variable {α : Type} [LinearOrderedField α]

/-- Constructor `ComputeYieldNewtonMethod::ComputeYieldNewtonMethod`; `%` and
`/` on `int` truncate towards zero (a `couponInterval` of 0 is undefined
behaviour in C++). -/
def ComputeYieldNewtonMethod.new (monthToExpiry couponInterval : Int)
    (couponRate faceValue price : α) : ComputeYieldNewtonMethod α :=
  let offset : Int := if Int.tmod monthToExpiry couponInterval = 0 then 0 else 1
  { couponInterval := couponInterval
    monthToExpiry := monthToExpiry
    couponNumber := Int.tdiv monthToExpiry couponInterval + offset
    couponRate := couponRate
    coupon := faceValue * couponRate * ((couponInterval : α) / 12)
    price := price
    faceValue := faceValue }

/-- Member `f`, the bond value function. -/
def ComputeYieldNewtonMethod.f (E : CMathExp α) (b : ComputeYieldNewtonMethod α) (x : α) : α :=
  let total :=
    loopSum
      (fun (i : Nat) =>
        b.coupon * E.exp
          (-x * ((b.monthToExpiry - (b.couponNumber - (i : Int)) * b.couponInterval : Int) : α)
            / 12))
      b.couponNumber.toNat 0
  let total := total + b.faceValue * E.exp (-x * (b.monthToExpiry : α) / 12)
  total - b.price

/-- Member `df`. -/
def ComputeYieldNewtonMethod.df (E : CMathExp α) (b : ComputeYieldNewtonMethod α) (x : α) : α :=
  let total :=
    loopSum
      (fun (i : Nat) =>
        ((b.monthToExpiry - (b.couponNumber - (i : Int)) * b.couponInterval : Int) : α) / 12
          * b.coupon
          * E.exp
            (-x * ((b.monthToExpiry - (b.couponNumber - (i : Int)) * b.couponInterval : Int) : α)
              / 12))
      b.couponInterval.toNat 0
  let total := total + ((b.monthToExpiry : α) / 12) * b.faceValue
    * E.exp (-x * (b.monthToExpiry : α) / 12)
  Neg.neg total

/-- Member `ddf`. -/
def ComputeYieldNewtonMethod.ddf (M : CMath α) (E : CMathExp α)
    (b : ComputeYieldNewtonMethod α) (x : α) : α :=
  let total :=
    loopSum
      (fun (i : Nat) =>
        M.pow
            (((b.monthToExpiry - (b.couponNumber - (i : Int)) * b.couponInterval : Int) : α) / 12)
            2
          * b.coupon
          * E.exp
            (-x * ((b.monthToExpiry - (b.couponNumber - (i : Int)) * b.couponInterval : Int) : α)
              / 12))
      b.couponInterval.toNat 0
  let total := total + M.pow ((b.monthToExpiry : α) / 12) 2 * b.faceValue
    * E.exp (-x * (b.monthToExpiry : α) / 12)
  total

/-- The loop `while (abs(xnew - xold) > tolConsec)` of `newtonMethod`, entered
with the locals `xnew` and `xold`; `fuel` bounds the number of evaluations of
its condition. -/
def ComputeYieldNewtonMethod.newtonLoop (E : CMathExp α) (b : ComputeYieldNewtonMethod α)
    (tolConsec : α) : Nat → α → α → Option α
  | 0, _, _ => none
  | fuel + 1, xnew, xold =>
    if |xnew - xold| > tolConsec then
      ComputeYieldNewtonMethod.newtonLoop E b tolConsec fuel
        (xnew - b.f E xnew / b.df E xnew) xnew
    else some xnew

/-- Member `newtonMethod`. -/
def ComputeYieldNewtonMethod.newtonMethod (M : CMath α) (E : CMathExp α)
    (b : ComputeYieldNewtonMethod α) (fuel : Nat) (x0 : α) : Option α :=
  b.newtonLoop E (M.pow 10 (-6)) fuel x0 (x0 - 1)

/-- Member `getYield`. -/
def ComputeYieldNewtonMethod.getYield (M : CMath α) (E : CMathExp α)
    (b : ComputeYieldNewtonMethod α) (fuel : Nat) (x0 : α) : Option α :=
  b.newtonMethod M E fuel x0

/-- Member `getDuration`. -/
def ComputeYieldNewtonMethod.getDuration (M : CMath α) (E : CMathExp α)
    (b : ComputeYieldNewtonMethod α) (fuel : Nat) (x0 : α) : Option α :=
  match b.newtonMethod M E fuel x0 with
  | none => none
  | some xnew => some (-1 / b.price * b.df E xnew)

/-- Member `getConvexity`. -/
def ComputeYieldNewtonMethod.getConvexity (M : CMath α) (E : CMathExp α)
    (b : ComputeYieldNewtonMethod α) (fuel : Nat) (x0 : α) : Option α :=
  match b.newtonMethod M E fuel x0 with
  | none => none
  | some xnew => some (1 / b.price * b.ddf M E xnew)

/-- Member `getYieldDurationConvexity`. -/
def ComputeYieldNewtonMethod.getYieldDurationConvexity (M : CMath α) (E : CMathExp α)
    (b : ComputeYieldNewtonMethod α) (fuel : Nat) (x0 : α) : Option (α × α × α) :=
  match b.newtonMethod M E fuel x0 with
  | none => none
  | some xnew => some (xnew, -1 / b.price * b.df E xnew, 1 / b.price * b.ddf M E xnew)

end Newton

/-! ## BlackScholesOptionPricer -/

/-- Data members of `BlackScholesOptionPricer`. -/
structure BlackScholesOptionPricer (α : Type) where
  stockPrice : α
  strikePrice : α
  interestRate : α
  dividend : α
  volatility : α
  expiryTime : α

section BlackScholes
variable {α : Type} [LinearOrderedField α]

/-- Member `f`, the density of the standard normal distribution. -/
def BlackScholesOptionPricer.f (M : CMath α) (E : CMathExp α) (x : α) : α :=
  1 / M.sqrt (2 * E.pi) * E.exp (-x * x / 2)

/-- One pass of the body of the `do` loop of `N` with the current number `n`
of intervals: the value of the local `value` at the end of the pass. -/
def BlackScholesOptionPricer.pass (M : CMath α) (E : CMathExp α) (d : α) (n : Nat) : α :=
  let a : α := 0
  let b : α := d
  let h := (b - a) / ((n : α) * 1)
  let total :=
    BlackScholesOptionPricer.f M E a * 1 / 6 + BlackScholesOptionPricer.f M E b * 1 / 6
  let total :=
    loopSum
      (fun (i : Nat) =>
        1 / 3 * BlackScholesOptionPricer.f M E (a + (i : α) * h)
          + 2 / 3 * BlackScholesOptionPricer.f M E (a + (i : α) * h - (1 / 2) * h))
      (n - 1) total
  let total := total + 2 / 3 * BlackScholesOptionPricer.f M E (a + (n : α) * h - (1 / 2) * h)
  let total := total * h
  total + 1 / 2

/-- The `do ... while (abs(value - old_value) > tol)` loop of `N`, entered with
the locals `n` and `value`; `fuel` bounds the number of passes. -/
def BlackScholesOptionPricer.loopN (M : CMath α) (E : CMathExp α) (d tol : α) :
    Nat → Nat → α → Option α
  | 0, _, _ => none
  | fuel + 1, n, value =>
    let old_value := value
    let value := BlackScholesOptionPricer.pass M E d n
    if |value - old_value| > tol then
      BlackScholesOptionPricer.loopN M E d tol fuel (n * 2) value
    else some value

/-- Member `N`: Simpson's rule for the cumulative distribution function. -/
def BlackScholesOptionPricer.N (M : CMath α) (E : CMathExp α) (fuel : Nat) (d : α) : Option α :=
  BlackScholesOptionPricer.loopN M E d (M.pow 10 (-12)) fuel 4 0

/-- The local `d1` of `getNd1` and `getNd2`, as a number: it has no value
where the code computes an infinity or a NaN, that is where the strike is
zero, the ratio of stock price and strike is not positive, the expiry is
negative or the divisor `volatility * sqrt(expiryTime)` is zero. -/
def BlackScholesOptionPricer.d1 (M : CMath α) (E : CMathExp α)
    (o : BlackScholesOptionPricer α) : Option α :=
  match quotient? o.stockPrice o.strikePrice with
  | none => none
  | some ratio =>
    match E.log? ratio, M.sqrt? o.expiryTime with
    | some l, some s =>
      quotient?
        (l + (o.interestRate - o.dividend + o.volatility * o.volatility / 2) * o.expiryTime)
        (o.volatility * s)
    | _, _ => none

/-- Member `getNd1`: no value where `d1` is no number (`N` then returns an
infinity or a NaN) or where the passes of `N` exceed `fuel`. -/
def BlackScholesOptionPricer.getNd1 (M : CMath α) (E : CMathExp α) (fuel : Nat)
    (o : BlackScholesOptionPricer α) : Option α :=
  match o.d1 M E with
  | none => none
  | some d1 => BlackScholesOptionPricer.N M E fuel d1

/-- Member `getNd2`, likewise. -/
def BlackScholesOptionPricer.getNd2 (M : CMath α) (E : CMathExp α) (fuel : Nat)
    (o : BlackScholesOptionPricer α) : Option α :=
  match o.d1 M E, M.sqrt? o.expiryTime with
  | some d1, some s =>
    let d2 := d1 - o.volatility * s
    BlackScholesOptionPricer.N M E fuel d2
  | _, _ => none

/-- Member `callPrice`. -/
def BlackScholesOptionPricer.callPrice (M : CMath α) (E : CMathExp α) (fuel : Nat)
    (o : BlackScholesOptionPricer α) : Option α :=
  match o.getNd1 M E fuel, o.getNd2 M E fuel with
  | some nd1, some nd2 =>
    some (o.stockPrice * E.exp (-o.dividend * o.expiryTime) * nd1
      - o.strikePrice * E.exp (-o.interestRate * o.expiryTime) * nd2)
  | _, _ => none

/-- Member `putPrice`. -/
def BlackScholesOptionPricer.putPrice (M : CMath α) (E : CMathExp α) (fuel : Nat)
    (o : BlackScholesOptionPricer α) : Option α :=
  match o.getNd1 M E fuel, o.getNd2 M E fuel with
  | some nd1, some nd2 =>
    some (o.strikePrice * E.exp (-o.interestRate * o.expiryTime) * (1 - nd2)
      - o.stockPrice * E.exp (-o.dividend * o.expiryTime) * (1 - nd1))
  | _, _ => none

end BlackScholes

/-! ## The same members in binary64 -/

/-- The mesh `m_vec` that the constructor `IFDM::IFDM` builds for the
expiry `expiry` and a step count `m_NT` of at least 1, every operation being
rounded: `m_k = expiry / double(m_NT)` and `m_vec[n] = m_k * n`. -/
def IFDM.m_vec64 (expiry : Double) (m_NT : Nat) : List Double :=
  let m_k := Double.div expiry (Double.ofInt m_NT)
  (List.range (m_NT + 1)).map (fun (n : Nat) => Double.mul m_k (Double.ofInt n))

/-- The lambda `Call` in binary64, with the captured strike `K`:
`std::max(0.0, x - K)`. -/
def Call64 (K : Double) (x : Double) : Double :=
  if Double.lt (Double.ofInt 0) (Double.sub x K) then Double.sub x K else Double.ofInt 0

/-- The running product `std::accumulate(arr.begin(), arr.end(), 1.0,
std::multiplies<double>())` of the lambda `GeometricAverage` in binary64: no
value when a product leaves the range of the format (it is then an infinity,
and stays one). -/
def GeometricAverage.product64 (arr : List Double) : Option Double :=
  arr.foldl
    (fun acc x =>
      match acc with
      | none => none
      | some a => if (Double.mul a x).finite then some (Double.mul a x) else none)
    (some (Double.ofInt 1))

/-- The accumulators of a pricer in binary64. -/
structure Accumulators64 where
  m_squaredpayoff : Double
  m_sum : Double
  m_NSim : Int

/-- The accumulators as the constructor `IPricer::IPricer` sets them. -/
def Accumulators64.new : Accumulators64 :=
  { m_squaredpayoff := Double.ofInt 0, m_sum := Double.ofInt 0, m_NSim := 0 }

/-- What `AsianPricer::ProcessPath` does to the accumulators in binary64, for a
path whose average `m_avgfunc(arr)` is `m_average`. -/
def AsianPricer.ProcessPath64 (m_payoff : Double → Double) (acc : Accumulators64)
    (m_average : Double) : Accumulators64 :=
  let current_payoff := m_payoff m_average
  { m_squaredpayoff := Double.add acc.m_squaredpayoff (Double.mul current_payoff current_payoff)
    m_sum := Double.add acc.m_sum current_payoff
    m_NSim := acc.m_NSim + 1 }

/-- The argument of `std::sqrt` in `PostProcess` in binary64:
`(m_squaredpayoff / (m_NSim*1.0)) - payoff*payoff` with
`payoff = m_sum / (m_NSim*1.0)`, for a count that is not zero. -/
def Accumulators64.radicand (acc : Accumulators64) : Double :=
  let count := Double.mul (Double.ofInt acc.m_NSim) (Double.ofInt 1)
  let payoff := Double.div acc.m_sum count
  Double.sub (Double.div acc.m_squaredpayoff count) (Double.mul payoff payoff)

/-! ## Members whose value may be no number -/

section Checked
variable {α : Type} [LinearOrderedField α] [FloorRing α]

/-- The virtual `Diffusion` as a number. -/
def ISDE.Diffusion? (M : CMath α) : ISDE α → α → Option α
  | ISDE.gbm s, x => some (s.m_vol * x)
  | ISDE.cev s, x =>
    match M.pow? x s.m_beta with
    | none => none
    | some p => some (s.m_vol * p)

/-- The virtual `DiffusionDerivative` as a number. -/
def ISDE.DiffusionDerivative? (M : CMath α) : ISDE α → α → Option α
  | ISDE.gbm s, _ => some s.m_vol
  | ISDE.cev s, x =>
    if s.m_beta > 1 then
      match M.pow? x (s.m_beta - 1) with
      | none => none
      | some p => some (s.m_vol * s.m_beta * p)
    else
      match M.pow? x (1 - s.m_beta) with
      | none => none
      | some p => quotient? (s.m_vol * s.m_beta) p

/-- The virtual `DriftCorrected` as a number: a NaN in one of its factors makes
the product a NaN, also when another factor is zero. -/
def ISDE.DriftCorrected? (M : CMath α) (s : ISDE α) (x B : α) : Option α :=
  match s.Diffusion? M x, s.DiffusionDerivative? M x with
  | some d, some dd => some (s.Drift x - B * d * dd)
  | _, _ => none

/-- The value that the virtual `advance` returns, as a number. -/
def IFDM.advance? (M : CMath α) (f : IFDM α) (xn _tn dt normalVar : α) : Option α :=
  match f.derived with
  | FDMClass.EulerFDM =>
    match f.m_sde.Diffusion? M xn, M.sqrt? dt with
    | some d, some s => some (xn + f.m_sde.Drift xn * dt + d * s * normalVar)
    | _, _ => none
  | FDMClass.MilsteinFDM =>
    match f.m_sde.Diffusion? M xn, f.m_sde.DiffusionDerivative? M xn, M.sqrt? dt with
    | some d, some dd, some s =>
      some (xn + f.m_sde.Drift xn * dt + d * s * normalVar
        + (1 / 2) * dt * d * dd * (normalVar * normalVar - 1))
    | _, _, _ => none
  | FDMClass.ModifiedPredictorCorrectorFDM m_A m_B _ =>
    match f.m_sde.Diffusion? M xn, M.sqrt? dt with
    | some d, some s =>
      let m_VMid := xn + f.m_sde.Drift xn * dt + d * s * normalVar
      match f.m_sde.DriftCorrected? M m_VMid m_B, f.m_sde.DriftCorrected? M xn m_B,
          f.m_sde.Diffusion? M m_VMid with
      | some dcMid, some dcOld, some dMid =>
        let driftTerm := (m_A * dcMid + ((1 - m_A) * dcOld)) * dt
        let diffusionTerm := (m_B * dMid + ((1 - m_B) * d)) * s * normalVar
        some (xn + driftTerm + diffusionTerm)
      | _, _, _ => none
    | _, _ => none

end Checked

/-! ## Quantities the statements below are written with -/

section SpecSide
variable {α σ : Type} [LinearOrderedField α]

/-- The payoff a pricer adds for the path `arr`: the payoff function at the
last value (European), at the average (Asian), and for a barrier pricer at the
last value unless the knock predicate voids the path, when it is `0`. -/
def IPricer.pathPayoff (p : IPricer α) (arr : List α) : α :=
  match p.derived with
  | PricerClass.EuropeanPricer => p.m_payoff (back arr)
  | PricerClass.AsianPricer _ m_avgfunc => p.m_payoff (m_avgfunc arr)
  | PricerClass.BarrierPricer m_knock => if m_knock arr then 0 else p.m_payoff (back arr)

/-- The argument that `PostProcess` passes to `std::sqrt` to get the standard
deviation. -/
def IPricer.variance (p : IPricer α) : α :=
  (p.m_squaredpayoff / ((p.m_NSim : α) * 1))
    - (p.m_sum / ((p.m_NSim : α) * 1)) * (p.m_sum / ((p.m_NSim : α) * 1))

/-- The scheme with its scratch member `m_VMid` reset to the value the
constructor gives it. -/
def IFDM.resetScratch (f : IFDM α) : IFDM α :=
  match f.derived with
  | FDMClass.ModifiedPredictorCorrectorFDM m_A m_B _ =>
    { f with derived := FDMClass.ModifiedPredictorCorrectorFDM m_A m_B 0 }
  | _ => f

/-- The level that `start` computes from the level `x` and the sample `z`:
the value of its call `advance(x, m_vec.back(), m_k, z)`. -/
def IFDM.step (M : CMath α) (f : IFDM α) (x z : α) : α :=
  (f.advance M x (back f.m_vec) f.m_k z).1

/-- The levels after each of `steps` successive steps from the level `x`, the
samples being drawn from `r`. -/
def IFDM.walk (M : CMath α) (f : IFDM α) : Nat → IRNG α σ → α → List α
  | 0, _, _ => []
  | steps + 1, r, x =>
    f.step M x r.GenerateRng.1
      :: IFDM.walk M f steps r.GenerateRng.2 (f.step M x r.GenerateRng.1)

/-- The path number `i` (counted from 0) of a run: the initial condition of
`sde`, then `m_NT` steps of `f` on the samples that follow the
`i * m_NT` samples used by the earlier paths. -/
def simulatedPath (M : CMath α) (sde : ISDE α) (f : IFDM α) (r : IRNG α σ) (i : Nat) : List α :=
  sde.InitialCondition
    :: f.walk M f.m_NT.toNat (r.after (i * f.m_NT.toNat)) sde.InitialCondition

/-- The first `k` paths of a run whose random source is `r` at its start. -/
def simulatedPaths (M : CMath α) (sde : ISDE α) (f : IFDM α) : Nat → IRNG α σ → List (List α)
  | 0, _ => []
  | k + 1, r =>
    (sde.InitialCondition :: f.walk M f.m_NT.toNat r sde.InitialCondition)
      :: simulatedPaths M sde f k (r.after f.m_NT.toNat)

/-- The mediator as `Interface` of main.cpp prepares it: constructed from the
parts and the number of simulations, then `AddPricer` for each pricer of `ps`
in turn. -/
def MCMediator.setup (parts : ISDE α × IFDM α × IRNG α σ) (numberSimulations : Int)
    (ps : List Nat) : MCMediator α σ :=
  ps.foldl MCMediator.AddPricer (MCMediator.new parts numberSimulations)

/-- The pricer `p` after the paths have been published in turn to `k` slots
bound to it (`k` calls of `ProcessPath` for each path). -/
def IPricer.processAll (k : Nat) (p : IPricer α) (paths : List (List α)) : IPricer α :=
  paths.foldl (fun s arr => (fun p => IPricer.ProcessPath p arr)^[k] s) p

/-- The mesh size `ExpiryTime() / double(m_NT)` that the constructor of the
scheme `f` computes, as a number. -/
def IFDM.meshSize? (f : IFDM α) : Option α :=
  quotient? f.m_sde.ExpiryTime (f.m_NT : α)

/-- The mean `m_sum / (m_NSim*1.0)` that `PostProcess` computes, as a number. -/
def IPricer.meanPayoff? (p : IPricer α) : Option α :=
  quotient? p.m_sum ((p.m_NSim : α) * 1)

/-- The pair number `k` (counted from 0) that the loop of the Polar Marsaglia
generator draws from the engine state `eng`: `V1`, `V2`, `W`, and the engine
after the pair. -/
def PolarMarsagliaRNG.pair (uniform : σ → α × σ) : Nat → σ → (α × α × α) × σ
  | 0, eng =>
    ((2 * (uniform eng).1 - 1, 2 * (uniform (uniform eng).2).1 - 1,
      (2 * (uniform eng).1 - 1) * (2 * (uniform eng).1 - 1)
        + (2 * (uniform (uniform eng).2).1 - 1) * (2 * (uniform (uniform eng).2).1 - 1)),
      (uniform (uniform eng).2).2)
  | k + 1, eng => PolarMarsagliaRNG.pair uniform k (uniform (uniform eng).2).2

/-- Composite Simpson's rule for `g` on `n` equal subintervals of `[a, b]`:
on each subinterval, a sixth of its length times the value of `g` at the
left end, four times the value at the midpoint, and the value at the right
end. -/
def compositeSimpson (g : α → α) (a b : α) (n : Nat) : α :=
  ((List.range n).map (fun (i : Nat) =>
    ((b - a) / (n : α)) / 6
      * (g (a + (i : α) * ((b - a) / (n : α)))
        + 4 * g (a + (i : α) * ((b - a) / (n : α)) + ((b - a) / (n : α)) / 2)
        + g (a + ((i : α) + 1) * ((b - a) / (n : α)))))).sum

/-- The term of Simpson's rule for the subinterval number `i` (counted from 0)
of length `h` from `a`: `h/6` times the value of `g` at the left end, four
times the value at the midpoint, and the value at the right end. -/
def simpsonTerm (g : α → α) (a h : α) (i : Nat) : α :=
  h / 6 * (g (a + (i : α) * h) + 4 * g (a + (i : α) * h + h / 2) + g (a + ((i : α) + 1) * h))

/-- The time in years of the coupon number `i` of the bond `b`. -/
def ComputeYieldNewtonMethod.couponTime (b : ComputeYieldNewtonMethod α) (i : Nat) : α :=
  ((b.monthToExpiry - (b.couponNumber - (i : Int)) * b.couponInterval : Int) : α) / 12

/-- The derivative of the bond value function `f` of the bond `b` at `x`: minus
the sum, over the `couponNumber` coupons and the face value, of the time of the
cash flow times the cash flow discounted by `exp(-x*t)`. -/
def ComputeYieldNewtonMethod.fDerivative (E : CMathExp α) (b : ComputeYieldNewtonMethod α)
    (x : α) : α :=
  -(loopSum (fun (i : Nat) => b.couponTime i * b.coupon * E.exp (-x * b.couponTime i))
        b.couponNumber.toNat 0
      + ((b.monthToExpiry : α) / 12) * b.faceValue * E.exp (-x * ((b.monthToExpiry : α) / 12)))

/-- The pricer a slot call is made on. -/
def SlotCall.pricer : SlotCall α → Nat
  | SlotCall.ProcessPath q _ => q
  | SlotCall.PostProcess q _ => q

/-- Whether a slot call is a call of `PostProcess`. -/
def SlotCall.isPostProcess : SlotCall α → Bool
  | SlotCall.ProcessPath _ _ => false
  | SlotCall.PostProcess _ _ => true

end SpecSide

/-! ## Pricers: accumulation and finalisation -/

section PricerLemmas
variable {α : Type} [LinearOrderedField α]

theorem IPricer.pathPayoff_ProcessPath (p : IPricer α) (arr : List α) :
    (p.ProcessPath arr).pathPayoff = p.pathPayoff := by
  funext arr2
  unfold IPricer.ProcessPath IPricer.pathPayoff
  rcases p with ⟨g, D, pr, sq, s, n, cls⟩
  cases cls with
  | EuropeanPricer => rfl
  | AsianPricer a f => rfl
  | BarrierPricer k =>
    dsimp only
    cases hk : k arr <;> simp

theorem IPricer.ProcessPath_fields (p : IPricer α) (arr : List α) :
    (p.ProcessPath arr).m_sum = p.m_sum + p.pathPayoff arr
    ∧ (p.ProcessPath arr).m_squaredpayoff = p.m_squaredpayoff + p.pathPayoff arr * p.pathPayoff arr
    ∧ (p.ProcessPath arr).m_NSim = p.m_NSim + 1
    ∧ (p.ProcessPath arr).m_payoff = p.m_payoff
    ∧ (p.ProcessPath arr).m_discounter = p.m_discounter
    ∧ (p.ProcessPath arr).m_price = p.m_price := by
  unfold IPricer.ProcessPath IPricer.pathPayoff
  rcases p with ⟨g, D, pr, sq, s, n, cls⟩
  cases cls with
  | EuropeanPricer => simp
  | AsianPricer a f => simp
  | BarrierPricer k =>
    dsimp only
    cases hk : k arr <;> simp

theorem IPricer.pathPayoff_foldl (paths : List (List α)) (p : IPricer α) :
    (paths.foldl IPricer.ProcessPath p).pathPayoff = p.pathPayoff := by
  induction paths generalizing p with
  | nil => rfl
  | cons arr rest ih => rw [List.foldl_cons, ih, IPricer.pathPayoff_ProcessPath]

theorem IPricer.foldl_fields (paths : List (List α)) (p : IPricer α) :
    (paths.foldl IPricer.ProcessPath p).m_sum
        = p.m_sum + (paths.map p.pathPayoff).sum
    ∧ (paths.foldl IPricer.ProcessPath p).m_squaredpayoff
        = p.m_squaredpayoff + (paths.map (fun arr => p.pathPayoff arr * p.pathPayoff arr)).sum
    ∧ (paths.foldl IPricer.ProcessPath p).m_NSim = p.m_NSim + (paths.length : Int)
    ∧ (paths.foldl IPricer.ProcessPath p).m_payoff = p.m_payoff
    ∧ (paths.foldl IPricer.ProcessPath p).m_discounter = p.m_discounter
    ∧ (paths.foldl IPricer.ProcessPath p).m_price = p.m_price := by
  induction paths generalizing p with
  | nil => simp
  | cons arr rest ih =>
    obtain ⟨h1, h2, h3, h4, h5, h6⟩ := ih (p.ProcessPath arr)
    obtain ⟨k1, k2, k3, k4, k5, k6⟩ := IPricer.ProcessPath_fields p arr
    simp only [List.foldl_cons, List.map_cons, List.sum_cons, List.length_cons]
    rw [h1, h2, h3, h4, h5, h6, k1, k2, k3, k4, k5, k6, IPricer.pathPayoff_ProcessPath]
    refine ⟨by ring, by ring, ?_, rfl, rfl, rfl⟩
    push_cast
    ring

end PricerLemmas

section PricerClaims
variable {α : Type} [LinearOrderedField α]

theorem back_eq_getLast (arr : List α) (h : arr ≠ []) : back arr = arr.getLast h := by
  unfold back
  cases arr with
  | nil => exact absurd rfl h
  | cons x xs => simp [List.getLastD_eq_getLast?, List.getLast?_eq_getLast]

theorem list_sum_sq_shift_nonneg (xs : List α) (c : α) :
    0 ≤ (xs.map (fun x => x * x)).sum - 2 * c * xs.sum + (xs.length : α) * (c * c) := by
  induction xs with
  | nil => simp
  | cons y ys ih =>
    simp only [List.map_cons, List.sum_cons, List.length_cons]
    push_cast
    nlinarith [sq_nonneg (y - c)]

theorem list_sq_sum_le (xs : List α) :
    xs.sum * xs.sum ≤ (xs.length : α) * (xs.map (fun x => x * x)).sum := by
  induction xs with
  | nil => simp
  | cons y ys ih =>
    simp only [List.map_cons, List.sum_cons, List.length_cons]
    push_cast
    nlinarith [list_sum_sq_shift_nonneg ys y]

theorem variance_nonneg_of_sums (xs : List α) (hxs : xs ≠ []) :
    0 ≤ (xs.map (fun x => x * x)).sum / (xs.length : α)
        - (xs.sum / (xs.length : α)) * (xs.sum / (xs.length : α)) := by
  have hpos : (0 : α) < (xs.length : α) := by
    have : 0 < xs.length := List.length_pos.mpr hxs
    exact_mod_cast this
  have key := list_sq_sum_le xs
  rw [sub_nonneg, div_mul_div_comm, div_le_div_iff₀ (mul_pos hpos hpos) hpos]
  nlinarith [mul_le_mul_of_nonneg_right key hpos.le]

/-- C4: for a non-empty sequence of `N` non-empty paths processed by a fresh
`EuropeanPricer` with payoff function `g` and discount factor `D`, the price
that `PostProcess` sets is `D * (1/N) *` the sum over the paths of `g` at the
last element of the path. -/
theorem C4_european_price (M : CMath α) (g : α → α) (D : α) (paths : List (List α))
    (hN : paths ≠ []) (hne : ∀ arr ∈ paths, arr ≠ []) :
    ((paths.foldl IPricer.ProcessPath (EuropeanPricer g D)).PostProcess M).1.Price
      = D * (1 / (paths.length : α))
          * (paths.pmap (fun arr h => g (arr.getLast h)) hne).sum := by
  have hlast : paths.pmap (fun arr h => g (arr.getLast h)) hne
      = paths.map (fun arr => g (back arr)) := by
    rw [← List.pmap_eq_map (fun arr => arr ≠ []) (fun arr => g (back arr)) paths hne]
    exact List.pmap_congr_left paths (fun arr _ h1 _ => by rw [back_eq_getLast arr h1])
  have hNne : (paths.length : α) ≠ 0 := by
    have : 0 < paths.length := List.length_pos.mpr hN
    exact_mod_cast this.ne'
  obtain ⟨h1, -, h3, -, h5, -⟩ := IPricer.foldl_fields paths (EuropeanPricer g D)
  simp only [IPricer.PostProcess, IPricer.Price, IPricer.DiscountFactor, h1, h3, h5, hlast]
  have hpay : (EuropeanPricer g D).pathPayoff = fun arr => g (back arr) := rfl
  rw [hpay]
  simp only [EuropeanPricer, IPricer.new]
  push_cast
  field_simp

/-- Witness of C4: two paths, a call payoff of strike 1, discount factor 1/2. -/
theorem C4_european_price_witness :
    ([[1, 2], [3]] : List (List ℝ)) ≠ []
    ∧ ((([[1, 2], [3]] : List (List ℝ)).foldl IPricer.ProcessPath
          (EuropeanPricer (Call 1) (1 / 2))).PostProcess
            (CMath.mk Real.sqrt (fun x y => x ^ y))).1.Price
        = (1 / 2) * (1 / (([[1, 2], [3]] : List (List ℝ)).length : ℝ))
            * (([[1, 2], [3]] : List (List ℝ)).pmap (fun arr h => Call 1 (arr.getLast h))
                (by simp)).sum :=
  ⟨by simp,
    C4_european_price (CMath.mk Real.sqrt (fun x y => x ^ y)) (Call 1) (1 / 2) [[1, 2], [3]]
      (by simp) (by simp)⟩

/-- C5: for every pricer variant with count at least 1, `PostProcess` computes
the standard deviation as `sqrt(sumOfSquares/count - mean^2)` with
`mean = sum/count`, and the standard error as that standard deviation divided
by `sqrt(count)`; the count these quotients are taken by is positive. -/
theorem C5_sd_and_se (M : CMath α) (p : IPricer α) (hcount : 1 ≤ p.m_NSim) :
    (p.PostProcess M).2.sd
        = M.sqrt (p.m_squaredpayoff / (p.m_NSim : α) - (p.m_sum / (p.m_NSim : α)) ^ 2)
    ∧ (p.PostProcess M).2.se = (p.PostProcess M).2.sd / M.sqrt (p.m_NSim : α)
    ∧ 0 < (p.m_NSim : α) := by
  refine ⟨?_, ?_, ?_⟩
  · simp only [IPricer.PostProcess, mul_one, pow_two]
  · simp only [IPricer.PostProcess]
  · have h : (0 : Int) < p.m_NSim := by omega
    exact_mod_cast h

/-- Witness of C5: an Asian pricer that has accumulated three paths. -/
theorem C5_sd_and_se_witness :
    (1 : Int) ≤ 3
    ∧ (((IPricer.mk (Call 1) (1 / 2) 0 14 6 3
          (PricerClass.AsianPricer 2 ArithmeticAverage) : IPricer ℝ).PostProcess
            (CMath.mk Real.sqrt (fun x y => x ^ y))).2.sd
        = Real.sqrt ((14 : ℝ) / ((3 : Int) : ℝ) - ((6 : ℝ) / ((3 : Int) : ℝ)) ^ 2)
      ∧ ((IPricer.mk (Call 1) (1 / 2) 0 14 6 3
          (PricerClass.AsianPricer 2 ArithmeticAverage) : IPricer ℝ).PostProcess
            (CMath.mk Real.sqrt (fun x y => x ^ y))).2.se
        = ((IPricer.mk (Call 1) (1 / 2) 0 14 6 3
          (PricerClass.AsianPricer 2 ArithmeticAverage) : IPricer ℝ).PostProcess
            (CMath.mk Real.sqrt (fun x y => x ^ y))).2.sd / Real.sqrt (((3 : Int) : ℝ))
      ∧ 0 < (((3 : Int) : ℝ))) :=
  ⟨by decide,
    C5_sd_and_se (CMath.mk Real.sqrt (fun x y => x ^ y))
      (IPricer.mk (Call 1) (1 / 2) 0 14 6 3 (PricerClass.AsianPricer 2 ArithmeticAverage))
      (by decide)⟩

/-- C6 as stated fails: a European pricer with a call payoff of strike 1 and
discount factor 1/2, after the single path `[3]`, holds the payoff 2 in `m_sum`
and its square 4 in `m_squaredpayoff`, not the discounted payoff 1 and its
square. -/
theorem C6_counterexample :
    (([[3]] : List (List ℚ)).foldl IPricer.ProcessPath (EuropeanPricer (Call 1) (1 / 2))).m_sum
        = 2
    ∧ (([[3]] : List (List ℚ)).foldl IPricer.ProcessPath
          (EuropeanPricer (Call 1) (1 / 2))).m_squaredpayoff = 4
    ∧ (([[3]] : List (List ℚ)).map (fun arr => (1 / 2) * Call 1 (back arr))).sum = 1
    ∧ (([[3]] : List (List ℚ)).foldl IPricer.ProcessPath (EuropeanPricer (Call 1) (1 / 2))).m_sum
        ≠ (([[3]] : List (List ℚ)).map (fun arr => (1 / 2) * Call 1 (back arr))).sum := by
  have h1 : (([[3]] : List (List ℚ)).foldl IPricer.ProcessPath
      (EuropeanPricer (Call 1) (1 / 2))).m_sum = 2 := by
    simp [IPricer.ProcessPath, EuropeanPricer, IPricer.new, Call, back]
    norm_num
  have h2 : (([[3]] : List (List ℚ)).foldl IPricer.ProcessPath
      (EuropeanPricer (Call 1) (1 / 2))).m_squaredpayoff = 4 := by
    simp [IPricer.ProcessPath, EuropeanPricer, IPricer.new, Call, back]
    norm_num
  have h3 : (([[3]] : List (List ℚ)).map (fun arr => (1 / 2) * Call 1 (back arr))).sum = 1 := by
    simp [Call, back]
    norm_num
  refine ⟨h1, h2, h3, ?_⟩
  rw [h1, h3]
  norm_num

/-- C6 amended: for every pricer variant and every sequence of processed
paths, `m_sum` and `m_squaredpayoff` hold the sum and the sum of squares of the
undiscounted payoff of each path (the payoff function's value, and `0` for a
path that a barrier pricer voids), and `m_NSim` holds the number of paths. -/
theorem C6_accumulators (g : α → α) (D : α) (cls : PricerClass α) (paths : List (List α)) :
    (paths.foldl IPricer.ProcessPath (IPricer.new g D cls)).m_sum
        = (paths.map (fun arr => (IPricer.new g D cls).pathPayoff arr)).sum
    ∧ (paths.foldl IPricer.ProcessPath (IPricer.new g D cls)).m_squaredpayoff
        = (paths.map (fun arr => (IPricer.new g D cls).pathPayoff arr ^ 2)).sum
    ∧ (paths.foldl IPricer.ProcessPath (IPricer.new g D cls)).m_NSim = (paths.length : Int) := by
  obtain ⟨h1, h2, h3, -, -, -⟩ := IPricer.foldl_fields paths (IPricer.new g D cls)
  refine ⟨?_, ?_, ?_⟩
  · rw [h1]
    simp [IPricer.new]
  · rw [h2]
    simp [IPricer.new, pow_two]
  · rw [h3]
    simp [IPricer.new]

/-- C7: in exact arithmetic, for every pricer variant and every non-empty
sequence of processed paths, the number whose square root `PostProcess` takes,
`sumOfSquares/count - (sum/count)^2`, is not negative. -/
theorem C7_variance_nonneg (M : CMath α) (g : α → α) (D : α) (cls : PricerClass α)
    (paths : List (List α)) (hN : paths ≠ []) :
    ((paths.foldl IPricer.ProcessPath (IPricer.new g D cls)).PostProcess M).2.sd
        = M.sqrt (paths.foldl IPricer.ProcessPath (IPricer.new g D cls)).variance
    ∧ (paths.foldl IPricer.ProcessPath (IPricer.new g D cls)).variance
        = (paths.foldl IPricer.ProcessPath (IPricer.new g D cls)).m_squaredpayoff
            / ((paths.foldl IPricer.ProcessPath (IPricer.new g D cls)).m_NSim : α)
          - ((paths.foldl IPricer.ProcessPath (IPricer.new g D cls)).m_sum
            / ((paths.foldl IPricer.ProcessPath (IPricer.new g D cls)).m_NSim : α)) ^ 2
    ∧ 0 ≤ (paths.foldl IPricer.ProcessPath (IPricer.new g D cls)).variance := by
  refine ⟨rfl, by simp only [IPricer.variance, mul_one, pow_two], ?_⟩
  obtain ⟨h1, h2, h3, -, -, -⟩ := IPricer.foldl_fields paths (IPricer.new g D cls)
  have key := variance_nonneg_of_sums (paths.map (IPricer.new g D cls).pathPayoff)
    (by simpa using hN)
  simp only [IPricer.variance, h1, h2, h3, mul_one]
  simp only [IPricer.new, zero_add, Int.cast_zero, Int.cast_natCast]
  simpa [List.map_map, Function.comp_def] using key

/-- Witness of C7: a barrier pricer and two paths, the second voided. -/
theorem C7_variance_nonneg_witness :
    ([[1, 2], [3, 5]] : List (List ℝ)) ≠ []
    ∧ 0 ≤ (([[1, 2], [3, 5]] : List (List ℝ)).foldl IPricer.ProcessPath
          (IPricer.new (Call 1) (1 / 2) (PricerClass.BarrierPricer (UpAndOut 4)))).variance :=
  ⟨by simp,
    (C7_variance_nonneg (CMath.mk Real.sqrt (fun x y => x ^ y)) (Call 1) (1 / 2)
      (PricerClass.BarrierPricer (UpAndOut 4)) [[1, 2], [3, 5]] (by simp)).2.2⟩

/-- C8: `BarrierPricer::ProcessPath` adds one to the path count whether or not
the knock predicate voids the path; when the predicate returns true the sum and
the sum of squares are unchanged, and when it returns false they grow by the
payoff at the last path value and by its square, which is what
`EuropeanPricer::ProcessPath` does to the same accumulators. -/
theorem C8_barrier_ProcessPath (p : IPricer α) (m_knock : List α → Bool) (arr : List α)
    (hcls : p.derived = PricerClass.BarrierPricer m_knock) (hne : arr ≠ []) :
    (p.ProcessPath arr).m_NSim = p.m_NSim + 1
    ∧ (m_knock arr = true →
        (p.ProcessPath arr).m_sum = p.m_sum
        ∧ (p.ProcessPath arr).m_squaredpayoff = p.m_squaredpayoff)
    ∧ (m_knock arr = false →
        (p.ProcessPath arr).m_sum = p.m_sum + p.m_payoff (arr.getLast hne)
        ∧ (p.ProcessPath arr).m_squaredpayoff
            = p.m_squaredpayoff + p.m_payoff (arr.getLast hne) * p.m_payoff (arr.getLast hne)
        ∧ (p.ProcessPath arr).m_sum
            = (IPricer.ProcessPath { p with derived := PricerClass.EuropeanPricer } arr).m_sum
        ∧ (p.ProcessPath arr).m_squaredpayoff
            = (IPricer.ProcessPath
                { p with derived := PricerClass.EuropeanPricer } arr).m_squaredpayoff) := by
  rw [← back_eq_getLast arr hne]
  rcases p with ⟨g, D, pr, sq, s, n, cls⟩
  dsimp only at hcls
  subst hcls
  refine ⟨?_, ?_, ?_⟩
  · unfold IPricer.ProcessPath
    dsimp only
    cases m_knock arr <;> simp
  · intro hk
    unfold IPricer.ProcessPath
    simp [hk]
  · intro hk
    unfold IPricer.ProcessPath
    simp [hk]

/-- Witness of C8: an up-and-out barrier pricer on a path that stays below the
barrier; the accumulators 2 and 4 grow by the payoff 1 and its square. -/
theorem C8_barrier_ProcessPath_witness :
    (IPricer.mk (Call 1) (1 / 2) 0 4 2 1 (PricerClass.BarrierPricer (UpAndOut 4)) :
        IPricer ℝ).derived = PricerClass.BarrierPricer (UpAndOut 4)
    ∧ ([1, 2] : List ℝ) ≠ []
    ∧ UpAndOut (4 : ℝ) [1, 2] = false
    ∧ ((IPricer.mk (Call 1) (1 / 2) 0 4 2 1 (PricerClass.BarrierPricer (UpAndOut 4)) :
        IPricer ℝ).ProcessPath [1, 2]).m_NSim = 1 + 1
    ∧ ((IPricer.mk (Call 1) (1 / 2) 0 4 2 1 (PricerClass.BarrierPricer (UpAndOut 4)) :
        IPricer ℝ).ProcessPath [1, 2]).m_sum
        = 2 + Call 1 (([1, 2] : List ℝ).getLast (List.cons_ne_nil 1 [2]))
    ∧ ((IPricer.mk (Call 1) (1 / 2) 0 4 2 1 (PricerClass.BarrierPricer (UpAndOut 4)) :
        IPricer ℝ).ProcessPath [1, 2]).m_squaredpayoff
        = 4 + Call 1 (([1, 2] : List ℝ).getLast (List.cons_ne_nil 1 [2]))
            * Call 1 (([1, 2] : List ℝ).getLast (List.cons_ne_nil 1 [2])) := by
  have hk : UpAndOut (4 : ℝ) [1, 2] = false := by
    simp only [UpAndOut]
    norm_num
  have h := C8_barrier_ProcessPath
    (IPricer.mk (Call 1) (1 / 2) 0 4 2 1 (PricerClass.BarrierPricer (UpAndOut 4)) : IPricer ℝ)
    (UpAndOut 4) [1, 2] rfl (List.cons_ne_nil 1 [2])
  exact ⟨rfl, List.cons_ne_nil 1 [2], hk, h.1, (h.2.2 hk).1, (h.2.2 hk).2.1⟩

end PricerClaims

/-! ## Schemes: what `advance` reads and writes -/

section SchemeLemmas
variable {α σ : Type} [LinearOrderedField α]

theorem IFDM.resetScratch_fields (f : IFDM α) :
    f.resetScratch.m_sde = f.m_sde ∧ f.resetScratch.m_NT = f.m_NT
    ∧ f.resetScratch.m_vec = f.m_vec ∧ f.resetScratch.m_k = f.m_k := by
  rcases f with ⟨sde, nt, vec, k, cls⟩
  cases cls <;> simp [IFDM.resetScratch]

theorem IFDM.fields_of_resetScratch_eq {f f2 : IFDM α} (h : f.resetScratch = f2.resetScratch) :
    f.m_sde = f2.m_sde ∧ f.m_NT = f2.m_NT ∧ f.m_vec = f2.m_vec ∧ f.m_k = f2.m_k := by
  obtain ⟨a1, a2, a3, a4⟩ := IFDM.resetScratch_fields f
  obtain ⟨b1, b2, b3, b4⟩ := IFDM.resetScratch_fields f2
  rw [h] at a1 a2 a3 a4
  exact ⟨a1.symm.trans b1, a2.symm.trans b2, a3.symm.trans b3, a4.symm.trans b4⟩

/-- After a call of `advance` the scheme differs at most in its scratch member. -/
theorem IFDM.advance_snd_resetScratch (M : CMath α) (f : IFDM α) (xn tn dt z : α) :
    (f.advance M xn tn dt z).2.resetScratch = f.resetScratch := by
  rcases f with ⟨sde, nt, vec, k, cls⟩
  cases cls <;> simp [IFDM.advance, IFDM.resetScratch]

/-- The value of `advance` depends neither on the scratch member nor on the
time argument. -/
theorem IFDM.advance_fst_congr (M : CMath α) {f f2 : IFDM α}
    (h : f.resetScratch = f2.resetScratch) (xn tn tn2 dt z : α) :
    (f.advance M xn tn dt z).1 = (f2.advance M xn tn2 dt z).1 := by
  rcases f with ⟨sde, nt, vec, k, cls⟩
  rcases f2 with ⟨sde2, nt2, vec2, k2, cls2⟩
  cases cls <;> cases cls2 <;> simp [IFDM.resetScratch] at h <;>
    simp [IFDM.advance, h]

theorem IFDM.step_congr (M : CMath α) {f f2 : IFDM α} (h : f.resetScratch = f2.resetScratch) :
    f.step M = f2.step M := by
  funext x z
  unfold IFDM.step
  rw [(IFDM.fields_of_resetScratch_eq h).2.2.2]
  exact IFDM.advance_fst_congr M h x _ _ _ z

theorem IFDM.walk_congr (M : CMath α) {f f2 : IFDM α} (h : f.resetScratch = f2.resetScratch)
    (steps : Nat) (r : IRNG α σ) (x : α) : f.walk M steps r x = f2.walk M steps r x := by
  induction steps generalizing r x with
  | zero => rfl
  | succ s ih => simp only [IFDM.walk, IFDM.step_congr M h, ih]

theorem IFDM.length_walk (M : CMath α) (f : IFDM α) (steps : Nat) (r : IRNG α σ) (x : α) :
    (f.walk M steps r x).length = steps := by
  induction steps generalizing r x with
  | zero => rfl
  | succ s ih => simp [IFDM.walk, ih]

end SchemeLemmas

section GeneratorLemmas
variable {α σ : Type}

theorem IRNG.after_succ (r : IRNG α σ) (k : Nat) :
    r.after (k + 1) = (r.after k).GenerateRng.2 := by
  induction k generalizing r with
  | zero => rfl
  | succ k ih =>
    show IRNG.after r.GenerateRng.2 (k + 1) = _
    rw [ih]
    rfl

theorem IRNG.after_add (r : IRNG α σ) (a b : Nat) : (r.after a).after b = r.after (a + b) := by
  induction a generalizing r with
  | zero => simp [IRNG.after]
  | succ a ih =>
    show (IRNG.after r.GenerateRng.2 a).after b = _
    rw [ih, Nat.add_right_comm]
    rfl

theorem IRNG.sample_after (r : IRNG α σ) (a b : Nat) : (r.after a).sample b = r.sample (a + b) := by
  unfold IRNG.sample
  rw [IRNG.after_add]

theorem MCMediator.foldl_AddPricer (ps : List Nat) (med : MCMediator α σ) :
    ps.foldl MCMediator.AddPricer med
      = { med with m_path := med.m_path ++ ps, m_finish := med.m_finish ++ ps } := by
  induction ps generalizing med with
  | nil => simp
  | cons q rest ih => simp [List.foldl_cons, ih, MCMediator.AddPricer]

end GeneratorLemmas

/-! ## The mediator: the loops of `start` -/

section MediatorLemmas
variable {α σ : Type} [LinearOrderedField α]

/-- The inner loop writes the walk of the scheme into the buffer from index
`n` on, and touches nothing else but the generator and the scratch member. -/
theorem MCMediator.innerLoop_spec (M : CMath α) (steps n : Nat) (VOld : α)
    (med : MCMediator α σ) (hlen : n + steps ≤ med.m_result.length) :
    (med.innerLoop M steps n VOld).m_sde = med.m_sde
    ∧ (med.innerLoop M steps n VOld).m_NSim = med.m_NSim
    ∧ (med.innerLoop M steps n VOld).m_path = med.m_path
    ∧ (med.innerLoop M steps n VOld).m_finish = med.m_finish
    ∧ (med.innerLoop M steps n VOld).m_fdm.resetScratch = med.m_fdm.resetScratch
    ∧ (med.innerLoop M steps n VOld).m_rng = med.m_rng.after steps
    ∧ (med.innerLoop M steps n VOld).m_result
        = med.m_result.take n ++ med.m_fdm.walk M steps med.m_rng VOld
            ++ med.m_result.drop (n + steps) := by
  induction steps generalizing n VOld med with
  | zero => simp [MCMediator.innerLoop, IFDM.walk, IRNG.after]
  | succ s ih =>
    have hn : n < med.m_result.length := by omega
    simp only [MCMediator.innerLoop]
    obtain ⟨h1, h2, h3, h4, h5, h6, h7⟩ := ih (n + 1)
      (med.m_fdm.advance M VOld (back med.m_fdm.m_vec) med.m_fdm.m_k med.m_rng.GenerateRng.1).1
      { med with
        m_rng := med.m_rng.GenerateRng.2
        m_fdm := (med.m_fdm.advance M VOld (back med.m_fdm.m_vec) med.m_fdm.m_k
          med.m_rng.GenerateRng.1).2
        m_result := med.m_result.set n
          (med.m_fdm.advance M VOld (back med.m_fdm.m_vec) med.m_fdm.m_k
            med.m_rng.GenerateRng.1).1 }
      (by simp only [List.length_set]; omega)
    refine ⟨h1, h2, h3, h4, ?_, ?_, ?_⟩
    · rw [h5]
      exact IFDM.advance_snd_resetScratch M _ _ _ _ _
    · rw [h6]
      rfl
    · rw [h7]
      have hw := IFDM.walk_congr (σ := σ) M
        (IFDM.advance_snd_resetScratch M med.m_fdm VOld (back med.m_fdm.m_vec) med.m_fdm.m_k
          med.m_rng.GenerateRng.1)
      simp only [hw, IFDM.walk, IFDM.step]
      have ht : (med.m_result.set n
          (med.m_fdm.advance M VOld (back med.m_fdm.m_vec) med.m_fdm.m_k
            med.m_rng.GenerateRng.1).1).take (n + 1)
          = med.m_result.take n
            ++ [(med.m_fdm.advance M VOld (back med.m_fdm.m_vec) med.m_fdm.m_k
              med.m_rng.GenerateRng.1).1] := by
        rw [List.set_eq_take_append_cons_drop, if_pos hn, List.take_append_eq_append_take]
        simp [List.length_take, Nat.min_eq_left hn.le]
      have hd : (med.m_result.set n
          (med.m_fdm.advance M VOld (back med.m_fdm.m_vec) med.m_fdm.m_k
            med.m_rng.GenerateRng.1).1).drop (n + 1 + s)
          = med.m_result.drop (n + (s + 1)) := by
        rw [List.drop_set_of_lt _ _ (by omega)]
        congr 1
        omega
      rw [ht, hd]
      simp [List.append_assoc]

theorem Run.emit_path_fold (arr : List α) (slots : List Nat) (w : Run α σ) :
    (slots.foldl
        (fun (w : Run α σ) q =>
          { w with
            pricers := Function.update w.pricers q ((w.pricers q).ProcessPath arr)
            calls := w.calls ++ [SlotCall.ProcessPath q arr] }) w).med = w.med
    ∧ (slots.foldl
        (fun (w : Run α σ) q =>
          { w with
            pricers := Function.update w.pricers q ((w.pricers q).ProcessPath arr)
            calls := w.calls ++ [SlotCall.ProcessPath q arr] }) w).published = w.published
    ∧ (slots.foldl
        (fun (w : Run α σ) q =>
          { w with
            pricers := Function.update w.pricers q ((w.pricers q).ProcessPath arr)
            calls := w.calls ++ [SlotCall.ProcessPath q arr] }) w).calls
        = w.calls ++ slots.map (fun q => SlotCall.ProcessPath q arr)
    ∧ ∀ q, (slots.foldl
        (fun (w : Run α σ) q =>
          { w with
            pricers := Function.update w.pricers q ((w.pricers q).ProcessPath arr)
            calls := w.calls ++ [SlotCall.ProcessPath q arr] }) w).pricers q
        = (fun p => IPricer.ProcessPath p arr)^[slots.count q] (w.pricers q) := by
  induction slots generalizing w with
  | nil => simp
  | cons q0 rest ih =>
    simp only [List.foldl_cons]
    obtain ⟨h1, h2, h3, h4⟩ := ih
      { w with
        pricers := Function.update w.pricers q0 ((w.pricers q0).ProcessPath arr)
        calls := w.calls ++ [SlotCall.ProcessPath q0 arr] }
    refine ⟨h1, h2, ?_, ?_⟩
    · rw [h3]
      simp
    · intro q
      rw [h4 q]
      by_cases hq : q0 = q
      · subst hq
        simp [Function.iterate_succ_apply]
      · simp [List.count_cons_of_ne (Ne.symm hq), Function.update_noteq (Ne.symm hq)]

/-- The call `m_path(arr)`: what it leaves behind. -/
theorem Run.emit_path_spec (w : Run α σ) (arr : List α) :
    (w.emit_path arr).med = w.med
    ∧ (w.emit_path arr).published = w.published ++ [arr]
    ∧ (w.emit_path arr).calls
        = w.calls ++ w.med.m_path.map (fun q => SlotCall.ProcessPath q arr)
    ∧ ∀ q, (w.emit_path arr).pricers q
        = (fun p => IPricer.ProcessPath p arr)^[w.med.m_path.count q] (w.pricers q) := by
  unfold Run.emit_path
  exact Run.emit_path_fold arr w.med.m_path { w with published := w.published ++ [arr] }

/-- `PostProcess` writes the price only: what it prints next time is the same. -/
theorem IPricer.PostProcess_snd_PostProcess (M : CMath α) (p : IPricer α) :
    ((p.PostProcess M).1.PostProcess M).2 = (p.PostProcess M).2 := rfl

theorem IPricer.PostProcess_snd_iterate (M : CMath α) (k : Nat) (p : IPricer α) :
    (((fun p => (IPricer.PostProcess M p).1)^[k] p).PostProcess M).2 = (p.PostProcess M).2 := by
  induction k generalizing p with
  | zero => rfl
  | succ k ih => rw [Function.iterate_succ_apply, ih, IPricer.PostProcess_snd_PostProcess]

theorem Run.emit_finish_fold (M : CMath α) (slots : List Nat) (w : Run α σ) :
    (slots.foldl
        (fun (w : Run α σ) q =>
          { w with
            pricers := Function.update w.pricers q ((w.pricers q).PostProcess M).1
            calls := w.calls ++ [SlotCall.PostProcess q ((w.pricers q).PostProcess M).2] })
        w).med = w.med
    ∧ (slots.foldl
        (fun (w : Run α σ) q =>
          { w with
            pricers := Function.update w.pricers q ((w.pricers q).PostProcess M).1
            calls := w.calls ++ [SlotCall.PostProcess q ((w.pricers q).PostProcess M).2] })
        w).published = w.published
    ∧ (slots.foldl
        (fun (w : Run α σ) q =>
          { w with
            pricers := Function.update w.pricers q ((w.pricers q).PostProcess M).1
            calls := w.calls ++ [SlotCall.PostProcess q ((w.pricers q).PostProcess M).2] })
        w).calls
        = w.calls
          ++ slots.map (fun q => SlotCall.PostProcess q ((w.pricers q).PostProcess M).2)
    ∧ ∀ q, (slots.foldl
        (fun (w : Run α σ) q =>
          { w with
            pricers := Function.update w.pricers q ((w.pricers q).PostProcess M).1
            calls := w.calls ++ [SlotCall.PostProcess q ((w.pricers q).PostProcess M).2] })
        w).pricers q
        = (fun p => (IPricer.PostProcess M p).1)^[slots.count q] (w.pricers q) := by
  induction slots generalizing w with
  | nil => simp
  | cons q0 rest ih =>
    simp only [List.foldl_cons]
    obtain ⟨h1, h2, h3, h4⟩ := ih
      { w with
        pricers := Function.update w.pricers q0 ((w.pricers q0).PostProcess M).1
        calls := w.calls ++ [SlotCall.PostProcess q0 ((w.pricers q0).PostProcess M).2] }
    refine ⟨h1, h2, ?_, ?_⟩
    · rw [h3]
      simp only [List.map_cons, List.append_assoc, List.singleton_append]
      congr 2
      apply List.map_congr_left
      intro q _
      by_cases hq : q = q0
      · subst hq
        simp [IPricer.PostProcess_snd_PostProcess]
      · simp [Function.update_noteq hq]
    · intro q
      rw [h4 q]
      by_cases hq : q0 = q
      · subst hq
        simp [Function.iterate_succ_apply]
      · simp [List.count_cons_of_ne (Ne.symm hq), Function.update_noteq (Ne.symm hq)]

/-- The call `m_finish()`: what it leaves behind. -/
theorem Run.emit_finish_spec (M : CMath α) (w : Run α σ) :
    (w.emit_finish M).med = w.med
    ∧ (w.emit_finish M).published = w.published
    ∧ (w.emit_finish M).calls
        = w.calls
          ++ w.med.m_finish.map (fun q => SlotCall.PostProcess q ((w.pricers q).PostProcess M).2)
    ∧ ∀ q, (w.emit_finish M).pricers q
        = (fun p => (IPricer.PostProcess M p).1)^[w.med.m_finish.count q] (w.pricers q) := by
  unfold Run.emit_finish
  exact Run.emit_finish_fold M w.med.m_finish w

theorem simulatedPaths_congr (M : CMath α) (sde : ISDE α) {f f2 : IFDM α}
    (h : f.resetScratch = f2.resetScratch) (k : Nat) (r : IRNG α σ) :
    simulatedPaths M sde f k r = simulatedPaths M sde f2 k r := by
  induction k generalizing r with
  | zero => rfl
  | succ k ih =>
    simp only [simulatedPaths, IFDM.walk_congr M h, (IFDM.fields_of_resetScratch_eq h).2.1, ih]

/-- The outer loop publishes the simulated paths one after the other. -/
theorem Run.outerLoop_spec (M : CMath α) (iters : Nat) (w : Run α σ)
    (hlen : w.med.m_result.length = w.med.m_fdm.m_NT.toNat + 1) :
    (w.outerLoop M iters).med.m_sde = w.med.m_sde
    ∧ (w.outerLoop M iters).med.m_NSim = w.med.m_NSim
    ∧ (w.outerLoop M iters).med.m_path = w.med.m_path
    ∧ (w.outerLoop M iters).med.m_finish = w.med.m_finish
    ∧ (w.outerLoop M iters).med.m_fdm.resetScratch = w.med.m_fdm.resetScratch
    ∧ (w.outerLoop M iters).med.m_rng = w.med.m_rng.after (iters * w.med.m_fdm.m_NT.toNat)
    ∧ (w.outerLoop M iters).published
        = w.published ++ simulatedPaths M w.med.m_sde w.med.m_fdm iters w.med.m_rng
    ∧ (w.outerLoop M iters).calls
        = w.calls ++ (simulatedPaths M w.med.m_sde w.med.m_fdm iters w.med.m_rng).flatMap
            (fun arr => w.med.m_path.map (fun q => SlotCall.ProcessPath q arr))
    ∧ ∀ q, (w.outerLoop M iters).pricers q
        = (w.pricers q).processAll (w.med.m_path.count q)
            (simulatedPaths M w.med.m_sde w.med.m_fdm iters w.med.m_rng) := by
  induction iters generalizing w with
  | zero => simp [Run.outerLoop, simulatedPaths, IRNG.after, IPricer.processAll]
  | succ k ih =>
    obtain ⟨i1, i2, i3, i4, i5, i6, i7⟩ := MCMediator.innerLoop_spec M w.med.m_fdm.m_NT.toNat 1
      w.med.m_sde.InitialCondition
      { w.med with m_result := w.med.m_result.set 0 w.med.m_sde.InitialCondition }
      (by simp only [List.length_set]; omega)
    have hpath : (MCMediator.innerLoop M w.med.m_fdm.m_NT.toNat 1 w.med.m_sde.InitialCondition
        { w.med with m_result := w.med.m_result.set 0 w.med.m_sde.InitialCondition }).m_result
        = w.med.m_sde.InitialCondition
          :: w.med.m_fdm.walk M w.med.m_fdm.m_NT.toNat w.med.m_rng
              w.med.m_sde.InitialCondition := by
      rw [i7]
      dsimp only
      have hpos : 0 < w.med.m_result.length := by omega
      have h1 : (w.med.m_result.set 0 w.med.m_sde.InitialCondition).take 1
          = [w.med.m_sde.InitialCondition] := by
        cases hres : w.med.m_result with
        | nil => rw [hres] at hpos; exact absurd hpos (by simp)
        | cons a l => simp
      have h2 : (w.med.m_result.set 0 w.med.m_sde.InitialCondition).drop
          (1 + w.med.m_fdm.m_NT.toNat) = [] := by
        apply List.drop_eq_nil_of_le
        simp only [List.length_set]
        omega
      rw [h1, h2]
      simp
    simp only [Run.outerLoop]
    dsimp only at i1 i2 i3 i4 i5 i6
    generalize MCMediator.innerLoop M w.med.m_fdm.m_NT.toNat 1 w.med.m_sde.InitialCondition
        { w.med with m_result := w.med.m_result.set 0 w.med.m_sde.InitialCondition } = med1
      at i1 i2 i3 i4 i5 i6 hpath ⊢
    clear i7
    have hNT := (IFDM.fields_of_resetScratch_eq i5).2.1
    obtain ⟨e1, e2, e3, e4⟩ := Run.emit_path_spec { w with med := med1 } med1.m_result
    dsimp only at e1 e2 e3 e4
    have hlen1 : (Run.emit_path { w with med := med1 } med1.m_result).med.m_result.length
        = (Run.emit_path { w with med := med1 } med1.m_result).med.m_fdm.m_NT.toNat + 1 := by
      rw [e1, hpath, hNT]
      simp [IFDM.length_walk]
    obtain ⟨h1, h2, h3, h4, h5, h6, h7, h8, h9⟩ := ih _ hlen1
    generalize Run.emit_path { w with med := med1 } med1.m_result = w1
      at e1 e2 e3 e4 h1 h2 h3 h4 h5 h6 h7 h8 h9 ⊢
    subst e1
    have hsp : simulatedPaths M w.med.m_sde w.med.m_fdm (k + 1) w.med.m_rng
        = w1.med.m_result :: simulatedPaths M w1.med.m_sde w1.med.m_fdm k w1.med.m_rng := by
      rw [hpath, i1, i6, simulatedPaths_congr M w.med.m_sde i5]
      rfl
    refine ⟨h1.trans i1, h2.trans i2, h3.trans i3, h4.trans i4, h5.trans i5, ?_, ?_, ?_, ?_⟩
    · rw [h6, hNT, i6, IRNG.after_add]
      congr 1
      ring
    · rw [h7, e2, hsp]
      simp
    · rw [h8, e3, hsp, i3]
      simp
    · intro q
      rw [h9 q, e4 q, hsp, i3]
      simp [IPricer.processAll]

theorem MCMediator.setup_eq (parts : ISDE α × IFDM α × IRNG α σ) (NSim : Int) (ps : List Nat) :
    MCMediator.setup parts NSim ps
      = { m_sde := parts.1, m_fdm := parts.2.1, m_rng := parts.2.2, m_NSim := NSim
          m_result := List.replicate (parts.2.1.m_NT + 1).toNat 0
          m_path := ps, m_finish := ps } := by
  simp [MCMediator.setup, MCMediator.foldl_AddPricer, MCMediator.new]

theorem IFDM.new_NT_nonneg (sde : ISDE α) (numSubdivisions : Int) (cls : FDMClass α) :
    0 ≤ (IFDM.new sde numSubdivisions cls).m_NT := by
  simp only [IFDM.new]
  split_ifs <;> omega

theorem IFDM.new_m_vec_getElem? (sde : ISDE α) (numSubdivisions : Int) (cls : FDMClass α)
    (m : Nat) (hm : m < ((IFDM.new sde numSubdivisions cls).m_NT + 1).toNat) :
    (IFDM.new sde numSubdivisions cls).m_vec[m]?
      = some ((IFDM.new sde numSubdivisions cls).m_k * (m : α)) := by
  have h : (IFDM.new sde numSubdivisions cls).m_vec
      = (List.range ((IFDM.new sde numSubdivisions cls).m_NT + 1).toNat).map
          (fun (k : Nat) => (IFDM.new sde numSubdivisions cls).m_k * (k : α)) := rfl
  rw [h, List.getElem?_map, List.getElem?_range hm]
  rfl

/-- What a run of `start` leaves behind, for a mediator whose buffer has the
length the constructor gives it. -/
theorem MCMediator.start_spec (M : CMath α) (med : MCMediator α σ) (pricers : Nat → IPricer α)
    (hlen : med.m_result.length = med.m_fdm.m_NT.toNat + 1) :
    (med.start M pricers).published
        = simulatedPaths M med.m_sde med.m_fdm med.m_NSim.toNat med.m_rng
    ∧ (med.start M pricers).calls
        = (simulatedPaths M med.m_sde med.m_fdm med.m_NSim.toNat med.m_rng).flatMap
            (fun arr => med.m_path.map (fun q => SlotCall.ProcessPath q arr))
          ++ med.m_finish.map (fun q => SlotCall.PostProcess q
              (((pricers q).processAll (med.m_path.count q)
                (simulatedPaths M med.m_sde med.m_fdm med.m_NSim.toNat med.m_rng)).PostProcess
                  M).2)
    ∧ ∀ q, (med.start M pricers).pricers q
        = (fun p => (IPricer.PostProcess M p).1)^[med.m_finish.count q]
            ((pricers q).processAll (med.m_path.count q)
              (simulatedPaths M med.m_sde med.m_fdm med.m_NSim.toNat med.m_rng)) := by
  obtain ⟨-, -, -, h4, -, -, h7, h8, h9⟩ := Run.outerLoop_spec M med.m_NSim.toNat
    { med := med, pricers := pricers, published := [], calls := [] } hlen
  obtain ⟨-, f2, f3, f4⟩ := Run.emit_finish_spec M
    (Run.outerLoop M med.m_NSim.toNat
      { med := med, pricers := pricers, published := [], calls := [] })
  dsimp only at h4 h7 h8 h9
  unfold MCMediator.start
  refine ⟨?_, ?_, ?_⟩
  · rw [f2, h7]
    simp
  · rw [f3, h8, h4]
    simp only [List.nil_append, h9]
  · intro q
    rw [f4 q, h4, h9 q]

theorem MCMediator.setup_length (parts : ISDE α × IFDM α × IRNG α σ) (NSim : Int)
    (ps : List Nat) (hNT : 0 ≤ parts.2.1.m_NT) :
    (MCMediator.setup parts NSim ps).m_result.length
      = (MCMediator.setup parts NSim ps).m_fdm.m_NT.toNat + 1 := by
  rw [MCMediator.setup_eq]
  simp only [List.length_replicate]
  omega

theorem simulatedPaths_length (M : CMath α) (sde : ISDE α) (f : IFDM α) (k : Nat)
    (r : IRNG α σ) : (simulatedPaths M sde f k r).length = k := by
  induction k generalizing r with
  | zero => rfl
  | succ k ih => simp [simulatedPaths, ih]

theorem simulatedPaths_getElem? (M : CMath α) (sde : ISDE α) (f : IFDM α) (k : Nat)
    (r : IRNG α σ) (i : Nat) (hi : i < k) :
    (simulatedPaths M sde f k r)[i]? = some (simulatedPath M sde f r i) := by
  induction k generalizing r i with
  | zero => omega
  | succ k ih =>
    cases i with
    | zero => simp [simulatedPaths, simulatedPath, IRNG.after]
    | succ i =>
      simp only [simulatedPaths, List.getElem?_cons_succ]
      rw [ih _ i (by omega)]
      simp only [simulatedPath, IRNG.after_add]
      congr 4
      ring

theorem mem_simulatedPaths (M : CMath α) (sde : ISDE α) (f : IFDM α) (k : Nat)
    (r : IRNG α σ) (arr : List α) (h : arr ∈ simulatedPaths M sde f k r) :
    ∃ i, i < k ∧ arr = simulatedPath M sde f r i := by
  obtain ⟨i, hi, hget⟩ := List.getElem_of_mem h
  rw [simulatedPaths_length] at hi
  refine ⟨i, hi, ?_⟩
  have h2 := simulatedPaths_getElem? M sde f k r i hi
  rw [List.getElem?_eq_getElem (by rw [simulatedPaths_length]; exact hi)] at h2
  rw [← hget]
  exact Option.some.inj h2

/-- Along `x :: walk`, each entry is the step of the scheme from the entry
before it, on the samples in the order drawn. -/
theorem IFDM.walk_step (M : CMath α) (f : IFDM α) (steps : Nat) (r : IRNG α σ) (x : α)
    (n : Nat) (hn : n < steps) :
    ∃ a, (x :: f.walk M steps r x)[n]? = some a
      ∧ (x :: f.walk M steps r x)[n + 1]? = some (f.step M a (r.sample n)) := by
  induction steps generalizing r x n with
  | zero => omega
  | succ s ih =>
    cases n with
    | zero =>
      refine ⟨x, rfl, ?_⟩
      simp [IFDM.walk, IRNG.sample, IRNG.after]
    | succ n =>
      obtain ⟨a, h1, h2⟩ := ih r.GenerateRng.2 (f.step M x r.GenerateRng.1) n (by omega)
      refine ⟨a, ?_, ?_⟩
      · simpa [IFDM.walk] using h1
      · have hs : r.sample (n + 1) = r.GenerateRng.2.sample n := rfl
        rw [hs]
        simpa [IFDM.walk] using h2

end MediatorLemmas

/-! ## The mediator: the published paths -/

section PathClaims
variable {α σ : Type} [LinearOrderedField α]

/-- C1: for every process, scheme, requested step count and path count,
`start` publishes exactly `max NSim 0` paths, and every one of them has length
`NT + 1`, `NT` being the step count `m_NT` stored by the scheme, and holds the
process's `InitialCondition()` at index 0. -/
theorem C1_published_path_shape (M : CMath α) (sde sdeF : ISDE α) (numSubdivisions : Int)
    (cls : FDMClass α) (rng : IRNG α σ) (NSim : Int) (ps : List Nat)
    (pricers : Nat → IPricer α) :
    ((MCMediator.setup (sde, IFDM.new sdeF numSubdivisions cls, rng) NSim ps).start M
        pricers).published.length = NSim.toNat
    ∧ ∀ arr ∈ ((MCMediator.setup (sde, IFDM.new sdeF numSubdivisions cls, rng) NSim ps).start M
        pricers).published,
      (arr.length : Int) = (IFDM.new sdeF numSubdivisions cls).m_NT + 1
      ∧ arr[0]? = some sde.InitialCondition := by
  have hNT := IFDM.new_NT_nonneg sdeF numSubdivisions cls
  obtain ⟨h1, -, -⟩ := MCMediator.start_spec M
    (MCMediator.setup (sde, IFDM.new sdeF numSubdivisions cls, rng) NSim ps) pricers
    (MCMediator.setup_length _ NSim ps hNT)
  rw [h1]
  simp only [MCMediator.setup_eq]
  refine ⟨simulatedPaths_length _ _ _ _ _, ?_⟩
  intro arr harr
  obtain ⟨i, -, rfl⟩ := mem_simulatedPaths _ _ _ _ _ _ harr
  simp only [simulatedPath, List.length_cons, IFDM.length_walk, List.getElem?_cons_zero,
    and_true]
  push_cast
  rw [Int.toNat_of_nonneg hNT]

/-- Witness of C1: a geometric process from 100, Euler scheme with two steps,
three paths; the first published path exists and has the stated shape. -/
theorem C1_published_path_shape_witness :
    ∃ arr, ((MCMediator.setup (GBM.new (1 / 10 : ℝ) (1 / 5) 0 100 1,
          IFDM.new (GBM.new (1 / 10 : ℝ) (1 / 5) 0 100 1) 2 FDMClass.EulerFDM,
          (IRNG.mk (0 : Nat) (fun s => ((s : ℝ), s + 1)))) 3 [0]).start
          (CMath.mk Real.sqrt (fun x y => x ^ y))
          (fun _ => EuropeanPricer (Call 100) 1)).published[0]? = some arr
      ∧ (arr.length : Int)
          = (IFDM.new (GBM.new (1 / 10 : ℝ) (1 / 5) 0 100 1) 2 FDMClass.EulerFDM).m_NT + 1
      ∧ arr[0]? = some (GBM.new (1 / 10 : ℝ) (1 / 5) 0 100 1).InitialCondition := by
  have h := C1_published_path_shape (CMath.mk Real.sqrt (fun x y => x ^ y))
    (GBM.new (1 / 10 : ℝ) (1 / 5) 0 100 1) (GBM.new (1 / 10 : ℝ) (1 / 5) 0 100 1) 2
    FDMClass.EulerFDM (IRNG.mk (0 : Nat) (fun s => ((s : ℝ), s + 1))) 3 [0]
    (fun _ => EuropeanPricer (Call 100) 1)
  have hlt : 0 < ((MCMediator.setup (GBM.new (1 / 10 : ℝ) (1 / 5) 0 100 1,
          IFDM.new (GBM.new (1 / 10 : ℝ) (1 / 5) 0 100 1) 2 FDMClass.EulerFDM,
          (IRNG.mk (0 : Nat) (fun s => ((s : ℝ), s + 1)))) 3 [0]).start
          (CMath.mk Real.sqrt (fun x y => x ^ y))
          (fun _ => EuropeanPricer (Call 100) 1)).published.length := by
    rw [h.1]
    decide
  exact ⟨_, List.getElem?_eq_getElem hlt, h.2 _ (List.getElem_mem _)⟩

/-- C2: in every published path, for every `n` with `1 ≤ n ≤ NT`, the entry
`n` is `advance(path[n-1], mesh[n-1], m_k, z)` for the scheme's mesh size `m_k`
and time mesh, `z` being the next sample of the random source: path number `i`
(from 0) takes at its step `n` the sample number `i * NT + (n - 1)` drawn. -/
theorem C2_path_recurrence (M : CMath α) (sde sdeF : ISDE α) (numSubdivisions : Int)
    (cls : FDMClass α) (rng : IRNG α σ) (NSim : Int) (ps : List Nat)
    (pricers : Nat → IPricer α) (i n : Nat) (hi : i < NSim.toNat) (hn1 : 1 ≤ n)
    (hn2 : (n : Int) ≤ (IFDM.new sdeF numSubdivisions cls).m_NT) :
    ∃ arr x t,
      ((MCMediator.setup (sde, IFDM.new sdeF numSubdivisions cls, rng) NSim ps).start M
          pricers).published[i]? = some arr
      ∧ arr[n - 1]? = some x
      ∧ (IFDM.new sdeF numSubdivisions cls).m_vec[n - 1]? = some t
      ∧ arr[n]? = some
          ((IFDM.new sdeF numSubdivisions cls).advance M x t
            (IFDM.new sdeF numSubdivisions cls).m_k
            (rng.sample (i * (IFDM.new sdeF numSubdivisions cls).m_NT.toNat + (n - 1)))).1 := by
  have hNT := IFDM.new_NT_nonneg sdeF numSubdivisions cls
  obtain ⟨h1, -, -⟩ := MCMediator.start_spec M
    (MCMediator.setup (sde, IFDM.new sdeF numSubdivisions cls, rng) NSim ps) pricers
    (MCMediator.setup_length _ NSim ps hNT)
  rw [h1]
  simp only [MCMediator.setup_eq]
  obtain ⟨m, rfl⟩ : ∃ m, n = m + 1 := ⟨n - 1, by omega⟩
  have hm : m < (IFDM.new sdeF numSubdivisions cls).m_NT.toNat := by omega
  obtain ⟨a, ha1, ha2⟩ := IFDM.walk_step M (IFDM.new sdeF numSubdivisions cls)
    (IFDM.new sdeF numSubdivisions cls).m_NT.toNat
    (rng.after (i * (IFDM.new sdeF numSubdivisions cls).m_NT.toNat)) sde.InitialCondition m hm
  have hmesh : (IFDM.new sdeF numSubdivisions cls).m_vec[m]?
      = some ((IFDM.new sdeF numSubdivisions cls).m_k * (m : α)) := by
    have hlt : m < ((IFDM.new sdeF numSubdivisions cls).m_NT + 1).toNat := by omega
    exact IFDM.new_m_vec_getElem? sdeF numSubdivisions cls m hlt
  refine ⟨_, a, (IFDM.new sdeF numSubdivisions cls).m_k * (m : α),
    simulatedPaths_getElem? M _ _ _ _ i hi, ?_, ?_, ?_⟩
  · simpa [simulatedPath] using ha1
  · simpa using hmesh
  · rw [IRNG.sample_after] at ha2
    simp only [simulatedPath, Nat.add_sub_cancel]
    rw [ha2]
    rfl

/-- Witness of C2: a geometric process from 100, Euler scheme with two steps,
three paths; the first step of the first path. -/
theorem C2_path_recurrence_witness :
    0 < (3 : Int).toNat ∧ 1 ≤ 1
    ∧ ((1 : Nat) : Int)
        ≤ (IFDM.new (GBM.new (1 / 10 : ℝ) (1 / 5) 0 100 1) 2 FDMClass.EulerFDM).m_NT
    ∧ ∃ arr x t,
      ((MCMediator.setup (GBM.new (1 / 10 : ℝ) (1 / 5) 0 100 1,
          IFDM.new (GBM.new (1 / 10 : ℝ) (1 / 5) 0 100 1) 2 FDMClass.EulerFDM,
          (IRNG.mk (0 : Nat) (fun s => ((s : ℝ), s + 1)))) 3 [0]).start
          (CMath.mk Real.sqrt (fun x y => x ^ y))
          (fun _ => EuropeanPricer (Call 100) 1)).published[0]? = some arr
      ∧ arr[1 - 1]? = some x
      ∧ (IFDM.new (GBM.new (1 / 10 : ℝ) (1 / 5) 0 100 1) 2 FDMClass.EulerFDM).m_vec[1 - 1]?
          = some t
      ∧ arr[1]? = some
          ((IFDM.new (GBM.new (1 / 10 : ℝ) (1 / 5) 0 100 1) 2 FDMClass.EulerFDM).advance
            (CMath.mk Real.sqrt (fun x y => x ^ y)) x t
            (IFDM.new (GBM.new (1 / 10 : ℝ) (1 / 5) 0 100 1) 2 FDMClass.EulerFDM).m_k
            ((IRNG.mk (0 : Nat) (fun s => ((s : ℝ), s + 1))).sample
              (0 * (IFDM.new (GBM.new (1 / 10 : ℝ) (1 / 5) 0 100 1) 2
                FDMClass.EulerFDM).m_NT.toNat + (1 - 1)))).1 :=
  ⟨by decide, le_refl 1, by simp [IFDM.new],
    C2_path_recurrence (CMath.mk Real.sqrt (fun x y => x ^ y))
      (GBM.new (1 / 10 : ℝ) (1 / 5) 0 100 1) (GBM.new (1 / 10 : ℝ) (1 / 5) 0 100 1) 2
      FDMClass.EulerFDM (IRNG.mk (0 : Nat) (fun s => ((s : ℝ), s + 1))) 3 [0]
      (fun _ => EuropeanPricer (Call 100) 1) 0 1 (by decide) (le_refl 1)
      (by simp [IFDM.new])⟩

end PathClaims

/-! ## The mediator: calls on the pricers -/

section CallLemmas
variable {α σ : Type} [LinearOrderedField α]

theorem IPricer.iterate_ProcessPath (k : Nat) (arr : List α) (p : IPricer α) :
    (fun p => IPricer.ProcessPath p arr)^[k] p = (List.replicate k arr).foldl IPricer.ProcessPath p := by
  induction k generalizing p with
  | zero => rfl
  | succ k ih => rw [Function.iterate_succ_apply, ih, List.replicate_succ, List.foldl_cons]

/-- Publishing each path to `k` slots of a pricer is processing each path `k`
times in a row. -/
theorem IPricer.processAll_eq_foldl (k : Nat) (p : IPricer α) (paths : List (List α)) :
    p.processAll k paths = (paths.flatMap (List.replicate k)).foldl IPricer.ProcessPath p := by
  unfold IPricer.processAll
  induction paths generalizing p with
  | nil => rfl
  | cons arr rest ih =>
    rw [List.foldl_cons, ih, List.flatMap_cons, List.foldl_append, IPricer.iterate_ProcessPath]

theorem IPricer.processAll_one (p : IPricer α) (paths : List (List α)) :
    p.processAll 1 paths = paths.foldl IPricer.ProcessPath p := by
  rw [IPricer.processAll_eq_foldl]
  congr 1
  induction paths with
  | nil => rfl
  | cons arr rest ih => simp [List.flatMap_cons, ih]

/-- `PostProcess` leaves the accumulators, the discount factor and the class
of the pricer as they are. -/
theorem IPricer.PostProcess_iterate_fields (M : CMath α) (k : Nat) (p : IPricer α) :
    ((fun p => (IPricer.PostProcess M p).1)^[k] p).m_sum = p.m_sum
    ∧ ((fun p => (IPricer.PostProcess M p).1)^[k] p).m_squaredpayoff = p.m_squaredpayoff
    ∧ ((fun p => (IPricer.PostProcess M p).1)^[k] p).m_NSim = p.m_NSim
    ∧ ((fun p => (IPricer.PostProcess M p).1)^[k] p).m_discounter = p.m_discounter := by
  induction k generalizing p with
  | zero => simp
  | succ k ih =>
    rw [Function.iterate_succ_apply]
    obtain ⟨h1, h2, h3, h4⟩ := ih (p.PostProcess M).1
    exact ⟨h1, h2, h3, h4⟩

/-- After at least one `PostProcess` the stored price is the discounted mean. -/
theorem IPricer.PostProcess_iterate_price (M : CMath α) (k : Nat) (p : IPricer α) :
    ((fun p => (IPricer.PostProcess M p).1)^[k + 1] p).m_price
      = p.m_discounter * (p.m_sum / ((p.m_NSim : α) * 1)) := by
  rw [Function.iterate_succ_apply']
  obtain ⟨h1, -, h3, h4⟩ := IPricer.PostProcess_iterate_fields M k p
  have h : ∀ q : IPricer α,
      (q.PostProcess M).1.m_price = q.m_discounter * (q.m_sum / ((q.m_NSim : α) * 1)) :=
    fun _ => rfl
  rw [h, h1, h3, h4]

end CallLemmas

section SlotLemmas
variable {α : Type}

theorem filter_map_pricer_of_nodup (F : Nat → SlotCall α) (hF : ∀ q, (F q).pricer = q)
    (ps : List Nat) (p : Nat) (hnodup : ps.Nodup) (hp : p ∈ ps) :
    (ps.map F).filter (fun c => decide (c.pricer = p)) = [F p] := by
  induction ps with
  | nil => exact absurd hp (List.not_mem_nil p)
  | cons q rest ih =>
    rw [List.nodup_cons] at hnodup
    rw [List.map_cons, List.filter_cons]
    by_cases hq : q = p
    · subst hq
      have hrest : (rest.map F).filter (fun c => decide (c.pricer = q)) = [] := by
        rw [List.filter_eq_nil_iff]
        intro c hc
        obtain ⟨r, hr, rfl⟩ := List.mem_map.mp hc
        rw [hF r]
        simp only [decide_eq_true_eq]
        rintro rfl
        exact hnodup.1 hr
      simp [hF, hrest]
    · have hp2 : p ∈ rest := by
        rcases List.mem_cons.mp hp with h | h
        · exact absurd h.symm hq
        · exact h
      simp [hF, hq, ih hnodup.2 hp2]

theorem filter_map_pricer_count (F : Nat → SlotCall α) (hF : ∀ q, (F q).pricer = q)
    (ps : List Nat) (p : Nat) :
    (ps.map F).filter (fun c => decide (c.pricer = p)) = List.replicate (ps.count p) (F p) := by
  induction ps with
  | nil => rfl
  | cons q rest ih =>
    rw [List.map_cons, List.filter_cons]
    by_cases hq : q = p
    · subst hq
      simp [hF, ih, List.replicate_succ]
    · simp [hF, hq, ih, List.count_cons_of_ne (Ne.symm hq)]

theorem flatMap_filter_pricer_count (paths : List (List α)) (ps : List Nat) (p : Nat) :
    (paths.flatMap (fun arr => ps.map (fun q => SlotCall.ProcessPath q arr))).filter
        (fun c => decide (c.pricer = p))
      = paths.flatMap (fun arr => List.replicate (ps.count p) (SlotCall.ProcessPath p arr)) := by
  induction paths with
  | nil => rfl
  | cons arr rest ih =>
    rw [List.flatMap_cons, List.filter_append, ih, List.flatMap_cons,
      filter_map_pricer_count (fun q => SlotCall.ProcessPath q arr) (fun _ => rfl) ps p]

end SlotLemmas

section CallClaims
variable {α σ : Type} [LinearOrderedField α]

/-- The calls that a run of `start` makes on the pricer `p`, which
`AddPricer` has connected `ps.count p` times: for each published path, in
order, that many calls of `ProcessPath`, and then that many calls of
`PostProcess`, each on the state `s` that the calls of `ProcessPath` have left
(up to the stored price). -/
theorem MCMediator.calls_on_pricer (M : CMath α) (sde sdeF : ISDE α) (numSubdivisions : Int)
    (cls : FDMClass α) (rng : IRNG α σ) (NSim : Int) (ps : List Nat)
    (pricers : Nat → IPricer α) (p : Nat) :
    ∃ s : IPricer α,
      (((MCMediator.setup (sde, IFDM.new sdeF numSubdivisions cls, rng) NSim ps).start M
          pricers).calls.filter (fun c => decide (c.pricer = p))
        = ((MCMediator.setup (sde, IFDM.new sdeF numSubdivisions cls, rng) NSim ps).start M
              pricers).published.flatMap
              (fun arr => List.replicate (ps.count p) (SlotCall.ProcessPath p arr))
            ++ List.replicate (ps.count p) (SlotCall.PostProcess p (s.PostProcess M).2))
      ∧ ((MCMediator.setup (sde, IFDM.new sdeF numSubdivisions cls, rng) NSim ps).start M
          pricers).published.length = NSim.toNat
      ∧ s.m_NSim = (pricers p).m_NSim + ((ps.count p : Nat) : Int) * (NSim.toNat : Int)
      ∧ ((MCMediator.setup (sde, IFDM.new sdeF numSubdivisions cls, rng) NSim ps).start M
          pricers).pricers p = (fun q => (IPricer.PostProcess M q).1)^[ps.count p] s := by
  have hNT := IFDM.new_NT_nonneg sdeF numSubdivisions cls
  obtain ⟨h1, h2, h3⟩ := MCMediator.start_spec M
    (MCMediator.setup (sde, IFDM.new sdeF numSubdivisions cls, rng) NSim ps) pricers
    (MCMediator.setup_length _ NSim ps hNT)
  rw [h1, h2, h3 p]
  simp only [MCMediator.setup_eq]
  refine ⟨(pricers p).processAll (ps.count p)
    (simulatedPaths M sde (IFDM.new sdeF numSubdivisions cls) NSim.toNat rng), ?_, ?_, ?_, rfl⟩
  · rw [List.filter_append, flatMap_filter_pricer_count,
      filter_map_pricer_count
        (fun q => SlotCall.PostProcess q
          (((pricers q).processAll (ps.count q)
            (simulatedPaths M sde (IFDM.new sdeF numSubdivisions cls) NSim.toNat
              rng)).PostProcess M).2)
        (fun _ => rfl) ps p]
  · exact simulatedPaths_length M sde _ NSim.toNat rng
  · rw [IPricer.processAll_eq_foldl]
    obtain ⟨-, -, k3, -, -, -⟩ := IPricer.foldl_fields
      ((simulatedPaths M sde (IFDM.new sdeF numSubdivisions cls) NSim.toNat rng).flatMap
        (List.replicate (ps.count p))) (pricers p)
    rw [k3]
    have hlen : ∀ (L : List (List α)) (k : Nat),
        (L.flatMap (List.replicate k)).length = k * L.length := by
      intro L k
      induction L with
      | nil => simp
      | cons a l ih =>
        rw [List.flatMap_cons, List.length_append, ih, List.length_replicate, List.length_cons]
        ring
    rw [hlen, simulatedPaths_length]
    push_cast
    ring

/-- C3 as stated fails: `AddPricer` connects a slot on every call, so for the
list of subscriptions in which the pricer 0 is added twice and `NSim = 1`,
`start` calls `ProcessPath` of that pricer twice (for the one published path)
and its `PostProcess` twice, and the counter of the pricer is 2 when
`PostProcess` runs. -/
theorem C3_counterexample :
    (((MCMediator.setup (GBM.new (1 / 10 : ℝ) (1 / 5) 0 100 1,
        IFDM.new (GBM.new (1 / 10 : ℝ) (1 / 5) 0 100 1) 2 FDMClass.EulerFDM,
        (IRNG.mk (0 : Nat) (fun s => ((s : ℝ), s + 1)))) 1 [0, 0]).start
        (CMath.mk Real.sqrt (fun x y => x ^ y))
        (fun _ => EuropeanPricer (Call 100) 1)).calls.filter
          (fun c => decide (c.pricer = 0) && !c.isPostProcess)).length = 2
    ∧ (((MCMediator.setup (GBM.new (1 / 10 : ℝ) (1 / 5) 0 100 1,
        IFDM.new (GBM.new (1 / 10 : ℝ) (1 / 5) 0 100 1) 2 FDMClass.EulerFDM,
        (IRNG.mk (0 : Nat) (fun s => ((s : ℝ), s + 1)))) 1 [0, 0]).start
        (CMath.mk Real.sqrt (fun x y => x ^ y))
        (fun _ => EuropeanPricer (Call 100) 1)).calls.filter
          (fun c => decide (c.pricer = 0) && c.isPostProcess)).length = 2
    ∧ (((MCMediator.setup (GBM.new (1 / 10 : ℝ) (1 / 5) 0 100 1,
        IFDM.new (GBM.new (1 / 10 : ℝ) (1 / 5) 0 100 1) 2 FDMClass.EulerFDM,
        (IRNG.mk (0 : Nat) (fun s => ((s : ℝ), s + 1)))) 1 [0, 0]).start
        (CMath.mk Real.sqrt (fun x y => x ^ y))
        (fun _ => EuropeanPricer (Call 100) 1)).pricers 0).m_NSim = 2 := by
  obtain ⟨s, hcalls, hlen, hcount, hfinal⟩ := MCMediator.calls_on_pricer
    (CMath.mk Real.sqrt (fun x y => x ^ y)) (GBM.new (1 / 10 : ℝ) (1 / 5) 0 100 1)
    (GBM.new (1 / 10 : ℝ) (1 / 5) 0 100 1) 2 FDMClass.EulerFDM
    (IRNG.mk (0 : Nat) (fun s => ((s : ℝ), s + 1))) 1 [0, 0]
    (fun _ => EuropeanPricer (Call 100) 1) 0
  have hk : ([0, 0] : List Nat).count 0 = 2 := by decide
  rw [hk] at hcalls hcount hfinal
  obtain ⟨arr, harr⟩ := List.length_eq_one.mp (hlen.trans (by decide))
  rw [harr] at hcalls
  have hsplit : ∀ (L : List (SlotCall ℝ)) (f : SlotCall ℝ → Bool),
      L.filter (fun c => decide (c.pricer = 0) && f c)
        = (L.filter (fun c => decide (c.pricer = 0))).filter f := by
    intro L f
    rw [List.filter_filter]
    congr 1
    funext c
    exact Bool.and_comm _ _
  refine ⟨?_, ?_, ?_⟩
  · rw [hsplit, hcalls]
    simp [List.replicate, SlotCall.isPostProcess]
  · rw [hsplit, hcalls]
    simp [List.replicate, SlotCall.isPostProcess]
  · rw [hfinal, (IPricer.PostProcess_iterate_fields _ 2 s).2.2.1, hcount]
    simp [EuropeanPricer, IPricer.new]

/-- C3 amended: for every path count `NSim ≥ 1` and every list `ps` of
subscriptions, the calls that `start` makes on a subscribed pricer `p`, which
`AddPricer` has connected `k ≥ 1` times, are `k` calls of `ProcessPath` for each
published path, in order, `k * NSim` of them, followed by exactly `k` calls of
`PostProcess`, which run on a state whose `m_NSim` is the counter at
subscription plus `k * NSim`; for a pricer connected once (`k = 1`) these are
one `ProcessPath` for each published path, `NSim` of them, followed by exactly
one `PostProcess`, and when its counter was zero at subscription (a pricer as
constructed) `PostProcess` runs on a state whose `m_NSim` equals `NSim`. -/
theorem C3_calls_on_each_pricer (M : CMath α) (sde sdeF : ISDE α) (numSubdivisions : Int)
    (cls : FDMClass α) (rng : IRNG α σ) (NSim : Int) (ps : List Nat)
    (pricers : Nat → IPricer α) (p : Nat) (hN : 1 ≤ NSim) (hp : p ∈ ps) :
    ∃ s : IPricer α,
      1 ≤ ps.count p
      ∧ (((MCMediator.setup (sde, IFDM.new sdeF numSubdivisions cls, rng) NSim ps).start M
          pricers).calls.filter (fun c => decide (c.pricer = p))
        = ((MCMediator.setup (sde, IFDM.new sdeF numSubdivisions cls, rng) NSim ps).start M
              pricers).published.flatMap
              (fun arr => List.replicate (ps.count p) (SlotCall.ProcessPath p arr))
            ++ List.replicate (ps.count p) (SlotCall.PostProcess p (s.PostProcess M).2))
      ∧ (((MCMediator.setup (sde, IFDM.new sdeF numSubdivisions cls, rng) NSim ps).start M
          pricers).published.length : Int) = NSim
      ∧ s.m_NSim = (pricers p).m_NSim + ((ps.count p : Nat) : Int) * NSim
      ∧ ((MCMediator.setup (sde, IFDM.new sdeF numSubdivisions cls, rng) NSim ps).start M
          pricers).pricers p = (fun q => (IPricer.PostProcess M q).1)^[ps.count p] s
      ∧ (ps.count p = 1 →
          (((MCMediator.setup (sde, IFDM.new sdeF numSubdivisions cls, rng) NSim ps).start M
              pricers).calls.filter (fun c => decide (c.pricer = p))
            = ((MCMediator.setup (sde, IFDM.new sdeF numSubdivisions cls, rng) NSim ps).start M
                  pricers).published.map (fun arr => SlotCall.ProcessPath p arr)
                ++ [SlotCall.PostProcess p (s.PostProcess M).2])
          ∧ ((pricers p).m_NSim = 0 → s.m_NSim = NSim)
          ∧ ((MCMediator.setup (sde, IFDM.new sdeF numSubdivisions cls, rng) NSim ps).start M
              pricers).pricers p = (s.PostProcess M).1) := by
  obtain ⟨s, hcalls, hlen, hcount, hfinal⟩ := MCMediator.calls_on_pricer M sde sdeF
    numSubdivisions cls rng NSim ps pricers p
  have hto : (NSim.toNat : Int) = NSim := by omega
  rw [hto] at hcount
  refine ⟨s, List.count_pos_iff.mpr hp, hcalls, ?_, hcount, hfinal, ?_⟩
  · rw [hlen]
    exact hto
  · intro hone
    rw [hone] at hcalls hcount hfinal
    refine ⟨?_, ?_, hfinal⟩
    · rw [hcalls]
      congr 1
      generalize ((MCMediator.setup (sde, IFDM.new sdeF numSubdivisions cls, rng) NSim ps).start
        M pricers).published = L
      induction L with
      | nil => rfl
      | cons arr rest ih =>
        rw [List.flatMap_cons, ih]
        rfl
    · intro hfresh
      rw [hcount, hfresh]
      simp

/-- Witness of C3 amended: two distinct pricers, three paths. -/
theorem C3_calls_on_each_pricer_witness :
    (1 : Int) ≤ 3 ∧ 1 ∈ ([0, 1] : List Nat)
    ∧ ∃ s : IPricer ℝ,
      (((MCMediator.setup (GBM.new (1 / 10 : ℝ) (1 / 5) 0 100 1,
          IFDM.new (GBM.new (1 / 10 : ℝ) (1 / 5) 0 100 1) 2 FDMClass.EulerFDM,
          (IRNG.mk (0 : Nat) (fun s => ((s : ℝ), s + 1)))) 3 [0, 1]).start
          (CMath.mk Real.sqrt (fun x y => x ^ y))
          (fun _ => EuropeanPricer (Call 100) 1)).published.length : Int) = 3
      ∧ s.m_NSim = ((fun _ => EuropeanPricer (Call 100) 1 : Nat → IPricer ℝ) 1).m_NSim
          + ((([0, 1] : List Nat).count 1 : Nat) : Int) * 3 :=
  ⟨by decide, by decide,
    (C3_calls_on_each_pricer (CMath.mk Real.sqrt (fun x y => x ^ y))
      (GBM.new (1 / 10 : ℝ) (1 / 5) 0 100 1) (GBM.new (1 / 10 : ℝ) (1 / 5) 0 100 1) 2
      FDMClass.EulerFDM (IRNG.mk (0 : Nat) (fun s => ((s : ℝ), s + 1))) 3 [0, 1]
      (fun _ => EuropeanPricer (Call 100) 1) 1 (by decide) (by decide)).imp
      (fun _ h => ⟨h.2.2.1, h.2.2.2.1⟩)⟩

theorem mem_of_mem_flatMap_replicate {β : Type} (k : Nat) (paths : List β) (arr : β)
    (h : arr ∈ paths.flatMap (List.replicate k)) : arr ∈ paths := by
  obtain ⟨a, ha, hmem⟩ := List.mem_flatMap.mp h
  rw [(List.mem_replicate.mp hmem).2]
  exact ha

theorem flatMap_replicate_ne_nil {β : Type} (k : Nat) (paths : List β) (hk : 1 ≤ k)
    (hpaths : paths ≠ []) : paths.flatMap (List.replicate k) ≠ [] := by
  cases paths with
  | nil => exact absurd rfl hpaths
  | cons a rest =>
    obtain ⟨j, rfl⟩ : ∃ j, k = j + 1 := ⟨k - 1, by omega⟩
    simp [List.flatMap_cons, List.replicate_succ]

theorem simulatedPaths_ne_nil (M : CMath α) (sde : ISDE α) (f : IFDM α) (k : Nat)
    (r : IRNG α σ) (hk : 1 ≤ k) : simulatedPaths M sde f k r ≠ [] := by
  intro h
  have hl := simulatedPaths_length M sde f k r
  rw [h] at hl
  simp at hl
  omega

/-- C9: for every process, scheme, sample sequence, payoff function, discount
factor and path count `NSim ≥ 1`, a subscribed `BarrierPricer` constructed with
the `UpAndOut` knock predicate and a barrier below the process's initial value
has `Price() = 0` after `start`: the predicate voids every published path (at
its index 0), and the count that the mean is divided by is at least 1. -/
theorem C9_up_and_out_below_initial (M : CMath α) (sde sdeF : ISDE α) (numSubdivisions : Int)
    (cls : FDMClass α) (rng : IRNG α σ) (NSim : Int) (ps : List Nat)
    (pricers : Nat → IPricer α) (p : Nat) (g : α → α) (D barrier : α)
    (hN : 1 ≤ NSim) (hp : p ∈ ps)
    (hpr : pricers p = BarrierPricer g D (UpAndOut barrier))
    (hb : barrier < sde.InitialCondition) :
    (∀ arr ∈ ((MCMediator.setup (sde, IFDM.new sdeF numSubdivisions cls, rng) NSim ps).start M
        pricers).published, UpAndOut barrier arr = true)
    ∧ 1 ≤ (((MCMediator.setup (sde, IFDM.new sdeF numSubdivisions cls, rng) NSim ps).start M
        pricers).pricers p).m_NSim
    ∧ (((MCMediator.setup (sde, IFDM.new sdeF numSubdivisions cls, rng) NSim ps).start M
        pricers).pricers p).Price = 0 := by
  have hNT := IFDM.new_NT_nonneg sdeF numSubdivisions cls
  obtain ⟨h1, -, h3⟩ := MCMediator.start_spec M
    (MCMediator.setup (sde, IFDM.new sdeF numSubdivisions cls, rng) NSim ps) pricers
    (MCMediator.setup_length _ NSim ps hNT)
  rw [h1, h3 p]
  simp only [MCMediator.setup_eq]
  have hknock : ∀ arr ∈ simulatedPaths M sde (IFDM.new sdeF numSubdivisions cls) NSim.toNat rng,
      UpAndOut barrier arr = true := by
    intro arr harr
    obtain ⟨i, -, rfl⟩ := mem_simulatedPaths _ _ _ _ _ _ harr
    simp [simulatedPath, UpAndOut, hb.le]
  obtain ⟨c, hc⟩ : ∃ c, ps.count p = c + 1 :=
    ⟨ps.count p - 1, by have := List.count_pos_iff.mpr hp; omega⟩
  obtain ⟨k1, -, k3, -⟩ := IPricer.PostProcess_iterate_fields M (ps.count p)
    ((pricers p).processAll (ps.count p)
      (simulatedPaths M sde (IFDM.new sdeF numSubdivisions cls) NSim.toNat rng))
  obtain ⟨f1, -, f3, -, f5, -⟩ := IPricer.foldl_fields
    ((simulatedPaths M sde (IFDM.new sdeF numSubdivisions cls) NSim.toNat rng).flatMap
      (List.replicate (ps.count p))) (pricers p)
  rw [← IPricer.processAll_eq_foldl] at f1 f3 f5
  have hsum : ((pricers p).processAll (ps.count p)
      (simulatedPaths M sde (IFDM.new sdeF numSubdivisions cls) NSim.toNat rng)).m_sum = 0 := by
    rw [f1, hpr]
    have hz : ((simulatedPaths M sde (IFDM.new sdeF numSubdivisions cls) NSim.toNat rng).flatMap
        (List.replicate (ps.count p))).map (BarrierPricer g D (UpAndOut barrier)).pathPayoff
        = ((simulatedPaths M sde (IFDM.new sdeF numSubdivisions cls) NSim.toNat rng).flatMap
            (List.replicate (ps.count p))).map (fun _ => (0 : α)) := by
      apply List.map_congr_left
      intro arr harr
      have hk := hknock arr (mem_of_mem_flatMap_replicate _ _ _ harr)
      simp [IPricer.pathPayoff, BarrierPricer, IPricer.new, hk]
    rw [hz]
    simp [BarrierPricer, IPricer.new]
  refine ⟨hknock, ?_, ?_⟩
  · rw [k3, f3, hpr]
    have hne := flatMap_replicate_ne_nil (ps.count p)
      (simulatedPaths M sde (IFDM.new sdeF numSubdivisions cls) NSim.toNat rng) (by omega)
      (simulatedPaths_ne_nil M sde _ NSim.toNat rng (by omega))
    have hpos := List.length_pos.mpr hne
    simp only [BarrierPricer, IPricer.new]
    omega
  · unfold IPricer.Price
    rw [hc, IPricer.PostProcess_iterate_price, ← hc, hsum]
    simp

/-- Witness of C9: a geometric process from 100, barrier 90, three paths. -/
theorem C9_up_and_out_below_initial_witness :
    (1 : Int) ≤ 3 ∧ 0 ∈ ([0] : List Nat)
    ∧ (90 : ℝ) < (GBM.new (1 / 10 : ℝ) (1 / 5) 0 100 1).InitialCondition
    ∧ (((MCMediator.setup (GBM.new (1 / 10 : ℝ) (1 / 5) 0 100 1,
          IFDM.new (GBM.new (1 / 10 : ℝ) (1 / 5) 0 100 1) 2 FDMClass.MilsteinFDM,
          (IRNG.mk (0 : Nat) (fun s => ((s : ℝ), s + 1)))) 3 [0]).start
          (CMath.mk Real.sqrt (fun x y => x ^ y))
          (fun _ => BarrierPricer (Call 100) (9 / 10) (UpAndOut 90))).pricers 0).Price = 0 :=
  ⟨by decide, by decide, by norm_num [GBM.new, ISDE.InitialCondition],
    (C9_up_and_out_below_initial (CMath.mk Real.sqrt (fun x y => x ^ y))
      (GBM.new (1 / 10 : ℝ) (1 / 5) 0 100 1) (GBM.new (1 / 10 : ℝ) (1 / 5) 0 100 1) 2
      FDMClass.MilsteinFDM (IRNG.mk (0 : Nat) (fun s => ((s : ℝ), s + 1))) 3 [0]
      (fun _ => BarrierPricer (Call 100) (9 / 10) (UpAndOut 90)) 0 (Call 100) (9 / 10) 90
      (by decide) (by decide) rfl (by norm_num [GBM.new, ISDE.InitialCondition])).2.2⟩

/-- A geometric process constructed with volatility 0 has no diffusion. -/
theorem GBM.zero_vol_diffusion (M : CMath α) (driftCoeff dividend initialCondition expiry x : α) :
    (GBM.new driftCoeff 0 dividend initialCondition expiry).Diffusion M x = 0 := by
  simp [GBM.new, ISDE.Diffusion]

/-- An elasticity process constructed with volatility 0 has no diffusion. -/
theorem CEV.zero_vol_diffusion_elasticity (M : CMath α) (driftCoeff dividend initialCondition expiry beta x : α) :
    (CEV.new M driftCoeff 0 dividend initialCondition expiry beta).Diffusion M x = 0 := by
  simp [CEV.new, ISDE.Diffusion]

/-- Without diffusion the value of `advance` does not depend on the sample. -/
theorem IFDM.advance_fst_zero_vol (M : CMath α) (f : IFDM α)
    (hvol : ∀ x, f.m_sde.Diffusion M x = 0) (xn tn dt z z2 : α) :
    (f.advance M xn tn dt z).1 = (f.advance M xn tn dt z2).1 := by
  rcases f with ⟨sde, nt, vec, k, cls⟩
  dsimp only at hvol
  cases cls <;> simp [IFDM.advance, ISDE.DriftCorrected, hvol]

theorem IFDM.walk_zero_vol (M : CMath α) (f : IFDM α)
    (hvol : ∀ x, f.m_sde.Diffusion M x = 0) (steps : Nat) (r r2 : IRNG α σ) (x : α) :
    f.walk M steps r x = f.walk M steps r2 x := by
  induction steps generalizing r r2 x with
  | zero => rfl
  | succ s ih =>
    have hstep : f.step M x r.GenerateRng.1 = f.step M x r2.GenerateRng.1 :=
      IFDM.advance_fst_zero_vol M f hvol _ _ _ _ _
    simp only [IFDM.walk, hstep]
    rw [ih r.GenerateRng.2 r2.GenerateRng.2]

theorem simulatedPath_zero_vol (M : CMath α) (sde : ISDE α) (f : IFDM α)
    (hvol : ∀ x, f.m_sde.Diffusion M x = 0) (r : IRNG α σ) (i : Nat) :
    simulatedPath M sde f r i = simulatedPath M sde f r 0 := by
  unfold simulatedPath
  rw [IFDM.walk_zero_vol M f hvol _ (r.after (i * f.m_NT.toNat)) (r.after (0 * f.m_NT.toNat))]

/-- When every processed path has the same payoff, the number whose square
root is the standard deviation is zero. -/
theorem IPricer.variance_of_equal_payoffs (g : α → α) (D : α) (cls : PricerClass α)
    (L : List (List α)) (c0 : α) (hL : L ≠ [])
    (hc0 : ∀ arr ∈ L, (IPricer.new g D cls).pathPayoff arr = c0) :
    (L.foldl IPricer.ProcessPath (IPricer.new g D cls)).variance = 0 := by
  obtain ⟨h1, h2, h3, -, -, -⟩ := IPricer.foldl_fields L (IPricer.new g D cls)
  have hm1 : L.map (IPricer.new g D cls).pathPayoff = L.map (fun _ => c0) :=
    List.map_congr_left hc0
  have hm2 : L.map (fun arr => (IPricer.new g D cls).pathPayoff arr
        * (IPricer.new g D cls).pathPayoff arr) = L.map (fun _ => c0 * c0) :=
    List.map_congr_left (fun arr harr => by rw [hc0 arr harr])
  have hpos : (0 : α) < (L.length : α) := by
    have : 0 < L.length := List.length_pos.mpr hL
    exact_mod_cast this
  simp only [IPricer.variance, h1, h2, h3, hm1, hm2]
  simp only [IPricer.new, zero_add, Int.cast_zero, Int.cast_natCast, mul_one, List.map_const',
    List.sum_replicate, nsmul_eq_mul]
  field_simp

/-- When every processed path has the same payoff `c0`, the sum is the count
times `c0` and the sum of squares is the count times `c0 * c0`. -/
theorem IPricer.sums_of_equal_payoffs (g : α → α) (D : α) (cls : PricerClass α)
    (L : List (List α)) (c0 : α)
    (hc0 : ∀ arr ∈ L, (IPricer.new g D cls).pathPayoff arr = c0) :
    (L.foldl IPricer.ProcessPath (IPricer.new g D cls)).m_NSim = (L.length : Int)
    ∧ (L.foldl IPricer.ProcessPath (IPricer.new g D cls)).m_sum = (L.length : α) * c0
    ∧ (L.foldl IPricer.ProcessPath (IPricer.new g D cls)).m_squaredpayoff
        = (L.length : α) * (c0 * c0) := by
  obtain ⟨h1, h2, h3, -, -, -⟩ := IPricer.foldl_fields L (IPricer.new g D cls)
  have hm1 : L.map (IPricer.new g D cls).pathPayoff = L.map (fun _ => c0) :=
    List.map_congr_left hc0
  have hm2 : L.map (fun arr => (IPricer.new g D cls).pathPayoff arr
        * (IPricer.new g D cls).pathPayoff arr) = L.map (fun _ => c0 * c0) :=
    List.map_congr_left (fun arr harr => by rw [hc0 arr harr])
  rw [h1, h2, h3, hm1, hm2]
  simp [IPricer.new]

/-- C10 as stated fails: in binary64 the argument of `std::sqrt` in
`PostProcess` can be negative on equal payoffs, and `std::sqrt` of it is a NaN
(no branch of `PostProcess` clamps it). For the run with rate 0.1, volatility 0,
no dividend, initial value 100, expiry 1, 2 steps, the predictor-corrector
scheme with `A = B = 0.5`, 3 paths and the call of strike 100, each path has the
geometric average 105.12499999999997 (`0x1.a47fffffffffep+6`), and the radicand
is `-2^-48`. For a process without drift and volatility from the initial value
100 with one step (every path is 100, 100 and its geometric average
`pow(10000, 0.5)` is 100), 3 paths and the call of strike 0.1, the payoff of
each path is 99.9 and the radicand is `-2^-39`. -/
theorem C10_counterexample :
    ((List.replicate 3 ({ m := 0x1a47fffffffffe, e := -46 } : Double)).foldl
        (AsianPricer.ProcessPath64 (Call64 (Double.ofInt 100))) Accumulators64.new).m_NSim = 3
    ∧ ((List.replicate 3 ({ m := 0x1a47fffffffffe, e := -46 } : Double)).foldl
        (AsianPricer.ProcessPath64 (Call64 (Double.ofInt 100))) Accumulators64.new).radicand
      = { m := -2 ^ 52, e := -100 }
    ∧ Double.lt
        ((List.replicate 3 ({ m := 0x1a47fffffffffe, e := -46 } : Double)).foldl
          (AsianPricer.ProcessPath64 (Call64 (Double.ofInt 100))) Accumulators64.new).radicand
        (Double.ofInt 0) = true
    ∧ ((List.replicate 3 (Double.ofInt 100)).foldl
        (AsianPricer.ProcessPath64 (Call64 (Double.round 1 10 0))) Accumulators64.new).radicand
      = { m := -2 ^ 52, e := -91 }
    ∧ Double.lt
        ((List.replicate 3 (Double.ofInt 100)).foldl
          (AsianPricer.ProcessPath64 (Call64 (Double.round 1 10 0))) Accumulators64.new).radicand
        (Double.ofInt 0) = true := by
  refine ⟨by decide!, by decide!, by decide!, by decide!, by decide!⟩

/-- C10 amended: for a scheme whose process has no diffusion (volatility 0),
whichever of the three schemes it is, for every sequence of samples and every
`NSim ≥ 1`, all published paths are identical and give a subscribed
`AsianPricer` constructed with the geometric average, connected `k ≥ 1` times,
the same payoff `c`; its `PostProcess` runs on a state whose count is
`k * NSim ≥ 1`, whose sum is the count times `c` and whose sum of squares is the
count times `c * c`, so that in exact arithmetic the number whose square root
is the standard deviation is 0. -/
theorem C10_zero_volatility_asian (M : CMath α) (sde sdeF : ISDE α) (numSubdivisions : Int)
    (cls : FDMClass α) (rng : IRNG α σ) (NSim : Int) (ps : List Nat)
    (pricers : Nat → IPricer α) (p : Nat) (g : α → α) (D : α)
    (hvol : ∀ x, sdeF.Diffusion M x = 0)
    (hN : 1 ≤ NSim) (hp : p ∈ ps)
    (hpr : pricers p = AsianPricer g D (GeometricAverage M)) :
    (∀ a ∈ ((MCMediator.setup (sde, IFDM.new sdeF numSubdivisions cls, rng) NSim ps).start M
        pricers).published,
      ∀ b ∈ ((MCMediator.setup (sde, IFDM.new sdeF numSubdivisions cls, rng) NSim ps).start M
        pricers).published, a = b)
    ∧ ∃ (c : α) (s : IPricer α),
        (∀ a ∈ ((MCMediator.setup (sde, IFDM.new sdeF numSubdivisions cls, rng) NSim ps).start
            M pricers).published, g (GeometricAverage M a) = c)
        ∧ SlotCall.PostProcess p (s.PostProcess M).2
            ∈ ((MCMediator.setup (sde, IFDM.new sdeF numSubdivisions cls, rng) NSim ps).start M
                pricers).calls
        ∧ (∀ printed, SlotCall.PostProcess p printed
            ∈ ((MCMediator.setup (sde, IFDM.new sdeF numSubdivisions cls, rng) NSim ps).start M
                pricers).calls → printed = (s.PostProcess M).2)
        ∧ 1 ≤ s.m_NSim
        ∧ s.m_NSim = ((ps.count p : Nat) : Int) * NSim
        ∧ s.m_sum = (s.m_NSim : α) * c
        ∧ s.m_squaredpayoff = (s.m_NSim : α) * (c * c)
        ∧ s.variance = 0 := by
  have hNT := IFDM.new_NT_nonneg sdeF numSubdivisions cls
  obtain ⟨h1, h2, -⟩ := MCMediator.start_spec M
    (MCMediator.setup (sde, IFDM.new sdeF numSubdivisions cls, rng) NSim ps) pricers
    (MCMediator.setup_length _ NSim ps hNT)
  rw [h1, h2]
  simp only [MCMediator.setup_eq]
  have hvol2 : ∀ x, (IFDM.new sdeF numSubdivisions cls).m_sde.Diffusion M x = 0 := hvol
  have hsame : ∀ arr ∈ simulatedPaths M sde (IFDM.new sdeF numSubdivisions cls) NSim.toNat rng,
      arr = simulatedPath M sde (IFDM.new sdeF numSubdivisions cls) rng 0 := by
    intro arr harr
    obtain ⟨i, -, rfl⟩ := mem_simulatedPaths _ _ _ _ _ _ harr
    exact simulatedPath_zero_vol M sde _ hvol2 rng i
  have hkpos : 1 ≤ ps.count p := List.count_pos_iff.mpr hp
  have hLne : (simulatedPaths M sde (IFDM.new sdeF numSubdivisions cls) NSim.toNat rng).flatMap
      (List.replicate (ps.count p)) ≠ [] :=
    flatMap_replicate_ne_nil _ _ hkpos (simulatedPaths_ne_nil M sde _ NSim.toNat rng (by omega))
  have hpay : ∀ arr ∈ (simulatedPaths M sde (IFDM.new sdeF numSubdivisions cls) NSim.toNat
        rng).flatMap (List.replicate (ps.count p)),
      (IPricer.new g D (PricerClass.AsianPricer 0 (GeometricAverage M))).pathPayoff arr
        = g (GeometricAverage M
            (simulatedPath M sde (IFDM.new sdeF numSubdivisions cls) rng 0)) := by
    intro arr harr
    rw [hsame arr (mem_of_mem_flatMap_replicate _ _ _ harr)]
    rfl
  have hvar := IPricer.variance_of_equal_payoffs g D
    (PricerClass.AsianPricer 0 (GeometricAverage M)) _ _ hLne hpay
  obtain ⟨s1, s2, s3⟩ := IPricer.sums_of_equal_payoffs g D
    (PricerClass.AsianPricer 0 (GeometricAverage M)) _ _ hpay
  have hlen : ((simulatedPaths M sde (IFDM.new sdeF numSubdivisions cls) NSim.toNat rng).flatMap
      (List.replicate (ps.count p))).length = ps.count p * NSim.toNat := by
    have hgen : ∀ (L : List (List α)) (k : Nat),
        (L.flatMap (List.replicate k)).length = k * L.length := by
      intro L k
      induction L with
      | nil => simp
      | cons a l ih =>
        rw [List.flatMap_cons, List.length_append, ih, List.length_replicate, List.length_cons]
        ring
    rw [hgen, simulatedPaths_length]
  have hstate : (pricers p).processAll (ps.count p)
      (simulatedPaths M sde (IFDM.new sdeF numSubdivisions cls) NSim.toNat rng)
      = ((simulatedPaths M sde (IFDM.new sdeF numSubdivisions cls) NSim.toNat rng).flatMap
          (List.replicate (ps.count p))).foldl IPricer.ProcessPath
          (IPricer.new g D (PricerClass.AsianPricer 0 (GeometricAverage M))) := by
    rw [IPricer.processAll_eq_foldl, hpr]
    rfl
  refine ⟨?_, g (GeometricAverage M
      (simulatedPath M sde (IFDM.new sdeF numSubdivisions cls) rng 0)),
    (pricers p).processAll (ps.count p)
      (simulatedPaths M sde (IFDM.new sdeF numSubdivisions cls) NSim.toNat rng),
    ?_, ?_, ?_, ?_, ?_, ?_, ?_, ?_⟩
  · intro a ha b hb
    rw [hsame a ha, hsame b hb]
  · intro a ha
    rw [hsame a ha]
  · exact List.mem_append_right _ (List.mem_map.mpr ⟨p, hp, rfl⟩)
  · intro printed hmem
    rcases List.mem_append.mp hmem with hmem | hmem
    · obtain ⟨arr, -, hin⟩ := List.mem_flatMap.mp hmem
      obtain ⟨q, -, hq⟩ := List.mem_map.mp hin
      cases hq
    · obtain ⟨q, -, hq⟩ := List.mem_map.mp hmem
      injection hq with hq1 hq2
      subst hq1
      exact hq2.symm
  · rw [hstate, s1]
    have := List.length_pos.mpr hLne
    omega
  · rw [hstate, s1, hlen]
    push_cast
    have hto : (NSim.toNat : Int) = NSim := by omega
    rw [hto]
  · rw [hstate, s2, s1]
    push_cast
    rfl
  · rw [hstate, s3, s1]
    push_cast
    rfl
  · rw [hstate]
    exact hvar

/-- Witness of C10 amended: a geometric process with volatility 0, the
predictor-corrector scheme, three paths. -/
theorem C10_zero_volatility_asian_witness :
    (∀ x, (GBM.new (1 / 10 : ℝ) 0 0 100 1).Diffusion
        (CMath.mk Real.sqrt (fun x y => x ^ y)) x = 0)
    ∧ (1 : Int) ≤ 3 ∧ 0 ∈ ([0] : List Nat)
    ∧ ∀ a ∈ ((MCMediator.setup (GBM.new (1 / 10 : ℝ) 0 0 100 1,
          IFDM.new (GBM.new (1 / 10 : ℝ) 0 0 100 1) 2
            (FDMClass.ModifiedPredictorCorrectorFDM (1 / 2) (1 / 2) 0),
          (IRNG.mk (0 : Nat) (fun s => ((s : ℝ), s + 1)))) 3 [0]).start
          (CMath.mk Real.sqrt (fun x y => x ^ y))
          (fun _ => AsianPricer (Call 100) (9 / 10)
            (GeometricAverage (CMath.mk Real.sqrt (fun x y => x ^ y))))).published,
        ∀ b ∈ ((MCMediator.setup (GBM.new (1 / 10 : ℝ) 0 0 100 1,
          IFDM.new (GBM.new (1 / 10 : ℝ) 0 0 100 1) 2
            (FDMClass.ModifiedPredictorCorrectorFDM (1 / 2) (1 / 2) 0),
          (IRNG.mk (0 : Nat) (fun s => ((s : ℝ), s + 1)))) 3 [0]).start
          (CMath.mk Real.sqrt (fun x y => x ^ y))
          (fun _ => AsianPricer (Call 100) (9 / 10)
            (GeometricAverage (CMath.mk Real.sqrt (fun x y => x ^ y))))).published, a = b :=
  ⟨fun x => GBM.zero_vol_diffusion _ _ _ _ _ x, by decide, by decide,
    (C10_zero_volatility_asian (CMath.mk Real.sqrt (fun x y => x ^ y))
      (GBM.new (1 / 10 : ℝ) 0 0 100 1) (GBM.new (1 / 10 : ℝ) 0 0 100 1) 2
      (FDMClass.ModifiedPredictorCorrectorFDM (1 / 2) (1 / 2) 0)
      (IRNG.mk (0 : Nat) (fun s => ((s : ℝ), s + 1))) 3 [0]
      (fun _ => AsianPricer (Call 100) (9 / 10)
        (GeometricAverage (CMath.mk Real.sqrt (fun x y => x ^ y)))) 0 (Call 100) (9 / 10)
      (fun x => GBM.zero_vol_diffusion _ _ _ _ _ x) (by decide) (by decide) rfl).1⟩

end CallClaims

/-! ## Processes and schemes: the formulas -/

section ProcessClaims
variable {α : Type} [LinearOrderedField α]

/-- C11: for every rate, volatility, carry, initial value and expiry, a CEV
process constructed with `beta = 1` has the same `Diffusion(x)` and the same
`DiffusionDerivative(x)` as the GBM process constructed from the same rate,
volatility and carry, at every `x > 0` (`std::pow(y, 0)` being 1 and
`std::pow(y, 1)` being `y`). -/
theorem C11_cev_beta_one_is_gbm (M : CMath α) (hpow0 : ∀ y, M.pow y 0 = 1)
    (hpow1 : ∀ y, 0 < y → M.pow y 1 = y)
    (rate vol carry ic expiry x : α) (hx : 0 < x) :
    (CEV.new M rate vol carry ic expiry 1).Diffusion M x
        = (GBM.new rate vol carry ic expiry).Diffusion M x
    ∧ (CEV.new M rate vol carry ic expiry 1).DiffusionDerivative M x
        = (GBM.new rate vol carry ic expiry).DiffusionDerivative M x := by
  constructor
  · simp [CEV.new, GBM.new, ISDE.Diffusion, hpow0, hpow1 x hx]
  · simp [CEV.new, GBM.new, ISDE.DiffusionDerivative, hpow0]

/-- Witness of C11: the real power function, volatility 1/5, initial value 100,
level 3. -/
theorem C11_cev_beta_one_is_gbm_witness :
    (∀ y : ℝ, y ^ (0 : ℝ) = 1) ∧ (∀ y : ℝ, 0 < y → y ^ (1 : ℝ) = y) ∧ (0 : ℝ) < 3
    ∧ (CEV.new (CMath.mk Real.sqrt (fun x y => x ^ y)) (1 / 10 : ℝ) (1 / 5) 0 100 1 1).Diffusion
          (CMath.mk Real.sqrt (fun x y => x ^ y)) 3
        = (GBM.new (1 / 10 : ℝ) (1 / 5) 0 100 1).Diffusion
            (CMath.mk Real.sqrt (fun x y => x ^ y)) 3
    ∧ (CEV.new (CMath.mk Real.sqrt (fun x y => x ^ y)) (1 / 10 : ℝ) (1 / 5) 0 100 1
          1).DiffusionDerivative (CMath.mk Real.sqrt (fun x y => x ^ y)) 3
        = (GBM.new (1 / 10 : ℝ) (1 / 5) 0 100 1).DiffusionDerivative
            (CMath.mk Real.sqrt (fun x y => x ^ y)) 3 :=
  ⟨Real.rpow_zero, fun y _ => Real.rpow_one y, by norm_num,
    C11_cev_beta_one_is_gbm (CMath.mk Real.sqrt (fun x y => x ^ y)) Real.rpow_zero
      (fun y _ => Real.rpow_one y) (1 / 10) (1 / 5) 0 100 1 3 (by norm_num)⟩

/-- C13: for every process, level `x`, time `t`, step `dt ≥ 0` and sample `z`,
`MilsteinFDM::advance - EulerFDM::advance` is
`0.5 * dt * Diffusion(x) * DiffusionDerivative(x) * (z^2 - 1)`; and for a GBM
with zero drift (rate equal to carry) and volatility `sigma`, with `dt = 1` and
`z = 0`, the Euler step is `x`, the Milstein step is `x - 0.5 * sigma^2 * x`,
and they differ by `-0.5 * dt * sigma^2 * x`. -/
theorem C13_milstein_minus_euler (M : CMath α) (sde : ISDE α) (numSubdivisions : Int)
    (x t dt z : α) (_hdt : 0 ≤ dt) :
    ((MilsteinFDM sde numSubdivisions).advance M x t dt z).1
        - ((EulerFDM sde numSubdivisions).advance M x t dt z).1
      = (1 / 2) * dt * sde.Diffusion M x * sde.DiffusionDerivative M x * (z ^ 2 - 1)
    ∧ ∀ rate sigma ic expiry : α,
        ((EulerFDM (GBM.new rate sigma rate ic expiry) numSubdivisions).advance M x t 1 0).1 = x
        ∧ ((MilsteinFDM (GBM.new rate sigma rate ic expiry) numSubdivisions).advance M x t 1 0).1
            = x - (1 / 2) * sigma ^ 2 * x
        ∧ ((MilsteinFDM (GBM.new rate sigma rate ic expiry) numSubdivisions).advance M x t 1 0).1
            - ((EulerFDM (GBM.new rate sigma rate ic expiry) numSubdivisions).advance M x t 1 0).1
            = -(1 / 2) * 1 * sigma ^ 2 * x := by
  refine ⟨?_, ?_⟩
  · simp only [MilsteinFDM, EulerFDM, IFDM.new, IFDM.advance]
    ring
  · intro rate sigma ic expiry
    simp only [MilsteinFDM, EulerFDM, IFDM.new, IFDM.advance, GBM.new, ISDE.Drift,
      ISDE.Diffusion, ISDE.DiffusionDerivative]
    refine ⟨by ring, by ring, by ring⟩

/-- Witness of C13: a CEV process with exponent 2, step 1/4, sample 3. -/
theorem C13_milstein_minus_euler_witness :
    (0 : ℝ) ≤ 1 / 4
    ∧ ((MilsteinFDM (CEV.new (CMath.mk Real.sqrt (fun x y => x ^ y)) (1 / 10 : ℝ) (1 / 5) 0 100
          1 2) 4).advance (CMath.mk Real.sqrt (fun x y => x ^ y)) 100 0 (1 / 4) 3).1
        - ((EulerFDM (CEV.new (CMath.mk Real.sqrt (fun x y => x ^ y)) (1 / 10 : ℝ) (1 / 5) 0 100
          1 2) 4).advance (CMath.mk Real.sqrt (fun x y => x ^ y)) 100 0 (1 / 4) 3).1
      = (1 / 2) * (1 / 4)
          * (CEV.new (CMath.mk Real.sqrt (fun x y => x ^ y)) (1 / 10 : ℝ) (1 / 5) 0 100 1
              2).Diffusion (CMath.mk Real.sqrt (fun x y => x ^ y)) 100
          * (CEV.new (CMath.mk Real.sqrt (fun x y => x ^ y)) (1 / 10 : ℝ) (1 / 5) 0 100 1
              2).DiffusionDerivative (CMath.mk Real.sqrt (fun x y => x ^ y)) 100
          * ((3 : ℝ) ^ 2 - 1) :=
  ⟨by norm_num,
    (C13_milstein_minus_euler (CMath.mk Real.sqrt (fun x y => x ^ y))
      (CEV.new (CMath.mk Real.sqrt (fun x y => x ^ y)) (1 / 10 : ℝ) (1 / 5) 0 100 1 2) 4
      100 0 (1 / 4) 3 (by norm_num)).1⟩

/-- C14: for every process, blend factors `A` and `B`, level `x`, step
`dt ≥ 0` and sample `z`, `ModifiedPredictorCorrectorFDM::advance` returns
`x + (A*DriftCorrected(xp,B) + (1-A)*DriftCorrected(x,B))*dt
   + (B*Diffusion(xp) + (1-B)*Diffusion(x))*sqrt(dt)*z`
with `xp` the value of `EulerFDM::advance(x,t,dt,z)` and
`DriftCorrected(y,B) = Drift(y) - B*Diffusion(y)*DiffusionDerivative(y)`;
the value is the same whatever the scratch member `m_VMid` holds on entry. -/
theorem C14_predictor_corrector_value (M : CMath α) (sde : ISDE α) (numSubdivisions : Int)
    (A B v x t dt z : α) (_hdt : 0 ≤ dt) :
    ((IFDM.new sde numSubdivisions
        (FDMClass.ModifiedPredictorCorrectorFDM A B v)).advance M x t dt z).1
      = x
        + (A * sde.DriftCorrected M ((EulerFDM sde numSubdivisions).advance M x t dt z).1 B
            + (1 - A) * sde.DriftCorrected M x B) * dt
        + (B * sde.Diffusion M ((EulerFDM sde numSubdivisions).advance M x t dt z).1
            + (1 - B) * sde.Diffusion M x) * M.sqrt dt * z
    ∧ (∀ y, sde.DriftCorrected M y B
        = sde.Drift y - B * sde.Diffusion M y * sde.DiffusionDerivative M y)
    ∧ ∀ v2, ((IFDM.new sde numSubdivisions
          (FDMClass.ModifiedPredictorCorrectorFDM A B v2)).advance M x t dt z).1
        = ((IFDM.new sde numSubdivisions
          (FDMClass.ModifiedPredictorCorrectorFDM A B v)).advance M x t dt z).1 :=
  ⟨rfl, fun _ => rfl, fun _ => rfl⟩

/-- Witness of C14: a geometric process, blend factors 1/2 and 1/3, a scratch
value 7 left on entry. -/
theorem C14_predictor_corrector_value_witness :
    (0 : ℝ) ≤ 1 / 4
    ∧ ∀ v2 : ℝ, ((IFDM.new (GBM.new (1 / 10 : ℝ) (1 / 5) 0 100 1) 4
          (FDMClass.ModifiedPredictorCorrectorFDM (1 / 2) (1 / 3) v2)).advance
            (CMath.mk Real.sqrt (fun x y => x ^ y)) 100 0 (1 / 4) 3).1
        = ((IFDM.new (GBM.new (1 / 10 : ℝ) (1 / 5) 0 100 1) 4
          (FDMClass.ModifiedPredictorCorrectorFDM (1 / 2) (1 / 3) 7)).advance
            (CMath.mk Real.sqrt (fun x y => x ^ y)) 100 0 (1 / 4) 3).1 :=
  ⟨by norm_num,
    (C14_predictor_corrector_value (CMath.mk Real.sqrt (fun x y => x ^ y))
      (GBM.new (1 / 10 : ℝ) (1 / 5) 0 100 1) 4 (1 / 2) (1 / 3) 7 100 0 (1 / 4) 3
      (by norm_num)).2.2⟩

end ProcessClaims

section DerivativeClaims

/-- C12: with the real power function for `std::pow`, `DiffusionDerivative(x)`
is the derivative of `Diffusion` with respect to the level at `x`, for a GBM
process at every real `x`, and for a CEV process with any exponent `beta` at
every `x > 0`. -/
theorem C12_diffusion_derivative (M : CMath ℝ)
    (hpow : ∀ x y : ℝ, 0 < x → M.pow x y = x ^ y) :
    (∀ (s : GBM ℝ) (x : ℝ),
      HasDerivAt (fun y => (ISDE.gbm s).Diffusion M y) ((ISDE.gbm s).DiffusionDerivative M x) x)
    ∧ ∀ (s : CEV ℝ) (x : ℝ), 0 < x →
      HasDerivAt (fun y => (ISDE.cev s).Diffusion M y)
        ((ISDE.cev s).DiffusionDerivative M x) x := by
  refine ⟨?_, ?_⟩
  · intro s x
    simp only [ISDE.Diffusion, ISDE.DiffusionDerivative]
    simpa using (hasDerivAt_id x).const_mul s.m_vol
  · intro s x hx
    have hbase : HasDerivAt (fun y : ℝ => s.m_vol * y ^ s.m_beta)
        (s.m_vol * (s.m_beta * x ^ (s.m_beta - 1))) x :=
      (Real.hasDerivAt_rpow_const (Or.inl hx.ne')).const_mul s.m_vol
    have hev : (fun y => (ISDE.cev s).Diffusion M y)
        =ᶠ[nhds x] fun y : ℝ => s.m_vol * y ^ s.m_beta := by
      filter_upwards [Ioi_mem_nhds hx] with y hy
      simp only [ISDE.Diffusion, hpow y _ hy]
    have hval : (ISDE.cev s).DiffusionDerivative M x
        = s.m_vol * (s.m_beta * x ^ (s.m_beta - 1)) := by
      simp only [ISDE.DiffusionDerivative, hpow x _ hx]
      split_ifs with hb
      · ring
      · have hneg : x ^ (1 - s.m_beta) = (x ^ (s.m_beta - 1))⁻¹ := by
          rw [← Real.rpow_neg hx.le]
          congr 1
          ring
        rw [hneg, div_inv_eq_mul]
        ring
    rw [hval]
    exact hbase.congr_of_eventuallyEq hev

/-- Witness of C12: the real power function, a CEV process of exponent 1/2 at
the level 4. -/
theorem C12_diffusion_derivative_witness :
    (∀ x y : ℝ, 0 < x → (CMath.mk Real.sqrt (fun x y : ℝ => x ^ y)).pow x y = x ^ y)
    ∧ (0 : ℝ) < 4
    ∧ HasDerivAt
        (fun y => (ISDE.cev (CEV.mk 100 1 (1 / 10) 2 0 (1 / 2) : CEV ℝ)).Diffusion
          (CMath.mk Real.sqrt (fun x y : ℝ => x ^ y)) y)
        ((ISDE.cev (CEV.mk 100 1 (1 / 10) 2 0 (1 / 2) : CEV ℝ)).DiffusionDerivative
          (CMath.mk Real.sqrt (fun x y : ℝ => x ^ y)) 4) 4 :=
  ⟨fun _ _ _ => rfl, by norm_num,
    (C12_diffusion_derivative (CMath.mk Real.sqrt (fun x y : ℝ => x ^ y))
      (fun _ _ _ => rfl)).2 (CEV.mk 100 1 (1 / 10) 2 0 (1 / 2)) 4 (by norm_num)⟩

end DerivativeClaims

/-! ## The time mesh and the degenerate step counts -/

section MeshClaims
variable {α σ : Type} [LinearOrderedField α]

/-- Where `quotient?` has a value, the divisor is not zero and the value is the
quotient of the field. -/
theorem quotient?_eq_some (x y q : α) (h : quotient? x y = some q) : y ≠ 0 ∧ x / y = q := by
  unfold quotient? at h
  split_ifs at h with hy
  exact ⟨hy, Option.some.inj h⟩

/-- Where the mesh size of a constructed scheme is a number, it is the member
`m_k`. -/
theorem IFDM.meshSize?_new (sde : ISDE α) (numSubdivisions : Int) (cls : FDMClass α) (k : α)
    (h : (IFDM.new sde numSubdivisions cls).meshSize? = some k) :
    (IFDM.new sde numSubdivisions cls).m_k = k :=
  (quotient?_eq_some _ _ _ h).2

/-- Where the mean of a pricer is a number, it is the mean that `PostProcess`
discounts into the price. -/
theorem IPricer.meanPayoff?_price (M : CMath α) (p : IPricer α) (m : α)
    (h : p.meanPayoff? = some m) : (p.PostProcess M).1.Price = p.DiscountFactor * m := by
  rw [← (quotient?_eq_some _ _ _ h).2]
  rfl

/-- C15 as stated fails twice. With expiry 1 and a requested step count of -3
the stored step count is 0, the mesh has the single point `mesh[0]`, which is
also `mesh[NT]`, and it cannot be both 0 and the expiry. And with expiry 1 and
49 steps the mesh computed in binary64 has 50 points and its last point, the
rounded product of 49 and the rounded quotient 1/49, is `1 - 2^-53`
(0.9999999999999999), not the expiry. -/
theorem C15_counterexample :
    (IFDM.m_vec64 (Double.ofInt 1) 49).length = 50
    ∧ (IFDM.m_vec64 (Double.ofInt 1) 49)[49]? = some { m := 2 ^ 53 - 1, e := -53 }
    ∧ (IFDM.m_vec64 (Double.ofInt 1) 49)[49]? ≠ some (Double.ofInt 1)
    ∧ Double.toRat { m := 2 ^ 53 - 1, e := -53 } = 1 - 1 / 2 ^ 53
    ∧ (IFDM.new (GBM.new (1 / 10 : ℚ) (1 / 5) 0 100 1) (-3) FDMClass.EulerFDM).m_NT = 0
    ∧ (IFDM.new (GBM.new (1 / 10 : ℚ) (1 / 5) 0 100 1) (-3) FDMClass.EulerFDM).m_vec.length = 1
    ∧ ¬ ((IFDM.new (GBM.new (1 / 10 : ℚ) (1 / 5) 0 100 1) (-3) FDMClass.EulerFDM).m_vec[0]?
          = some 0
        ∧ (IFDM.new (GBM.new (1 / 10 : ℚ) (1 / 5) 0 100 1) (-3) FDMClass.EulerFDM).m_vec[
            (IFDM.new (GBM.new (1 / 10 : ℚ) (1 / 5) 0 100 1) (-3)
              FDMClass.EulerFDM).m_NT.toNat]?
          = some (GBM.new (1 / 10 : ℚ) (1 / 5) 0 100 1).ExpiryTime) := by
  have hNT : (IFDM.new (GBM.new (1 / 10 : ℚ) (1 / 5) 0 100 1) (-3) FDMClass.EulerFDM).m_NT
      = 0 := by
    simp [IFDM.new]
  refine ⟨by decide!, by decide!, by decide!, ?_, hNT, by simp [IFDM.new], ?_⟩
  · norm_num [Double.toRat]
  · rintro ⟨h0, hN⟩
    rw [hNT, Int.toNat_zero, h0] at hN
    simp [GBM.new, ISDE.ExpiryTime] at hN

/-- C15 amended: for every process expiry and every requested step count, the
stored step count `NT` is at least 0 and the mesh has `NT + 1` points; when the
requested step count is at least 1, `NT` is that count, the mesh size is the
number `expiry / NT`, `mesh[i] = i * (expiry / NT)` for every `i ≤ NT`,
`mesh[0] = 0`, and the last point `mesh[NT]` is the product
`NT * (expiry / NT)` (which rounding can leave below the expiry). -/
theorem C15_mesh_invariant (sde : ISDE α) (numSubdivisions : Int) (cls : FDMClass α) :
    0 ≤ (IFDM.new sde numSubdivisions cls).m_NT
    ∧ ((IFDM.new sde numSubdivisions cls).m_vec.length : Int)
        = (IFDM.new sde numSubdivisions cls).m_NT + 1
    ∧ (1 ≤ numSubdivisions →
        (IFDM.new sde numSubdivisions cls).m_NT = numSubdivisions
        ∧ (IFDM.new sde numSubdivisions cls).meshSize?
            = some (sde.ExpiryTime / (numSubdivisions : α))
        ∧ (∀ i : Nat, (i : Int) ≤ (IFDM.new sde numSubdivisions cls).m_NT →
            (IFDM.new sde numSubdivisions cls).m_vec[i]?
              = some ((i : α) * (sde.ExpiryTime / (numSubdivisions : α))))
        ∧ (IFDM.new sde numSubdivisions cls).m_vec[0]? = some 0
        ∧ (IFDM.new sde numSubdivisions cls).m_vec[
            (IFDM.new sde numSubdivisions cls).m_NT.toNat]?
          = some ((numSubdivisions : α) * (sde.ExpiryTime / (numSubdivisions : α)))) := by
  have hNT := IFDM.new_NT_nonneg sde numSubdivisions cls
  refine ⟨hNT, ?_, ?_⟩
  · have hlen : (IFDM.new sde numSubdivisions cls).m_vec.length
        = ((IFDM.new sde numSubdivisions cls).m_NT + 1).toNat := by
      simp [IFDM.new]
    rw [hlen]
    omega
  · intro hn
    have hNTeq : (IFDM.new sde numSubdivisions cls).m_NT = numSubdivisions := by
      simp only [IFDM.new]
      rw [if_neg (by omega)]
    have hne : (numSubdivisions : α) ≠ 0 := by
      have : numSubdivisions ≠ 0 := by omega
      exact_mod_cast this
    have hk : (IFDM.new sde numSubdivisions cls).m_k
        = sde.ExpiryTime / (numSubdivisions : α) := by
      have h : (IFDM.new sde numSubdivisions cls).m_k
          = sde.ExpiryTime / ((IFDM.new sde numSubdivisions cls).m_NT : α) := rfl
      rw [h, hNTeq]
    have hmesh : ∀ i : Nat, (i : Int) ≤ (IFDM.new sde numSubdivisions cls).m_NT →
        (IFDM.new sde numSubdivisions cls).m_vec[i]?
          = some ((i : α) * (sde.ExpiryTime / (numSubdivisions : α))) := by
      intro i hi
      rw [IFDM.new_m_vec_getElem? sde numSubdivisions cls i (by omega), hk, mul_comm]
    refine ⟨hNTeq, ?_, hmesh, ?_, ?_⟩
    · have h : (IFDM.new sde numSubdivisions cls).meshSize?
          = quotient? sde.ExpiryTime ((IFDM.new sde numSubdivisions cls).m_NT : α) := rfl
      rw [h, hNTeq, quotient?, if_neg hne]
    · have h0 := hmesh 0 (by omega)
      simpa using h0
    · have hN := hmesh (IFDM.new sde numSubdivisions cls).m_NT.toNat (by omega)
      rw [hN]
      have hcast : (((IFDM.new sde numSubdivisions cls).m_NT.toNat : Nat) : α)
          = (numSubdivisions : α) := by
        have h1 : (((IFDM.new sde numSubdivisions cls).m_NT.toNat : Nat) : Int)
            = numSubdivisions := by omega
        exact_mod_cast h1
      rw [hcast]

/-- Witness of C15 amended: expiry 1, four steps. -/
theorem C15_mesh_invariant_witness :
    (1 : Int) ≤ 4
    ∧ (IFDM.new (GBM.new (1 / 10 : ℝ) (1 / 5) 0 100 1) 4 FDMClass.EulerFDM).m_vec[0]? = some 0
    ∧ (IFDM.new (GBM.new (1 / 10 : ℝ) (1 / 5) 0 100 1) 4 FDMClass.EulerFDM).m_vec[
        (IFDM.new (GBM.new (1 / 10 : ℝ) (1 / 5) 0 100 1) 4 FDMClass.EulerFDM).m_NT.toNat]?
        = some (((4 : Int) : ℝ)
            * ((GBM.new (1 / 10 : ℝ) (1 / 5) 0 100 1).ExpiryTime / ((4 : Int) : ℝ))) :=
  ⟨by decide,
    ((C15_mesh_invariant (GBM.new (1 / 10 : ℝ) (1 / 5) 0 100 1) 4 FDMClass.EulerFDM).2.2
      (by decide)).2.2.2.1,
    ((C15_mesh_invariant (GBM.new (1 / 10 : ℝ) (1 / 5) 0 100 1) 4 FDMClass.EulerFDM).2.2
      (by decide)).2.2.2.2⟩

/-- C16: for every negative requested step count the constructor stores
`NT = 0` and builds a one-point mesh, and `NT`, the step and the mesh are those
of the scheme constructed with a requested step count of 0; for every
non-negative request `NT` is the request. -/
theorem C16_negative_request (sde : ISDE α) (numSubdivisions : Int) (cls : FDMClass α) :
    (numSubdivisions < 0 →
        (IFDM.new sde numSubdivisions cls).m_NT = 0
        ∧ (IFDM.new sde numSubdivisions cls).m_vec.length = 1
        ∧ (IFDM.new sde numSubdivisions cls).m_NT = (IFDM.new sde 0 cls).m_NT
        ∧ (IFDM.new sde numSubdivisions cls).m_k = (IFDM.new sde 0 cls).m_k
        ∧ (IFDM.new sde numSubdivisions cls).m_vec = (IFDM.new sde 0 cls).m_vec
        ∧ IFDM.new sde numSubdivisions cls = IFDM.new sde 0 cls)
    ∧ (0 ≤ numSubdivisions → (IFDM.new sde numSubdivisions cls).m_NT = numSubdivisions) := by
  refine ⟨?_, ?_⟩
  · intro hneg
    have heq : IFDM.new sde numSubdivisions cls = IFDM.new sde 0 cls := by
      simp only [IFDM.new]
      rw [if_pos hneg, if_neg (by omega : ¬ ((0 : Int) < 0))]
    refine ⟨?_, ?_, ?_, ?_, ?_, heq⟩
    · rw [heq]
      simp [IFDM.new]
    · rw [heq]
      simp [IFDM.new]
    · rw [heq]
    · rw [heq]
    · rw [heq]
  · intro hnn
    simp only [IFDM.new]
    rw [if_neg (by omega)]

/-- Witness of C16: the request -5, and the request 4. -/
theorem C16_negative_request_witness :
    (-5 : Int) < 0 ∧ (0 : Int) ≤ 4
    ∧ IFDM.new (GBM.new (1 / 10 : ℝ) (1 / 5) 0 100 1) (-5) FDMClass.MilsteinFDM
        = IFDM.new (GBM.new (1 / 10 : ℝ) (1 / 5) 0 100 1) 0 FDMClass.MilsteinFDM
    ∧ (IFDM.new (GBM.new (1 / 10 : ℝ) (1 / 5) 0 100 1) 4 FDMClass.MilsteinFDM).m_NT = 4 :=
  ⟨by decide, by decide,
    ((C16_negative_request (GBM.new (1 / 10 : ℝ) (1 / 5) 0 100 1) (-5)
      FDMClass.MilsteinFDM).1 (by decide)).2.2.2.2.2,
    (C16_negative_request (GBM.new (1 / 10 : ℝ) (1 / 5) 0 100 1) 4 FDMClass.MilsteinFDM).2
      (by decide)⟩

end MeshClaims

section DegenerateClaims
variable {α σ : Type} [LinearOrderedField α]

theorem simulatedPaths_zero_steps (M : CMath α) (sde : ISDE α) (f : IFDM α)
    (hNT : f.m_NT.toNat = 0) (k : Nat) (r : IRNG α σ) :
    simulatedPaths M sde f k r = List.replicate k [sde.InitialCondition] := by
  induction k generalizing r with
  | zero => rfl
  | succ k ih =>
    simp only [simulatedPaths, hNT, IFDM.walk, List.replicate_succ]
    rw [← hNT, ih]

/-- C17 as stated fails: with expiry 1 and step count 0 the mesh size is the
quotient of 1 by zero, which is no number, and so is not 0. -/
theorem C17_counterexample :
    (IFDM.new (GBM.new (1 / 10 : ℚ) (1 / 5) 0 100 1) 0 FDMClass.EulerFDM).m_NT = 0
    ∧ (IFDM.new (GBM.new (1 / 10 : ℚ) (1 / 5) 0 100 1) 0 FDMClass.EulerFDM).meshSize? = none
    ∧ (IFDM.new (GBM.new (1 / 10 : ℚ) (1 / 5) 0 100 1) 0 FDMClass.EulerFDM).meshSize?
        ≠ some 0 := by
  have h : (IFDM.new (GBM.new (1 / 10 : ℚ) (1 / 5) 0 100 1) 0 FDMClass.EulerFDM).meshSize?
      = none := by
    simp [IFDM.meshSize?, quotient?, IFDM.new]
  refine ⟨by simp [IFDM.new], h, ?_⟩
  rw [h]
  exact fun hc => Option.noConfusion hc

/-- C17 amended: for a scheme constructed with a requested step count that is
0 or negative, the stored step count is 0 and the step size `m_k` is a quotient
by zero, which is no number; `start` does not read it: whatever `m_k` holds,
`start` completes and publishes, for each of the `NSim` paths, the one-point
path that consists of the process's initial value. -/
theorem C17_zero_steps (M : CMath α) (sde sdeF : ISDE α) (numSubdivisions : Int)
    (cls : FDMClass α) (rng : IRNG α σ) (NSim : Int) (ps : List Nat)
    (pricers : Nat → IPricer α) (hn : numSubdivisions ≤ 0) :
    (IFDM.new sdeF numSubdivisions cls).m_NT = 0
    ∧ (IFDM.new sdeF numSubdivisions cls).meshSize? = none
    ∧ ((MCMediator.setup (sde, IFDM.new sdeF numSubdivisions cls, rng) NSim ps).start M
          pricers).published = List.replicate NSim.toNat [sde.InitialCondition]
    ∧ ∀ k : α,
        ((MCMediator.setup (sde, { IFDM.new sdeF numSubdivisions cls with m_k := k }, rng)
          NSim ps).start M pricers).published
          = List.replicate NSim.toNat [sde.InitialCondition] := by
  have hNT : (IFDM.new sdeF numSubdivisions cls).m_NT = 0 := by
    simp only [IFDM.new]
    split_ifs <;> omega
  have hany : ∀ k : α,
      ((MCMediator.setup (sde, { IFDM.new sdeF numSubdivisions cls with m_k := k }, rng)
        NSim ps).start M pricers).published
        = List.replicate NSim.toNat [sde.InitialCondition] := by
    intro k
    have hNTk : ({ IFDM.new sdeF numSubdivisions cls with m_k := k } : IFDM α).m_NT = 0 := hNT
    obtain ⟨h1, -, -⟩ := MCMediator.start_spec M
      (MCMediator.setup (sde, { IFDM.new sdeF numSubdivisions cls with m_k := k }, rng) NSim ps)
      pricers (MCMediator.setup_length _ NSim ps (by rw [hNTk]))
    rw [h1]
    simp only [MCMediator.setup_eq]
    exact simulatedPaths_zero_steps M sde _ (by rw [hNTk]; rfl) _ _
  refine ⟨hNT, ?_, ?_, hany⟩
  · have h : (IFDM.new sdeF numSubdivisions cls).meshSize?
        = quotient? sdeF.ExpiryTime ((IFDM.new sdeF numSubdivisions cls).m_NT : α) := rfl
    rw [h, hNT]
    simp [quotient?]
  · exact hany (IFDM.new sdeF numSubdivisions cls).m_k

/-- Witness of C17 amended: step count 0, three paths from 100. -/
theorem C17_zero_steps_witness :
    (0 : Int) ≤ 0
    ∧ ((MCMediator.setup (GBM.new (1 / 10 : ℝ) (1 / 5) 0 100 1,
          IFDM.new (GBM.new (1 / 10 : ℝ) (1 / 5) 0 100 1) 0 FDMClass.EulerFDM,
          (IRNG.mk (0 : Nat) (fun s => ((s : ℝ), s + 1)))) 3 [0]).start
          (CMath.mk Real.sqrt (fun x y => x ^ y))
          (fun _ => EuropeanPricer (Call 100) 1)).published
        = List.replicate (3 : Int).toNat [(GBM.new (1 / 10 : ℝ) (1 / 5) 0 100 1).InitialCondition] :=
  ⟨le_refl 0,
    (C17_zero_steps (CMath.mk Real.sqrt (fun x y => x ^ y))
      (GBM.new (1 / 10 : ℝ) (1 / 5) 0 100 1) (GBM.new (1 / 10 : ℝ) (1 / 5) 0 100 1) 0
      FDMClass.EulerFDM (IRNG.mk (0 : Nat) (fun s => ((s : ℝ), s + 1))) 3 [0]
      (fun _ => EuropeanPricer (Call 100) 1) (le_refl 0)).2.2.1⟩

end DegenerateClaims

/-! ## Finalisation without paths, and twice -/

section FinaliseClaims
variable {α σ : Type} [LinearOrderedField α]

/-- A run with `NSim ≤ 0` publishes nothing and goes straight to `m_finish()`. -/
theorem MCMediator.start_no_paths (M : CMath α) (sde sdeF : ISDE α) (numSubdivisions : Int)
    (cls : FDMClass α) (rng : IRNG α σ) (NSim : Int) (ps : List Nat)
    (pricers : Nat → IPricer α) (hN : NSim ≤ 0) :
    ((MCMediator.setup (sde, IFDM.new sdeF numSubdivisions cls, rng) NSim ps).start M
        pricers).published = []
    ∧ ((MCMediator.setup (sde, IFDM.new sdeF numSubdivisions cls, rng) NSim ps).start M
        pricers).calls
        = ps.map (fun q => SlotCall.PostProcess q ((pricers q).PostProcess M).2)
    ∧ ∀ q, ((MCMediator.setup (sde, IFDM.new sdeF numSubdivisions cls, rng) NSim ps).start M
        pricers).pricers q
        = (fun p => (IPricer.PostProcess M p).1)^[ps.count q] (pricers q) := by
  have hNT := IFDM.new_NT_nonneg sdeF numSubdivisions cls
  obtain ⟨h1, h2, h3⟩ := MCMediator.start_spec M
    (MCMediator.setup (sde, IFDM.new sdeF numSubdivisions cls, rng) NSim ps) pricers
    (MCMediator.setup_length _ NSim ps hNT)
  have hz : NSim.toNat = 0 := by omega
  refine ⟨?_, ?_, ?_⟩
  · rw [h1]
    simp only [MCMediator.setup_eq, hz, simulatedPaths]
  · rw [h2]
    simp [MCMediator.setup_eq, hz, simulatedPaths, IPricer.processAll]
  · intro q
    rw [h3 q]
    simp [MCMediator.setup_eq, hz, simulatedPaths, IPricer.processAll]

/-- C18 as stated fails: a run with `NSim = 0` calls `PostProcess` on the
subscribed pricer, whose count is 0; the mean is then a quotient by zero, and
the call returns its three printed values like any other, no error being
reported. -/
theorem C18_counterexample :
    (EuropeanPricer (Call 100) (1 / 2) : IPricer ℝ).m_NSim = 0
    ∧ (((EuropeanPricer (Call 100) (1 / 2) : IPricer ℝ).m_NSim : ℝ) * 1 = 0)
    ∧ (EuropeanPricer (Call 100) (1 / 2) : IPricer ℝ).meanPayoff? = none
    ∧ ((MCMediator.setup (GBM.new (1 / 10 : ℝ) (1 / 5) 0 100 1,
          IFDM.new (GBM.new (1 / 10 : ℝ) (1 / 5) 0 100 1) 2 FDMClass.EulerFDM,
          (IRNG.mk (0 : Nat) (fun s => ((s : ℝ), s + 1)))) 0 [0]).start
          (CMath.mk Real.sqrt (fun x y => x ^ y))
          (fun _ => EuropeanPricer (Call 100) (1 / 2))).calls
        = [SlotCall.PostProcess 0
            ((EuropeanPricer (Call 100) (1 / 2) : IPricer ℝ).PostProcess
              (CMath.mk Real.sqrt (fun x y => x ^ y))).2] := by
  refine ⟨rfl, by simp [EuropeanPricer, IPricer.new], ?_, ?_⟩
  · simp [IPricer.meanPayoff?, quotient?, EuropeanPricer, IPricer.new]
  · rw [(MCMediator.start_no_paths (CMath.mk Real.sqrt (fun x y => x ^ y))
      (GBM.new (1 / 10 : ℝ) (1 / 5) 0 100 1) (GBM.new (1 / 10 : ℝ) (1 / 5) 0 100 1) 2
      FDMClass.EulerFDM (IRNG.mk (0 : Nat) (fun s => ((s : ℝ), s + 1))) 0 [0]
      (fun _ => EuropeanPricer (Call 100) (1 / 2)) (le_refl 0)).2.1]
    rfl

/-- C18 amended: for every pricer variant, a run of `start` with `NSim ≤ 0`
publishes no path and calls `PostProcess` once for each connected slot; on a
subscribed pricer whose count is 0 that call reports no error: the mean it
computes is a quotient by the zero count, which is no number, and the call
leaves the count and the accumulators as they are. -/
theorem C18_finalise_without_paths (M : CMath α) (sde sdeF : ISDE α) (numSubdivisions : Int)
    (cls : FDMClass α) (rng : IRNG α σ) (NSim : Int) (ps : List Nat)
    (pricers : Nat → IPricer α) (p : Nat)
    (hN : NSim ≤ 0) (hp : p ∈ ps) (hcount : (pricers p).m_NSim = 0) :
    ((MCMediator.setup (sde, IFDM.new sdeF numSubdivisions cls, rng) NSim ps).start M
        pricers).published = []
    ∧ ((MCMediator.setup (sde, IFDM.new sdeF numSubdivisions cls, rng) NSim ps).start M
        pricers).calls
        = ps.map (fun q => SlotCall.PostProcess q ((pricers q).PostProcess M).2)
    ∧ SlotCall.PostProcess p ((pricers p).PostProcess M).2
        ∈ ((MCMediator.setup (sde, IFDM.new sdeF numSubdivisions cls, rng) NSim ps).start M
            pricers).calls
    ∧ (pricers p).meanPayoff? = none
    ∧ (((MCMediator.setup (sde, IFDM.new sdeF numSubdivisions cls, rng) NSim ps).start M
        pricers).pricers p).m_NSim = 0
    ∧ (((MCMediator.setup (sde, IFDM.new sdeF numSubdivisions cls, rng) NSim ps).start M
        pricers).pricers p).m_sum = (pricers p).m_sum
    ∧ (((MCMediator.setup (sde, IFDM.new sdeF numSubdivisions cls, rng) NSim ps).start M
        pricers).pricers p).m_squaredpayoff = (pricers p).m_squaredpayoff := by
  obtain ⟨h1, h2, h3⟩ := MCMediator.start_no_paths M sde sdeF numSubdivisions cls rng NSim ps
    pricers hN
  obtain ⟨k1, k2, k3, -⟩ := IPricer.PostProcess_iterate_fields M (ps.count p) (pricers p)
  refine ⟨h1, h2, ?_, ?_, ?_, ?_, ?_⟩
  · rw [h2]
    exact List.mem_map.mpr ⟨p, hp, rfl⟩
  · simp [IPricer.meanPayoff?, quotient?, hcount]
  · rw [h3 p, k3, hcount]
  · rw [h3 p, k1]
  · rw [h3 p, k2]

/-- Witness of C18 amended: no path, one Asian pricer. -/
theorem C18_finalise_without_paths_witness :
    (-1 : Int) ≤ 0 ∧ 0 ∈ ([0] : List Nat)
    ∧ ((fun _ => AsianPricer (Put 100) (1 / 2) ArithmeticAverage : Nat → IPricer ℝ) 0).m_NSim = 0
    ∧ ((MCMediator.setup (GBM.new (1 / 10 : ℝ) (1 / 5) 0 100 1,
          IFDM.new (GBM.new (1 / 10 : ℝ) (1 / 5) 0 100 1) 2 FDMClass.EulerFDM,
          (IRNG.mk (0 : Nat) (fun s => ((s : ℝ), s + 1)))) (-1) [0]).start
          (CMath.mk Real.sqrt (fun x y => x ^ y))
          (fun _ => AsianPricer (Put 100) (1 / 2) ArithmeticAverage)).published = []
    ∧ ((fun _ => AsianPricer (Put 100) (1 / 2) ArithmeticAverage : Nat → IPricer ℝ)
        0).meanPayoff? = none := by
  have h := C18_finalise_without_paths (CMath.mk Real.sqrt (fun x y => x ^ y))
    (GBM.new (1 / 10 : ℝ) (1 / 5) 0 100 1) (GBM.new (1 / 10 : ℝ) (1 / 5) 0 100 1) 2
    FDMClass.EulerFDM (IRNG.mk (0 : Nat) (fun s => ((s : ℝ), s + 1))) (-1) [0]
    (fun _ => AsianPricer (Put 100) (1 / 2) ArithmeticAverage) 0 (by decide) (by decide) rfl
  exact ⟨by decide, by decide, rfl, h.1, h.2.2.2.1⟩

/-- C19: for every pricer variant and every accumulated state with count at
least 1, a second `PostProcess` with no `ProcessPath` in between leaves the
pricer in the state the first call left and prints the same price, standard
deviation and standard error; the mean both calls compute is the number
`sum / count`. -/
theorem C19_PostProcess_twice (M : CMath α) (p : IPricer α) (hcount : 1 ≤ p.m_NSim) :
    ((p.PostProcess M).1.PostProcess M).1 = (p.PostProcess M).1
    ∧ ((p.PostProcess M).1.PostProcess M).2 = (p.PostProcess M).2
    ∧ ((p.PostProcess M).1.PostProcess M).1.Price = (p.PostProcess M).1.Price
    ∧ (p.PostProcess M).1.meanPayoff? = p.meanPayoff?
    ∧ p.meanPayoff? = some (p.m_sum / (p.m_NSim : α)) := by
  refine ⟨rfl, rfl, rfl, rfl, ?_⟩
  have hne : (p.m_NSim : α) * 1 ≠ 0 := by
    have h : p.m_NSim ≠ 0 := by omega
    rw [mul_one]
    exact_mod_cast h
  rw [IPricer.meanPayoff?, quotient?, if_neg hne, mul_one]

/-- Witness of C19: a barrier pricer that has accumulated three paths. -/
theorem C19_PostProcess_twice_witness :
    (1 : Int) ≤ 3
    ∧ (((IPricer.mk (Call 1) (1 / 2) 0 14 6 3
          (PricerClass.BarrierPricer (UpAndOut 4)) : IPricer ℝ).PostProcess
            (CMath.mk Real.sqrt (fun x y => x ^ y))).1.PostProcess
              (CMath.mk Real.sqrt (fun x y => x ^ y))).1
        = ((IPricer.mk (Call 1) (1 / 2) 0 14 6 3
          (PricerClass.BarrierPricer (UpAndOut 4)) : IPricer ℝ).PostProcess
            (CMath.mk Real.sqrt (fun x y => x ^ y))).1
    ∧ (((IPricer.mk (Call 1) (1 / 2) 0 14 6 3
          (PricerClass.BarrierPricer (UpAndOut 4)) : IPricer ℝ).PostProcess
            (CMath.mk Real.sqrt (fun x y => x ^ y))).1.PostProcess
              (CMath.mk Real.sqrt (fun x y => x ^ y))).2
        = ((IPricer.mk (Call 1) (1 / 2) 0 14 6 3
          (PricerClass.BarrierPricer (UpAndOut 4)) : IPricer ℝ).PostProcess
            (CMath.mk Real.sqrt (fun x y => x ^ y))).2 := by
  have h := C19_PostProcess_twice (CMath.mk Real.sqrt (fun x y => x ^ y))
    (IPricer.mk (Call 1) (1 / 2) 0 14 6 3 (PricerClass.BarrierPricer (UpAndOut 4)) : IPricer ℝ)
    (by decide)
  exact ⟨by decide, h.1, h.2.1⟩

end FinaliseClaims

/-! ## Configuration assembly -/

section BuilderClaims
variable {α : Type} [LinearOrderedField α]

/-- C20: the builders are total, and every integer choice outside the listed
options falls back to the default: `MCBuilder::GetSde` yields the GBM process
for a choice other than 1 and 2, `GetFdm` yields `EulerFDM` for a choice other
than 1, 2 and 3, `GetRng` yields `MTNormalRNG(0,1)` for a choice other than 1, 2
and 3, and `BuilderFactory::ChooseBuilder` yields the parts of the default
builder (GBM, Euler, MTNormal) for a choice other than 1 and 2. -/
theorem C20_fallback_to_default (M : CMath α) (data : α × α × α × α × α × α)
    (sde : ISDE α) (ans : Answers α) :
    (ans.sde ≠ 1 → ans.sde ≠ 2 →
      MCBuilder.GetSde M (IBuilder.new data) ans
        = GBM.new data.1 data.2.1 data.2.2.1 data.2.2.2.1 data.2.2.2.2.2)
    ∧ (ans.fdm ≠ 1 → ans.fdm ≠ 2 → ans.fdm ≠ 3 →
      MCBuilder.GetFdm sde ans = EulerFDM sde ans.NT)
    ∧ (ans.rng ≠ 1 → ans.rng ≠ 2 → ans.rng ≠ 3 →
      MCBuilder.GetRng ans = RNGClass.MTNormalRNG 0 1)
    ∧ (ans.builder ≠ 1 → ans.builder ≠ 2 →
      BuilderFactory.ChooseBuilder M data ans = MCDefaultBuilder.Parts (IBuilder.new data) ans
      ∧ BuilderFactory.ChooseBuilder M data ans
        = (GBM.new data.1 data.2.1 data.2.2.1 data.2.2.2.1 data.2.2.2.2.2,
            EulerFDM (GBM.new data.1 data.2.1 data.2.2.1 data.2.2.2.1 data.2.2.2.2.2) ans.NT,
            RNGClass.MTNormalRNG 0 1)) := by
  refine ⟨?_, ?_, ?_, ?_⟩
  · intro h1 h2
    simp [MCBuilder.GetSde, IBuilder.new, h1, h2]
  · intro h1 h2 h3
    simp [MCBuilder.GetFdm, h1, h2, h3]
  · intro h1 h2 h3
    simp [MCBuilder.GetRng, h1, h2, h3]
  · intro h1 h2
    have h : BuilderFactory.ChooseBuilder M data ans
        = MCDefaultBuilder.Parts (IBuilder.new data) ans := by
      simp [BuilderFactory.ChooseBuilder, h1, h2]
    exact ⟨h, by rw [h]; rfl⟩

/-- Witness of C20: the choice 7 at every prompt. -/
theorem C20_fallback_to_default_witness :
    (Answers.mk 7 7 (1 / 2) 7 50 (1 / 2) (1 / 2) 7 : Answers ℝ).builder ≠ 1
    ∧ (Answers.mk 7 7 (1 / 2) 7 50 (1 / 2) (1 / 2) 7 : Answers ℝ).builder ≠ 2
    ∧ BuilderFactory.ChooseBuilder (CMath.mk Real.sqrt (fun x y => x ^ y))
        ((8 / 100 : ℝ), (3 / 10 : ℝ), (0 : ℝ), (60 : ℝ), (65 : ℝ), (1 / 4 : ℝ))
        (Answers.mk 7 7 (1 / 2) 7 50 (1 / 2) (1 / 2) 7)
      = (GBM.new (8 / 100 : ℝ) (3 / 10) 0 60 (1 / 4),
          EulerFDM (GBM.new (8 / 100 : ℝ) (3 / 10) 0 60 (1 / 4)) 50,
          RNGClass.MTNormalRNG 0 1) := by
  have h := (C20_fallback_to_default (CMath.mk Real.sqrt (fun x y => x ^ y))
    ((8 / 100 : ℝ), (3 / 10 : ℝ), (0 : ℝ), (60 : ℝ), (65 : ℝ), (1 / 4 : ℝ))
    (GBM.new (8 / 100 : ℝ) (3 / 10) 0 60 (1 / 4))
    (Answers.mk 7 7 (1 / 2) 7 50 (1 / 2) (1 / 2) 7)).2.2.2 (by decide) (by decide)
  exact ⟨by decide, by decide, h.2⟩

end BuilderClaims

/-! ## Schemes: the time argument and the blend factors -/

section SchemeClaims
variable {α σ : Type} [LinearOrderedField α]

/-- C23: for each of the three schemes and every process, `advance` does not
read its time argument: `advance(x, t1, dt, z)` and `advance(x, t2, dt, z)`
return the same value and leave the same scheme; so each step of `start`, which
passes the last mesh point `m_vec.back()`, is the step that passing any other
time, `mesh[n-1]` in particular, would give. -/
theorem C23_advance_ignores_time (M : CMath α) (f : IFDM α) (x t1 t2 dt z : α) :
    f.advance M x t1 dt z = f.advance M x t2 dt z
    ∧ (f.advance M x t1 dt z).1 = (f.advance M x t2 dt z).1
    ∧ f.step M x z = (f.advance M x t1 f.m_k z).1
    ∧ ∀ (steps : Nat) (r : IRNG α σ) (n : Nat), n < steps →
        ∃ a t, (x :: f.walk M steps r x)[n]? = some a
          ∧ (x :: f.walk M steps r x)[n + 1]? = some (f.advance M a t f.m_k (r.sample n)).1
          ∧ (n < f.m_vec.length → f.m_vec[n]? = some t) := by
  refine ⟨rfl, rfl, rfl, ?_⟩
  intro steps r n hn
  obtain ⟨a, h1, h2⟩ := IFDM.walk_step M f steps r x n hn
  by_cases hlen : n < f.m_vec.length
  · exact ⟨a, f.m_vec[n], h1, h2, fun _ => List.getElem?_eq_getElem hlen⟩
  · exact ⟨a, 0, h1, h2, fun h => absurd h hlen⟩

end SchemeClaims

section ElasticityClaims

/-- C24: with the real power function for `std::pow`, for every `x > 0`, every
exponent `beta` and every scaled volatility `m_vol`, the expressions of the
two branches of `CEV::DiffusionDerivative` agree,
`m_vol*beta*x^(beta-1) = m_vol*beta / x^(1-beta)`, the divisor being positive;
so `DiffusionDerivative(x)` is `m_vol*beta*x^(beta-1)` whichever branch is
taken, and it is `m_vol` at `beta = 1`. -/
theorem C24_derivative_branches_agree (M : CMath ℝ)
    (hpow : ∀ x y : ℝ, 0 < x → M.pow x y = x ^ y) (s : CEV ℝ) (x : ℝ) (hx : 0 < x) :
    s.m_vol * s.m_beta * M.pow x (s.m_beta - 1) = s.m_vol * s.m_beta / M.pow x (1 - s.m_beta)
    ∧ 0 < M.pow x (1 - s.m_beta)
    ∧ (ISDE.cev s).DiffusionDerivative M x = s.m_vol * s.m_beta * x ^ (s.m_beta - 1)
    ∧ (s.m_beta = 1 → (ISDE.cev s).DiffusionDerivative M x = s.m_vol) := by
  have hneg : x ^ (1 - s.m_beta) = (x ^ (s.m_beta - 1))⁻¹ := by
    rw [← Real.rpow_neg hx.le]
    congr 1
    ring
  have hagree : s.m_vol * s.m_beta * M.pow x (s.m_beta - 1)
      = s.m_vol * s.m_beta / M.pow x (1 - s.m_beta) := by
    rw [hpow x _ hx, hpow x _ hx, hneg, div_inv_eq_mul]
  have hval : (ISDE.cev s).DiffusionDerivative M x
      = s.m_vol * s.m_beta * x ^ (s.m_beta - 1) := by
    simp only [ISDE.DiffusionDerivative]
    split_ifs with hb
    · rw [hpow x _ hx]
    · rw [← hagree, hpow x _ hx]
  refine ⟨hagree, ?_, hval, ?_⟩
  · rw [hpow x _ hx]
    exact Real.rpow_pos_of_pos hx _
  · intro hb
    rw [hval, hb]
    simp

/-- Witness of C24: exponent 1/2, level 4. -/
theorem C24_derivative_branches_agree_witness :
    (∀ x y : ℝ, 0 < x → (CMath.mk Real.sqrt (fun x y : ℝ => x ^ y)).pow x y = x ^ y)
    ∧ (0 : ℝ) < 4
    ∧ (CEV.mk 100 1 (1 / 10) 2 0 (1 / 2) : CEV ℝ).m_vol
          * (CEV.mk 100 1 (1 / 10) 2 0 (1 / 2) : CEV ℝ).m_beta
          * (CMath.mk Real.sqrt (fun x y : ℝ => x ^ y)).pow 4
              ((CEV.mk 100 1 (1 / 10) 2 0 (1 / 2) : CEV ℝ).m_beta - 1)
        = (CEV.mk 100 1 (1 / 10) 2 0 (1 / 2) : CEV ℝ).m_vol
          * (CEV.mk 100 1 (1 / 10) 2 0 (1 / 2) : CEV ℝ).m_beta
          / (CMath.mk Real.sqrt (fun x y : ℝ => x ^ y)).pow 4
              (1 - (CEV.mk 100 1 (1 / 10) 2 0 (1 / 2) : CEV ℝ).m_beta) :=
  ⟨fun _ _ _ => rfl, by norm_num,
    (C24_derivative_branches_agree (CMath.mk Real.sqrt (fun x y : ℝ => x ^ y))
      (fun _ _ _ => rfl) (CEV.mk 100 1 (1 / 10) 2 0 (1 / 2)) 4 (by norm_num)).1⟩

end ElasticityClaims

/-! ## Barrier pricers: knock-in and knock-out -/

section KnockClaims
variable {α : Type} [LinearOrderedField α]

theorem UpAndIn_eq_not_UpAndOut (barrier : α) (v : List α) :
    UpAndIn barrier v = !UpAndOut barrier v := by
  induction v with
  | nil => rfl
  | cons x v ih =>
    unfold UpAndIn UpAndOut
    split_ifs
    · rfl
    · exact ih

theorem DownAndIn_eq_not_DownAndOut (barrier : α) (v : List α) :
    DownAndIn barrier v = !DownAndOut barrier v := by
  induction v with
  | nil => rfl
  | cons x v ih =>
    unfold DownAndIn DownAndOut
    split_ifs
    · rfl
    · exact ih

theorem BarrierPricer.pathPayoff_add (g : α → α) (D : α) (kin kout : List α → Bool)
    (hk : ∀ v, kin v = !kout v) (arr : List α) :
    (BarrierPricer g D kin).pathPayoff arr + (BarrierPricer g D kout).pathPayoff arr
      = (EuropeanPricer g D).pathPayoff arr := by
  simp only [IPricer.pathPayoff, BarrierPricer, EuropeanPricer, IPricer.new, hk arr]
  cases kout arr <;> simp

theorem list_sum_map_add (f g h : List α → α) (paths : List (List α))
    (hadd : ∀ arr, f arr + g arr = h arr) :
    (paths.map f).sum + (paths.map g).sum = (paths.map h).sum := by
  induction paths with
  | nil => simp
  | cons arr rest ih =>
    simp only [List.map_cons, List.sum_cons]
    rw [← ih, ← hadd arr]
    ring

theorem BarrierPricer.sum_add (g : α → α) (D : α) (kin kout : List α → Bool)
    (hk : ∀ v, kin v = !kout v) (paths : List (List α)) :
    (paths.foldl IPricer.ProcessPath (BarrierPricer g D kin)).m_sum
        + (paths.foldl IPricer.ProcessPath (BarrierPricer g D kout)).m_sum
      = (paths.foldl IPricer.ProcessPath (EuropeanPricer g D)).m_sum := by
  rw [(IPricer.foldl_fields paths (BarrierPricer g D kin)).1,
    (IPricer.foldl_fields paths (BarrierPricer g D kout)).1,
    (IPricer.foldl_fields paths (EuropeanPricer g D)).1,
    ← list_sum_map_add _ _ _ paths (BarrierPricer.pathPayoff_add g D kin kout hk)]
  simp only [BarrierPricer, EuropeanPricer, IPricer.new]
  ring

theorem BarrierPricer.price_add (M : CMath α) (g : α → α) (D : α) (kin kout : List α → Bool)
    (hk : ∀ v, kin v = !kout v) (paths : List (List α)) (_hN : paths ≠ []) :
    ((paths.foldl IPricer.ProcessPath (BarrierPricer g D kin)).PostProcess M).1.Price
        + ((paths.foldl IPricer.ProcessPath (BarrierPricer g D kout)).PostProcess M).1.Price
      = ((paths.foldl IPricer.ProcessPath (EuropeanPricer g D)).PostProcess M).1.Price := by
  have hsum := BarrierPricer.sum_add g D kin kout hk paths
  obtain ⟨-, -, a3, -, a5, -⟩ := IPricer.foldl_fields paths (BarrierPricer g D kin)
  obtain ⟨-, -, b3, -, b5, -⟩ := IPricer.foldl_fields paths (BarrierPricer g D kout)
  obtain ⟨-, -, c3, -, c5, -⟩ := IPricer.foldl_fields paths (EuropeanPricer g D)
  simp only [IPricer.PostProcess, IPricer.Price, IPricer.DiscountFactor, a3, a5, b3, b5, c3, c5,
    ← hsum]
  simp only [BarrierPricer, EuropeanPricer, IPricer.new]
  ring

theorem IPricer.meanPayoff?_foldl (p : IPricer α) (hp : p.m_NSim = 0)
    (paths : List (List α)) (hN : paths ≠ []) :
    (paths.foldl IPricer.ProcessPath p).meanPayoff?
      = some ((paths.foldl IPricer.ProcessPath p).m_sum / (paths.length : α)) := by
  have hNne : (paths.length : α) ≠ 0 := by
    have : 0 < paths.length := List.length_pos.mpr hN
    exact_mod_cast this.ne'
  have h3 := (IPricer.foldl_fields paths p).2.2.1
  simp only [IPricer.meanPayoff?, quotient?, h3, hp]
  push_cast
  simp [hNne]

end KnockClaims

section KnockInOut
variable {α : Type} [LinearOrderedField α]

/-- C28, the sequence of no paths: every path of it is non-empty, and for a
call payoff of strike 1, discount factor 1 and barrier 2 the knock-in pricer,
the knock-out pricer and the European pricer each have the count 0, so the
mean `m_sum / (m_NSim*1.0)` from which `PostProcess` sets each price has a
zero divisor: none of the three prices is a number, and they do not add up. -/
theorem C28_counterexample :
    (∀ arr ∈ ([] : List (List ℚ)), arr ≠ [])
    ∧ (([] : List (List ℚ)).foldl IPricer.ProcessPath
        (BarrierPricer (Call 1) 1 (UpAndIn 2))).m_NSim = 0
    ∧ (([] : List (List ℚ)).foldl IPricer.ProcessPath
        (BarrierPricer (Call 1) 1 (UpAndIn 2))).meanPayoff? = none
    ∧ (([] : List (List ℚ)).foldl IPricer.ProcessPath
        (BarrierPricer (Call 1) 1 (UpAndOut 2))).meanPayoff? = none
    ∧ (([] : List (List ℚ)).foldl IPricer.ProcessPath
        (EuropeanPricer (Call 1) 1)).meanPayoff? = none := by
  refine ⟨by simp, rfl, ?_, ?_, ?_⟩ <;>
    simp [IPricer.meanPayoff?, quotient?, BarrierPricer, EuropeanPricer, IPricer.new]

/-- C28: for every barrier, payoff function `g`, discount factor and sequence
of non-empty paths, `UpAndIn` is the negation of `UpAndOut` on every vector
(likewise `DownAndIn` and `DownAndOut`), and the sums accumulated by the
knock-in and the knock-out `BarrierPricer` add up to the sum accumulated by the
`EuropeanPricer` on the same paths, which is the sum of `g` at the last value
of each path; when the sequence has at least one path, the three means are
numbers and after `PostProcess` price(in) + price(out) = price(European). -/
theorem C28_knock_in_plus_knock_out (M : CMath α) (barrier : α) (g : α → α) (D : α)
    (paths : List (List α)) (hne : ∀ arr ∈ paths, arr ≠ []) :
    (∀ v, UpAndIn barrier v = !UpAndOut barrier v)
    ∧ (∀ v, DownAndIn barrier v = !DownAndOut barrier v)
    ∧ (paths.foldl IPricer.ProcessPath (EuropeanPricer g D)).m_sum
        = (paths.pmap (fun arr h => g (arr.getLast h)) hne).sum
    ∧ (paths.foldl IPricer.ProcessPath (BarrierPricer g D (UpAndIn barrier))).m_sum
          + (paths.foldl IPricer.ProcessPath (BarrierPricer g D (UpAndOut barrier))).m_sum
        = (paths.foldl IPricer.ProcessPath (EuropeanPricer g D)).m_sum
    ∧ (paths.foldl IPricer.ProcessPath (BarrierPricer g D (DownAndIn barrier))).m_sum
          + (paths.foldl IPricer.ProcessPath (BarrierPricer g D (DownAndOut barrier))).m_sum
        = (paths.foldl IPricer.ProcessPath (EuropeanPricer g D)).m_sum
    ∧ (paths ≠ [] →
        (∀ p : IPricer α, p.m_NSim = 0 →
          (paths.foldl IPricer.ProcessPath p).meanPayoff?
            = some ((paths.foldl IPricer.ProcessPath p).m_sum / (paths.length : α)))
        ∧ ((paths.foldl IPricer.ProcessPath
              (BarrierPricer g D (UpAndIn barrier))).PostProcess M).1.Price
            + ((paths.foldl IPricer.ProcessPath
              (BarrierPricer g D (UpAndOut barrier))).PostProcess M).1.Price
          = ((paths.foldl IPricer.ProcessPath (EuropeanPricer g D)).PostProcess M).1.Price
        ∧ ((paths.foldl IPricer.ProcessPath
              (BarrierPricer g D (DownAndIn barrier))).PostProcess M).1.Price
            + ((paths.foldl IPricer.ProcessPath
              (BarrierPricer g D (DownAndOut barrier))).PostProcess M).1.Price
          = ((paths.foldl IPricer.ProcessPath (EuropeanPricer g D)).PostProcess M).1.Price) := by
  have hlast : paths.pmap (fun arr h => g (arr.getLast h)) hne
      = paths.map (fun arr => g (back arr)) := by
    rw [← List.pmap_eq_map (fun arr => arr ≠ []) (fun arr => g (back arr)) paths hne]
    exact List.pmap_congr_left paths (fun arr _ h1 _ => by rw [back_eq_getLast arr h1])
  have hpay : (EuropeanPricer g D).pathPayoff = fun arr => g (back arr) := rfl
  refine ⟨UpAndIn_eq_not_UpAndOut barrier, DownAndIn_eq_not_DownAndOut barrier, ?_,
    BarrierPricer.sum_add g D _ _ (UpAndIn_eq_not_UpAndOut barrier) paths,
    BarrierPricer.sum_add g D _ _ (DownAndIn_eq_not_DownAndOut barrier) paths, ?_⟩
  · rw [(IPricer.foldl_fields paths (EuropeanPricer g D)).1, hlast, hpay]
    simp [EuropeanPricer, IPricer.new]
  · intro hN
    exact ⟨fun p hp => IPricer.meanPayoff?_foldl p hp paths hN,
      BarrierPricer.price_add M g D _ _ (UpAndIn_eq_not_UpAndOut barrier) paths hN,
      BarrierPricer.price_add M g D _ _ (DownAndIn_eq_not_DownAndOut barrier) paths hN⟩

/-- Witness of C28: two paths, a call payoff of strike 1, barrier 2. -/
theorem C28_knock_in_plus_knock_out_witness :
    (∀ arr ∈ ([[1, 3], [1, 3 / 2]] : List (List ℝ)), arr ≠ [])
    ∧ ((([[1, 3], [1, 3 / 2]] : List (List ℝ)).foldl IPricer.ProcessPath
          (BarrierPricer (Call 1) (1 / 2) (UpAndIn 2))).m_sum
        + (([[1, 3], [1, 3 / 2]] : List (List ℝ)).foldl IPricer.ProcessPath
          (BarrierPricer (Call 1) (1 / 2) (UpAndOut 2))).m_sum
      = (([[1, 3], [1, 3 / 2]] : List (List ℝ)).foldl IPricer.ProcessPath
          (EuropeanPricer (Call 1) (1 / 2))).m_sum) :=
  ⟨by simp,
    (C28_knock_in_plus_knock_out (CMath.mk Real.sqrt (fun x y => x ^ y)) 2 (Call 1) (1 / 2)
      [[1, 3], [1, 3 / 2]] (by simp)).2.2.2.1⟩

end KnockInOut

/-! ## ComputeYieldNewtonMethod: the four getters -/

section NewtonClaims
variable {α : Type} [LinearOrderedField α]

theorem ComputeYieldNewtonMethod.newtonLoop_fuel (E : CMathExp α)
    (b : ComputeYieldNewtonMethod α) (tolConsec : α) (fuel extra : Nat) (xnew xold y : α)
    (h : b.newtonLoop E tolConsec fuel xnew xold = some y) :
    b.newtonLoop E tolConsec (fuel + extra) xnew xold = some y := by
  induction fuel generalizing xnew xold with
  | zero => simp [ComputeYieldNewtonMethod.newtonLoop] at h
  | succ fuel ih =>
    rw [Nat.add_right_comm]
    unfold ComputeYieldNewtonMethod.newtonLoop at h ⊢
    split_ifs at h ⊢ with hc
    · exact ih _ _ h
    · exact h

theorem ComputeYieldNewtonMethod.newtonMethod_fuel (M : CMath α) (E : CMathExp α)
    (b : ComputeYieldNewtonMethod α) (fuel fuel2 : Nat) (x0 y : α)
    (h : b.newtonMethod M E fuel x0 = some y) (hfuel : fuel ≤ fuel2) :
    b.newtonMethod M E fuel2 x0 = some y := by
  obtain ⟨extra, rfl⟩ := Nat.exists_eq_add_of_le hfuel
  exact ComputeYieldNewtonMethod.newtonLoop_fuel E b _ fuel extra _ _ y h

/-- C21: for every bond and starting value `x0` for which Newton's iteration
terminates (within `fuel` evaluations of the loop condition, giving `y`), each
of the four getters returns when it is given at least that many, and
`getYieldDurationConvexity(x0)` returns exactly the triple of what
`getYield(x0)`, `getDuration(x0)` and `getConvexity(x0)` return: `y`,
`-1.0 / price * df(y)` and `1.0 / price * ddf(y)`. -/
theorem C21_yield_duration_convexity (M : CMath α) (E : CMathExp α)
    (b : ComputeYieldNewtonMethod α) (x0 y : α) (fuel fuel2 : Nat)
    (hterm : b.newtonMethod M E fuel x0 = some y) (hfuel : fuel ≤ fuel2) :
    b.getYield M E fuel2 x0 = some y
    ∧ b.getDuration M E fuel2 x0 = some (-1 / b.price * b.df E y)
    ∧ b.getConvexity M E fuel2 x0 = some (1 / b.price * b.ddf M E y)
    ∧ ∃ yield duration convexity,
        b.getYield M E fuel2 x0 = some yield
        ∧ b.getDuration M E fuel2 x0 = some duration
        ∧ b.getConvexity M E fuel2 x0 = some convexity
        ∧ b.getYieldDurationConvexity M E fuel2 x0 = some (yield, duration, convexity) := by
  have h2 := ComputeYieldNewtonMethod.newtonMethod_fuel M E b fuel fuel2 x0 y hterm hfuel
  have hY : b.getYield M E fuel2 x0 = some y := h2
  have hD : b.getDuration M E fuel2 x0 = some (-1 / b.price * b.df E y) := by
    simp only [ComputeYieldNewtonMethod.getDuration, h2]
  have hC : b.getConvexity M E fuel2 x0 = some (1 / b.price * b.ddf M E y) := by
    simp only [ComputeYieldNewtonMethod.getConvexity, h2]
  refine ⟨hY, hD, hC, y, _, _, hY, hD, hC, ?_⟩
  simp only [ComputeYieldNewtonMethod.getYieldDurationConvexity, h2]

/-- Witness of C21: a bond of one year without coupon, face value and price
100, started at 0: the value function vanishes at 0 and the loop leaves at the
second evaluation of its condition. -/
theorem C21_yield_duration_convexity_witness :
    (ComputeYieldNewtonMethod.new 12 12 (0 : ℝ) 100 100).newtonMethod
        (CMath.mk Real.sqrt (fun x y => x ^ y)) (CMathExp.mk Real.exp Real.log Real.pi) 2 0
      = some 0
    ∧ 2 ≤ 3
    ∧ (ComputeYieldNewtonMethod.new 12 12 (0 : ℝ) 100 100).getYield
        (CMath.mk Real.sqrt (fun x y => x ^ y)) (CMathExp.mk Real.exp Real.log Real.pi) 3 0
      = some 0 :=
  have hterm : (ComputeYieldNewtonMethod.new 12 12 (0 : ℝ) 100 100).newtonMethod
        (CMath.mk Real.sqrt (fun x y => x ^ y)) (CMathExp.mk Real.exp Real.log Real.pi) 2 0
      = some 0 := by
    have htol : (10 : ℝ) ^ (-6 : ℝ) < 1 :=
      Real.rpow_lt_one_of_one_lt_of_neg (by norm_num) (by norm_num)
    have htol0 : (0 : ℝ) ≤ (10 : ℝ) ^ (-6 : ℝ) := Real.rpow_nonneg (by norm_num) _
    have hnum : Int.tdiv 12 12 = 1 := by decide
    have hmod : Int.tmod 12 12 = 0 := by decide
    simp [ComputeYieldNewtonMethod.newtonMethod, ComputeYieldNewtonMethod.newtonLoop,
      ComputeYieldNewtonMethod.new, ComputeYieldNewtonMethod.f, hnum, hmod, loopSum, htol,
      not_lt.mpr htol0]
  ⟨hterm, by decide,
    (C21_yield_duration_convexity (CMath.mk Real.sqrt (fun x y => x ^ y))
      (CMathExp.mk Real.exp Real.log Real.pi) (ComputeYieldNewtonMethod.new 12 12 (0 : ℝ) 100 100)
      0 0 2 3 hterm (by decide)).1⟩

end NewtonClaims

/-! ## ComputeYieldNewtonMethod: the derivative of the bond value function -/

section NewtonDerivative

theorem loopSum_neg_body (g : Nat → ℝ) (n : Nat) :
    loopSum (fun (i : Nat) => -g i) n 0 = -loopSum g n 0 := by
  induction n with
  | zero => simp [loopSum]
  | succ n ih =>
    simp only [loopSum, ih]
    ring

theorem loopSum_hasDerivAt (F F' : ℝ → Nat → ℝ) (x : ℝ)
    (hF : ∀ i, HasDerivAt (fun y => F y i) (F' x i) x) (n : Nat) (c : ℝ) :
    HasDerivAt (fun y => loopSum (F y) n c) (loopSum (F' x) n 0) x := by
  induction n with
  | zero =>
    simp only [loopSum]
    exact hasDerivAt_const x c
  | succ n ih =>
    simp only [loopSum]
    exact ih.add (hF (n + 1))

theorem hasDerivAt_discounted (c t x : ℝ) :
    HasDerivAt (fun y => c * Real.exp (-y * t / 12)) (-(t / 12 * c * Real.exp (-x * (t / 12))))
      x := by
  have h1 : HasDerivAt (fun y : ℝ => -y * t / 12) (-1 * t / 12) x :=
    (((hasDerivAt_id x).neg).mul_const t).div_const 12
  have h2 := (h1.exp).const_mul c
  convert h2 using 1
  have harg : -x * t / 12 = -x * (t / 12) := by ring
  rw [harg]
  ring

/-- The bond value function `f` of every bond has at every `x` the derivative
`fDerivative`: the sum runs over the `couponNumber` coupons, as in `f`. -/
theorem ComputeYieldNewtonMethod.hasDerivAt_f (log : ℝ → ℝ) (pi : ℝ)
    (b : ComputeYieldNewtonMethod ℝ) (x : ℝ) :
    HasDerivAt (fun y => b.f (CMathExp.mk Real.exp log pi) y)
      (b.fDerivative (CMathExp.mk Real.exp log pi) x) x := by
  unfold ComputeYieldNewtonMethod.f ComputeYieldNewtonMethod.fDerivative
  have hsum := loopSum_hasDerivAt
    (fun y (i : Nat) => b.coupon * Real.exp
      (-y * ((b.monthToExpiry - (b.couponNumber - (i : Int)) * b.couponInterval : Int) : ℝ) / 12))
    (fun y (i : Nat) => -(b.couponTime i * b.coupon * Real.exp (-y * b.couponTime i))) x
    (fun i => hasDerivAt_discounted b.coupon _ x) b.couponNumber.toNat 0
  have hface := hasDerivAt_discounted b.faceValue (b.monthToExpiry : ℝ) x
  have h := (hsum.add hface).sub_const b.price
  convert h using 1
  rw [loopSum_neg_body]
  ring

end NewtonDerivative

section NewtonDerivativeClaim

/-- C26, a bond on which `df` is not the derivative of `f`: 24 months to
expiry, coupon interval 12, coupon rate 0.5, face value 100, price 200, so two
coupons of 50 after 1 and 2 years. At `x = 0` the value function `f` vanishes
and has the derivative `-(50*1 + 50*2 + 2*100) = -350`, while `df(0)`, whose
loop runs to `couponInterval = 12` instead of `couponNumber = 2`, is
`-(50*(1 + ... + 12) + 2*100) = -4100`; started at 0 Newton's iteration returns
0, and `getDuration(0)` returns `4100/200 = 20.5` where `-f'(0)/price` is
`350/200 = 1.75`. On the bond of test.cpp (60 months, interval 12, rate 0.02,
face value 100, price 104) the derivative of `f` at 0 is `-530` and `df(0)` is
`-656`. -/
theorem C26_df_loop_bound :
    HasDerivAt
        (fun y => (ComputeYieldNewtonMethod.new 24 12 (1 / 2 : ℝ) 100 200).f
          (CMathExp.mk Real.exp Real.log Real.pi) y) (-350) 0
    ∧ (ComputeYieldNewtonMethod.new 24 12 (1 / 2 : ℝ) 100 200).df
        (CMathExp.mk Real.exp Real.log Real.pi) 0 = -4100
    ∧ ¬ HasDerivAt
        (fun y => (ComputeYieldNewtonMethod.new 24 12 (1 / 2 : ℝ) 100 200).f
          (CMathExp.mk Real.exp Real.log Real.pi) y)
        ((ComputeYieldNewtonMethod.new 24 12 (1 / 2 : ℝ) 100 200).df
          (CMathExp.mk Real.exp Real.log Real.pi) 0) 0
    ∧ (ComputeYieldNewtonMethod.new 24 12 (1 / 2 : ℝ) 100 200).getYield
        (CMath.mk Real.sqrt (fun x y => x ^ y)) (CMathExp.mk Real.exp Real.log Real.pi) 2 0
      = some 0
    ∧ (ComputeYieldNewtonMethod.new 24 12 (1 / 2 : ℝ) 100 200).getDuration
        (CMath.mk Real.sqrt (fun x y => x ^ y)) (CMathExp.mk Real.exp Real.log Real.pi) 2 0
      = some (41 / 2)
    ∧ -(-350 : ℝ) / (ComputeYieldNewtonMethod.new 24 12 (1 / 2 : ℝ) 100 200).price = 7 / 4
    ∧ HasDerivAt
        (fun y => (ComputeYieldNewtonMethod.new 60 12 (2 / 100 : ℝ) 100 104).f
          (CMathExp.mk Real.exp Real.log Real.pi) y) (-530) 0
    ∧ (ComputeYieldNewtonMethod.new 60 12 (2 / 100 : ℝ) 100 104).df
        (CMathExp.mk Real.exp Real.log Real.pi) 0 = -656 := by
  have hdiv2 : Int.tdiv 24 12 = 2 := by decide
  have hmod2 : Int.tmod 24 12 = 0 := by decide
  have hdiv5 : Int.tdiv 60 12 = 5 := by decide
  have hmod5 : Int.tmod 60 12 = 0 := by decide
  have hder : (ComputeYieldNewtonMethod.new 24 12 (1 / 2 : ℝ) 100 200).fDerivative
      (CMathExp.mk Real.exp Real.log Real.pi) 0 = -350 := by
    simp [ComputeYieldNewtonMethod.fDerivative, ComputeYieldNewtonMethod.couponTime,
      ComputeYieldNewtonMethod.new, hdiv2, hmod2, loopSum]
    norm_num
  have hdf : (ComputeYieldNewtonMethod.new 24 12 (1 / 2 : ℝ) 100 200).df
      (CMathExp.mk Real.exp Real.log Real.pi) 0 = -4100 := by
    simp [ComputeYieldNewtonMethod.df, ComputeYieldNewtonMethod.new, hdiv2, hmod2, loopSum]
    norm_num
  have hder5 : (ComputeYieldNewtonMethod.new 60 12 (2 / 100 : ℝ) 100 104).fDerivative
      (CMathExp.mk Real.exp Real.log Real.pi) 0 = -530 := by
    simp [ComputeYieldNewtonMethod.fDerivative, ComputeYieldNewtonMethod.couponTime,
      ComputeYieldNewtonMethod.new, hdiv5, hmod5, loopSum]
    norm_num
  have hdf5 : (ComputeYieldNewtonMethod.new 60 12 (2 / 100 : ℝ) 100 104).df
      (CMathExp.mk Real.exp Real.log Real.pi) 0 = -656 := by
    simp [ComputeYieldNewtonMethod.df, ComputeYieldNewtonMethod.new, hdiv5, hmod5, loopSum]
    norm_num
  have hf0 : (ComputeYieldNewtonMethod.new 24 12 (1 / 2 : ℝ) 100 200).f
      (CMathExp.mk Real.exp Real.log Real.pi) 0 = 0 := by
    simp [ComputeYieldNewtonMethod.f, ComputeYieldNewtonMethod.new, hdiv2, hmod2, loopSum]
    norm_num
  have htol : (10 : ℝ) ^ (-6 : ℝ) < 1 :=
    Real.rpow_lt_one_of_one_lt_of_neg (by norm_num) (by norm_num)
  have htol0 : (0 : ℝ) ≤ (10 : ℝ) ^ (-6 : ℝ) := Real.rpow_nonneg (by norm_num) _
  have hnewton : (ComputeYieldNewtonMethod.new 24 12 (1 / 2 : ℝ) 100 200).newtonMethod
      (CMath.mk Real.sqrt (fun x y => x ^ y)) (CMathExp.mk Real.exp Real.log Real.pi) 2 0
      = some 0 := by
    simp only [ComputeYieldNewtonMethod.newtonMethod, ComputeYieldNewtonMethod.newtonLoop, hf0]
    simp [htol, not_lt.mpr htol0]
  have h1 := ComputeYieldNewtonMethod.hasDerivAt_f Real.log Real.pi
    (ComputeYieldNewtonMethod.new 24 12 (1 / 2 : ℝ) 100 200) 0
  rw [hder] at h1
  have h5 := ComputeYieldNewtonMethod.hasDerivAt_f Real.log Real.pi
    (ComputeYieldNewtonMethod.new 60 12 (2 / 100 : ℝ) 100 104) 0
  rw [hder5] at h5
  refine ⟨h1, hdf, ?_, hnewton, ?_, ?_, h5, hdf5⟩
  · intro h
    have := h1.unique h
    rw [hdf] at this
    norm_num at this
  · simp only [ComputeYieldNewtonMethod.getDuration, hnewton, hdf]
    simp [ComputeYieldNewtonMethod.new]
    norm_num
  · simp [ComputeYieldNewtonMethod.new]
    norm_num

end NewtonDerivativeClaim

/-! ## The Polar Marsaglia generator: the rejection loop -/

section PolarMarsagliaClaims
variable {α σ : Type} [LinearOrderedField α]

theorem PolarMarsagliaRNG.pair_W (uniform : σ → α × σ) (k : Nat) (eng : σ) :
    (PolarMarsagliaRNG.pair uniform k eng).1.2.2
      = (PolarMarsagliaRNG.pair uniform k eng).1.1 * (PolarMarsagliaRNG.pair uniform k eng).1.1
        + (PolarMarsagliaRNG.pair uniform k eng).1.2.1
          * (PolarMarsagliaRNG.pair uniform k eng).1.2.1 := by
  induction k generalizing eng with
  | zero => rfl
  | succ k ih => exact ih _

theorem PolarMarsagliaRNG.loop_exit (uniform : σ → α × σ) (fuel : Nat) (eng : σ)
    (r : (α × α × α) × σ) (h : PolarMarsagliaRNG.loop uniform fuel eng = some r) :
    ∃ k, k < fuel ∧ (∀ j, j < k → 1 < (PolarMarsagliaRNG.pair uniform j eng).1.2.2)
      ∧ (PolarMarsagliaRNG.pair uniform k eng).1.2.2 ≤ 1
      ∧ r = PolarMarsagliaRNG.pair uniform k eng := by
  induction fuel generalizing eng with
  | zero => simp [PolarMarsagliaRNG.loop] at h
  | succ fuel ih =>
    unfold PolarMarsagliaRNG.loop at h
    dsimp only at h
    split_ifs at h with hW
    · obtain ⟨k, hk, hrej, hacc, hr⟩ := ih _ h
      refine ⟨k + 1, Nat.succ_lt_succ hk, ?_, hacc, hr⟩
      intro j hj
      cases j with
      | zero => exact hW
      | succ j => exact hrej j (Nat.lt_of_succ_lt_succ hj)
    · refine ⟨0, Nat.succ_pos fuel, fun j hj => absurd hj (Nat.not_lt_zero j), not_lt.mp hW, ?_⟩
      exact (Option.some.inj h).symm

theorem PolarMarsagliaRNG.loop_of_first (uniform : σ → α × σ) (k : Nat) (fuel : Nat) (eng : σ)
    (hk : k < fuel) (hrej : ∀ j, j < k → 1 < (PolarMarsagliaRNG.pair uniform j eng).1.2.2)
    (hacc : (PolarMarsagliaRNG.pair uniform k eng).1.2.2 ≤ 1) :
    PolarMarsagliaRNG.loop uniform fuel eng = some (PolarMarsagliaRNG.pair uniform k eng) := by
  induction k generalizing fuel eng with
  | zero =>
    obtain ⟨fuel, rfl⟩ := Nat.exists_eq_succ_of_ne_zero (Nat.pos_iff_ne_zero.mp hk)
    unfold PolarMarsagliaRNG.loop
    dsimp only
    split_ifs with hW
    · exact absurd hW (not_lt.mpr hacc)
    · rfl
  | succ k ih =>
    obtain ⟨fuel, rfl⟩ := Nat.exists_eq_succ_of_ne_zero (Nat.pos_iff_ne_zero.mp (Nat.zero_lt_of_lt hk))
    unfold PolarMarsagliaRNG.loop
    dsimp only
    split_ifs with hW
    · exact ih fuel _ (Nat.lt_of_succ_lt_succ hk)
        (fun j hj => hrej (j + 1) (Nat.succ_lt_succ hj)) hacc
    · exact absurd (hrej 0 (Nat.succ_pos k)) hW

end PolarMarsagliaClaims

section PolarMarsagliaSafety
variable {α σ : Type} [LinearOrderedField α]

/-- C25: for every source of uniform draws, the lambda of `PolarMarsagliaRNG`
returns `z` (within `fuel` passes of its loop) exactly when some pair number
`k < fuel` is the first pair `(V1, V2)` with `W = V1^2 + V2^2 <= 1`, every
earlier pair having `W > 1`, and `z = V1*sqrt(-2*ln(W)/W)` for that pair, the
engine being left after that pair; and, the logarithm being non-positive on
`(0, 1]`, for an accepted pair whose `V1` and `V2` are not both zero,
`0 < W <= 1` and the radicand `-2*ln(W)/W` is non-negative. -/
theorem C25_polar_marsaglia (M : CMath α) (E : CMathExp α)
    (hlog : ∀ w : α, 0 < w → w ≤ 1 → E.log w ≤ 0)
    (src : UniformSource α σ) (fuel : Nat) (z : α) (src2 : UniformSource α σ) :
    (PolarMarsagliaRNG.rng M E fuel src = some (z, src2)
      ↔ ∃ k, k < fuel
          ∧ (∀ j, j < k → 1 < (PolarMarsagliaRNG.pair src.uniform j src.eng).1.2.2)
          ∧ (PolarMarsagliaRNG.pair src.uniform k src.eng).1.2.2 ≤ 1
          ∧ z = (PolarMarsagliaRNG.pair src.uniform k src.eng).1.1
                * M.sqrt (-2 * E.log (PolarMarsagliaRNG.pair src.uniform k src.eng).1.2.2
                    / (PolarMarsagliaRNG.pair src.uniform k src.eng).1.2.2)
          ∧ src2 = { src with eng := (PolarMarsagliaRNG.pair src.uniform k src.eng).2 })
    ∧ ∀ k, (PolarMarsagliaRNG.pair src.uniform k src.eng).1.2.2 ≤ 1 →
        ¬ ((PolarMarsagliaRNG.pair src.uniform k src.eng).1.1 = 0
            ∧ (PolarMarsagliaRNG.pair src.uniform k src.eng).1.2.1 = 0) →
        0 < (PolarMarsagliaRNG.pair src.uniform k src.eng).1.2.2
        ∧ (PolarMarsagliaRNG.pair src.uniform k src.eng).1.2.2 ≤ 1
        ∧ 0 ≤ -2 * E.log (PolarMarsagliaRNG.pair src.uniform k src.eng).1.2.2
              / (PolarMarsagliaRNG.pair src.uniform k src.eng).1.2.2 := by
  refine ⟨⟨?_, ?_⟩, ?_⟩
  · intro hret
    unfold PolarMarsagliaRNG.rng at hret
    cases hloop : PolarMarsagliaRNG.loop src.uniform fuel src.eng with
    | none => simp [hloop] at hret
    | some r =>
      obtain ⟨k, hk, hrej, hacc, hr⟩ := PolarMarsagliaRNG.loop_exit src.uniform fuel src.eng r hloop
      rw [hloop, hr] at hret
      have hret2 := Option.some.inj hret
      exact ⟨k, hk, hrej, hacc, (congrArg Prod.fst hret2).symm, (congrArg Prod.snd hret2).symm⟩
  · rintro ⟨k, hk, hrej, hacc, hz, hsrc⟩
    unfold PolarMarsagliaRNG.rng
    rw [PolarMarsagliaRNG.loop_of_first src.uniform k fuel src.eng hk hrej hacc, hz, hsrc]
  · intro k hacc hnz
    have hW := PolarMarsagliaRNG.pair_W src.uniform k src.eng
    have hpos : 0 < (PolarMarsagliaRNG.pair src.uniform k src.eng).1.2.2 := by
      rw [hW]
      by_cases h1 : (PolarMarsagliaRNG.pair src.uniform k src.eng).1.1 = 0
      · have h2 : (PolarMarsagliaRNG.pair src.uniform k src.eng).1.2.1 ≠ 0 :=
          fun h2 => hnz ⟨h1, h2⟩
        have := mul_self_pos.mpr h2
        have := mul_self_nonneg (PolarMarsagliaRNG.pair src.uniform k src.eng).1.1
        linarith
      · have := mul_self_pos.mpr h1
        have := mul_self_nonneg (PolarMarsagliaRNG.pair src.uniform k src.eng).1.2.1
        linarith
    refine ⟨hpos, hacc, div_nonneg ?_ hpos.le⟩
    have := hlog _ hpos hacc
    linarith

/-- Witness of C25: every uniform draw is 3/4, so the first pair is
`V1 = V2 = 1/2` with `W = 1/2`, and the lambda returns on the first pass. -/
theorem C25_polar_marsaglia_witness :
    (∀ w : ℝ, 0 < w → w ≤ 1 → Real.log w ≤ 0)
    ∧ PolarMarsagliaRNG.rng (CMath.mk Real.sqrt (fun x y => x ^ y))
          (CMathExp.mk Real.exp Real.log Real.pi) 1
          (UniformSource.mk (0 : Nat) (fun s => ((3 / 4 : ℝ), s + 1)))
        = some ((PolarMarsagliaRNG.pair (fun s => ((3 / 4 : ℝ), s + 1)) 0 (0 : Nat)).1.1
              * Real.sqrt (-2 * Real.log
                    (PolarMarsagliaRNG.pair (fun s => ((3 / 4 : ℝ), s + 1)) 0 (0 : Nat)).1.2.2
                  / (PolarMarsagliaRNG.pair (fun s => ((3 / 4 : ℝ), s + 1)) 0 (0 : Nat)).1.2.2),
            UniformSource.mk 2 (fun s => ((3 / 4 : ℝ), s + 1)))
    ∧ (PolarMarsagliaRNG.pair (fun s => ((3 / 4 : ℝ), s + 1)) 0 (0 : Nat)).1.1 = 1 / 2
    ∧ (PolarMarsagliaRNG.pair (fun s => ((3 / 4 : ℝ), s + 1)) 0 (0 : Nat)).1.2.2 = 1 / 2 :=
  ⟨fun w h0 h1 => Real.log_nonpos h0.le h1,
    (C25_polar_marsaglia (CMath.mk Real.sqrt (fun x y => x ^ y))
      (CMathExp.mk Real.exp Real.log Real.pi) (fun w h0 h1 => Real.log_nonpos h0.le h1)
      (UniformSource.mk (0 : Nat) (fun s => ((3 / 4 : ℝ), s + 1))) 1 _ _).1.mpr
      ⟨0, Nat.one_pos, fun j hj => absurd hj (Nat.not_lt_zero j),
        by norm_num [PolarMarsagliaRNG.pair], rfl, rfl⟩,
    by norm_num [PolarMarsagliaRNG.pair], by norm_num [PolarMarsagliaRNG.pair]⟩

end PolarMarsagliaSafety

/-! ## BlackScholesOptionPricer: the passes of `N` -/

section SimpsonClaims
variable {α : Type} [LinearOrderedField α]

theorem simpson_partial (g : α → α) (a h c bEnd : α) (m : Nat)
    (hEnd : a + ((m + 1 : Nat) : α) * h = bEnd) :
    (loopSum (fun (i : Nat) => 1 / 3 * g (a + (i : α) * h) + 2 / 3 * g (a + (i : α) * h - (1 / 2) * h))
          m c
        + 2 / 3 * g (a + ((m + 1 : Nat) : α) * h - (1 / 2) * h)) * h
      = c * h
        + ((List.range (m + 1)).map (fun (i : Nat) =>
            h / 6 * (g (a + (i : α) * h) + 4 * g (a + (i : α) * h + h / 2)
              + g (a + ((i : α) + 1) * h)))).sum
        - h / 6 * g a - h / 6 * g bEnd := by
  subst hEnd
  induction m with
  | zero =>
    have e1 : a + ((0 + 1 : Nat) : α) * h - (1 / 2) * h = a + ((0 : Nat) : α) * h + h / 2 := by
      push_cast
      ring
    have e2 : a + (((0 : Nat) : α) + 1) * h = a + ((0 + 1 : Nat) : α) * h := by
      push_cast
      ring
    have e3 : a + ((0 : Nat) : α) * h = a := by
      push_cast
      ring
    rw [List.range_succ, List.range_zero, List.nil_append]
    simp only [loopSum, List.map_cons, List.map_nil, List.sum_cons, List.sum_nil]
    rw [e1, e2, e3]
    ring
  | succ m ih =>
    have e1 : a + ((m + 1 + 1 : Nat) : α) * h - (1 / 2) * h
        = a + ((m + 1 : Nat) : α) * h + h / 2 := by
      push_cast
      ring
    have e2 : a + (((m + 1 : Nat) : α) + 1) * h = a + ((m + 1 + 1 : Nat) : α) * h := by
      push_cast
      ring
    rw [List.range_succ, List.map_append, List.sum_append]
    simp only [loopSum, List.map_cons, List.map_nil, List.sum_cons, List.sum_nil]
    rw [e1, e2]
    linear_combination ih

theorem BlackScholesOptionPricer.pass_eq_simpson (M : CMath α) (E : CMathExp α) (d : α)
    (m : Nat) :
    BlackScholesOptionPricer.pass M E d (m + 1)
      = 1 / 2 + compositeSimpson (BlackScholesOptionPricer.f M E) 0 d (m + 1) := by
  have hn : ((m + 1 : Nat) : α) ≠ 0 := Nat.cast_ne_zero.mpr (Nat.succ_ne_zero m)
  have hb : (0 : α) + ((m + 1 : Nat) : α) * ((d - 0) / ((m + 1 : Nat) : α)) = d := by
    field_simp
  have h1 : ((m + 1 : Nat) : α) * 1 = ((m + 1 : Nat) : α) := mul_one _
  have key := simpson_partial (BlackScholesOptionPricer.f M E) 0
    ((d - 0) / ((m + 1 : Nat) : α))
    (BlackScholesOptionPricer.f M E 0 * 1 / 6 + BlackScholesOptionPricer.f M E d * 1 / 6) d m hb
  unfold BlackScholesOptionPricer.pass compositeSimpson
  dsimp only
  rw [h1, Nat.add_sub_cancel]
  linear_combination key

theorem BlackScholesOptionPricer.loopN_exit (M : CMath α) (E : CMathExp α) (d tol : α)
    (fuel n : Nat) (value v : α)
    (h : BlackScholesOptionPricer.loopN M E d tol fuel n value = some v) :
    ∃ k, k < fuel ∧ v = BlackScholesOptionPricer.pass M E d (n * 2 ^ k) := by
  induction fuel generalizing n value with
  | zero => simp [BlackScholesOptionPricer.loopN] at h
  | succ fuel ih =>
    unfold BlackScholesOptionPricer.loopN at h
    dsimp only at h
    split_ifs at h with hc
    · obtain ⟨k, hk, hv⟩ := ih _ _ h
      refine ⟨k + 1, Nat.succ_lt_succ hk, ?_⟩
      rw [hv, pow_succ]
      congr 1
      ring
    · exact ⟨0, Nat.succ_pos fuel, by rw [pow_zero, mul_one]; exact (Option.some.inj h).symm⟩

end SimpsonClaims

section SimpsonPasses
variable {α : Type} [LinearOrderedField α]

/-- C27: for every `d`, the pass of the refinement loop of
`BlackScholesOptionPricer::N` with `n = 4 * 2^k` subintervals (4, 8, 16, ...)
computes 0.5 plus the composite Simpson's rule, over `n` equal subintervals of
`[0, d]` with their midpoints, for the density `f`; and a value that `N`
returns is the value of such a pass. -/
theorem C27_pass_is_simpson (M : CMath α) (E : CMathExp α) (d : α) (k : Nat) :
    BlackScholesOptionPricer.pass M E d (4 * 2 ^ k)
        = 1 / 2 + compositeSimpson (BlackScholesOptionPricer.f M E) 0 d (4 * 2 ^ k)
    ∧ ∀ fuel v, BlackScholesOptionPricer.N M E fuel d = some v →
        ∃ j, j < fuel
          ∧ v = BlackScholesOptionPricer.pass M E d (4 * 2 ^ j)
          ∧ v = 1 / 2 + compositeSimpson (BlackScholesOptionPricer.f M E) 0 d (4 * 2 ^ j) := by
  have hpass : ∀ j : Nat, BlackScholesOptionPricer.pass M E d (4 * 2 ^ j)
      = 1 / 2 + compositeSimpson (BlackScholesOptionPricer.f M E) 0 d (4 * 2 ^ j) := by
    intro j
    obtain ⟨m, hm⟩ : ∃ m, 4 * 2 ^ j = m + 1 :=
      ⟨4 * 2 ^ j - 1, by have := Nat.two_pow_pos j; omega⟩
    rw [hm]
    exact BlackScholesOptionPricer.pass_eq_simpson M E d m
  refine ⟨hpass k, ?_⟩
  intro fuel v hN
  obtain ⟨j, hj, hv⟩ := BlackScholesOptionPricer.loopN_exit M E d _ fuel 4 0 v hN
  exact ⟨j, hj, hv, hv.trans (hpass j)⟩

/-- Witness of C27: at `d = 0` every pass computes 0.5, and `N` returns it
after its second pass. -/
theorem C27_pass_is_simpson_witness :
    BlackScholesOptionPricer.N (CMath.mk Real.sqrt (fun x y => x ^ y))
        (CMathExp.mk Real.exp Real.log Real.pi) 2 (0 : ℝ) = some (1 / 2)
    ∧ ∃ j, j < 2
        ∧ (1 / 2 : ℝ) = BlackScholesOptionPricer.pass (CMath.mk Real.sqrt (fun x y => x ^ y))
            (CMathExp.mk Real.exp Real.log Real.pi) 0 (4 * 2 ^ j)
        ∧ (1 / 2 : ℝ) = 1 / 2 + compositeSimpson
            (BlackScholesOptionPricer.f (CMath.mk Real.sqrt (fun x y => x ^ y))
              (CMathExp.mk Real.exp Real.log Real.pi)) 0 0 (4 * 2 ^ j) :=
  have hpass : ∀ n : Nat, BlackScholesOptionPricer.pass (CMath.mk Real.sqrt (fun x y => x ^ y))
      (CMathExp.mk Real.exp Real.log Real.pi) (0 : ℝ) n = 1 / 2 := by
    intro n
    simp [BlackScholesOptionPricer.pass]
  have htol : (10 : ℝ) ^ (-12 : ℝ) < 1 / 2 := by
    have h1 : (10 : ℝ) ^ (-12 : ℝ) ≤ (10 : ℝ) ^ (-1 : ℝ) :=
      Real.rpow_le_rpow_of_exponent_le (by norm_num) (by norm_num)
    rw [Real.rpow_neg_one] at h1
    linarith [show ((10 : ℝ))⁻¹ < 1 / 2 by norm_num]
  have htol0 : (0 : ℝ) ≤ (10 : ℝ) ^ (-12 : ℝ) := Real.rpow_nonneg (by norm_num) _
  have hN : BlackScholesOptionPricer.N (CMath.mk Real.sqrt (fun x y => x ^ y))
      (CMathExp.mk Real.exp Real.log Real.pi) 2 (0 : ℝ) = some (1 / 2) := by
    simp only [BlackScholesOptionPricer.N, BlackScholesOptionPricer.loopN, hpass]
    have habs : |(1 / 2 : ℝ) - 0| = 1 / 2 := by norm_num [abs_of_pos]
    rw [habs, if_pos htol]
    simp [not_lt.mpr htol0]
  ⟨hN, (C27_pass_is_simpson (CMath.mk Real.sqrt (fun x y => x ^ y))
    (CMathExp.mk Real.exp Real.log Real.pi) 0 0).2 2 (1 / 2) hN⟩

end SimpsonPasses

/-! ## Asian pricers: the two averages -/

section AverageClaims

theorem list_geom_le_arith (arr : List ℝ) (hne : arr ≠ []) (hpos : ∀ x ∈ arr, 0 < x) :
    arr.prod ^ (1 / (arr.length : ℝ)) ≤ arr.sum / (arr.length : ℝ) := by
  have hlen : 0 < arr.length := List.length_pos.mpr hne
  have h := Real.geom_mean_le_arith_mean (Finset.univ : Finset (Fin arr.length)) (fun _ => 1)
    (fun i => arr.get i) (fun _ _ => zero_le_one)
    (by simp only [Finset.sum_const, Finset.card_univ, Fintype.card_fin, nsmul_eq_mul, mul_one]
        exact_mod_cast hlen)
    (fun i _ => (hpos _ (List.get_mem arr i.1 i.2)).le)
  have hp : ∏ i : Fin arr.length, arr.get i = arr.prod := by
    rw [← List.prod_ofFn, List.ofFn_get]
  have hs : ∑ i : Fin arr.length, arr.get i = arr.sum := by
    rw [← List.sum_ofFn, List.ofFn_get]
  simp only [Real.rpow_one, one_mul, Finset.sum_const, Finset.card_univ, Fintype.card_fin,
    nsmul_eq_mul, mul_one, hp, hs] at h
  rw [one_div]
  exact h

theorem GeometricAverage_le_ArithmeticAverage (M : CMath ℝ)
    (hpow : ∀ x y : ℝ, 0 < x → M.pow x y = x ^ y) (arr : List ℝ) (hne : arr ≠ [])
    (hpos : ∀ x ∈ arr, 0 < x) :
    GeometricAverage M arr ≤ ArithmeticAverage arr := by
  have hprod : arr.foldl (fun acc x => acc * x) 1 = arr.prod := (List.prod_eq_foldl).symm
  have hsum : arr.foldl (fun acc x => acc + x) 0 = arr.sum := (List.sum_eq_foldl).symm
  have hprodpos : 0 < arr.prod := List.prod_pos hpos
  unfold GeometricAverage ArithmeticAverage
  rw [hprod, hsum, hpow _ _ hprodpos]
  exact list_geom_le_arith arr hne hpos

/-- C29 as stated fails: for the path of 155 values 100, all positive, the
running product of `GeometricAverage` is still a number after 154 factors and
leaves the range of binary64 with the last one (`100^155 = 10^310`): the
product is an infinity, `std::pow` of it is an infinity, and the geometric
average is above the arithmetic average 100. -/
theorem C29_counterexample :
    (∀ x ∈ List.replicate 155 (Double.ofInt 100), Double.lt (Double.ofInt 0) x = true)
    ∧ (GeometricAverage.product64 (List.replicate 154 (Double.ofInt 100))).isSome = true
    ∧ GeometricAverage.product64 (List.replicate 155 (Double.ofInt 100)) = none
    ∧ (2 : ℚ) ^ 1024 < (List.replicate 155 (100 : ℚ)).foldl (fun acc x => acc * x) 1 := by
  refine ⟨?_, by decide!, by decide!, ?_⟩
  · intro x hx
    rw [(List.mem_replicate.mp hx).2]
    decide!
  · have h : (List.replicate 155 (100 : ℚ)).foldl (fun acc x => acc * x) 1 = 100 ^ 155 := by
      rw [← List.prod_eq_foldl, List.prod_replicate]
    rw [h]
    norm_num

/-- C29 amended: with the real power function for `std::pow`, for every
non-empty path whose values are all positive and whose running products all
stay below `2^1024`, the bound of the range of binary64, in exact arithmetic
`GeometricAverage(path) <= ArithmeticAverage(path)`; hence for every strike the
`Call` payoff that an `AsianPricer` adds to its sum for that path under the
geometric average is at most the one it adds under the arithmetic average, and
the `Put` payoff is at least as large. -/
theorem C29_geometric_le_arithmetic (M : CMath ℝ)
    (hpow : ∀ x y : ℝ, 0 < x → M.pow x y = x ^ y) (arr : List ℝ) (hne : arr ≠ [])
    (hpos : ∀ x ∈ arr, 0 < x)
    (hfinite : ∀ k, (arr.take k).foldl (fun acc x => acc * x) 1 < 2 ^ 1024) (K D : ℝ) :
    0 < arr.foldl (fun acc x => acc * x) 1
    ∧ arr.foldl (fun acc x => acc * x) 1 < 2 ^ 1024
    ∧ GeometricAverage M arr ≤ ArithmeticAverage arr
    ∧ (AsianPricer (Call K) D (GeometricAverage M)).pathPayoff arr
        ≤ (AsianPricer (Call K) D ArithmeticAverage).pathPayoff arr
    ∧ (AsianPricer (Put K) D ArithmeticAverage).pathPayoff arr
        ≤ (AsianPricer (Put K) D (GeometricAverage M)).pathPayoff arr
    ∧ ((AsianPricer (Call K) D (GeometricAverage M)).ProcessPath arr).m_sum
        ≤ ((AsianPricer (Call K) D ArithmeticAverage).ProcessPath arr).m_sum
    ∧ ((AsianPricer (Put K) D ArithmeticAverage).ProcessPath arr).m_sum
        ≤ ((AsianPricer (Put K) D (GeometricAverage M)).ProcessPath arr).m_sum := by
  have h := GeometricAverage_le_ArithmeticAverage M hpow arr hne hpos
  have hcall : Call K (GeometricAverage M arr) ≤ Call K (ArithmeticAverage arr) :=
    max_le_max le_rfl (sub_le_sub_right h K)
  have hput : Put K (ArithmeticAverage arr) ≤ Put K (GeometricAverage M arr) :=
    max_le_max le_rfl (sub_le_sub_left h K)
  have hprodpos : 0 < arr.foldl (fun acc x => acc * x) 1 := by
    rw [← List.prod_eq_foldl]
    exact List.prod_pos hpos
  have hrange : arr.foldl (fun acc x => acc * x) 1 < 2 ^ 1024 := by
    have := hfinite arr.length
    rwa [List.take_length] at this
  refine ⟨hprodpos, hrange, h, hcall, hput, ?_, ?_⟩
  · rw [(IPricer.ProcessPath_fields _ arr).1, (IPricer.ProcessPath_fields _ arr).1]
    exact add_le_add le_rfl hcall
  · rw [(IPricer.ProcessPath_fields _ arr).1, (IPricer.ProcessPath_fields _ arr).1]
    exact add_le_add le_rfl hput

/-- Witness of C29 amended: the path 1, 4, strike 2. -/
theorem C29_geometric_le_arithmetic_witness :
    (∀ x y : ℝ, 0 < x → (CMath.mk Real.sqrt (fun x y : ℝ => x ^ y)).pow x y = x ^ y)
    ∧ ([1, 4] : List ℝ) ≠ []
    ∧ (∀ x ∈ ([1, 4] : List ℝ), 0 < x)
    ∧ (∀ k, (([1, 4] : List ℝ).take k).foldl (fun acc x => acc * x) 1 < 2 ^ 1024)
    ∧ GeometricAverage (CMath.mk Real.sqrt (fun x y : ℝ => x ^ y)) [1, 4]
        ≤ ArithmeticAverage ([1, 4] : List ℝ) :=
  have hfinite : ∀ k, (([1, 4] : List ℝ).take k).foldl (fun acc x => acc * x) 1 < 2 ^ 1024 := by
    intro k
    rcases k with _ | _ | _ | k <;> norm_num
  ⟨fun _ _ _ => rfl, by simp, by simp, hfinite,
    (C29_geometric_le_arithmetic (CMath.mk Real.sqrt (fun x y : ℝ => x ^ y)) (fun _ _ _ => rfl)
      [1, 4] (by simp) (by simp) hfinite 2 1).2.2.1⟩

end AverageClaims

/-! ## The CEV process at its initial value -/

section InitialValueClaims

/-- C32: with the real power function for `std::pow`, for every volatility,
exponent `beta` and initial value `ic > 0`, the CEV process constructed from
them stores the scaled volatility `volatility * ic^(1 - beta)`, and its
diffusion at the initial value is `volatility * ic`, the diffusion there of the
GBM process constructed from the same volatility. -/
theorem C32_cev_diffusion_at_initial (M : CMath ℝ)
    (hpow : ∀ x y : ℝ, 0 < x → M.pow x y = x ^ y) (rate vol carry ic expiry beta : ℝ)
    (hic : 0 < ic) :
    (CEV.new M rate vol carry ic expiry beta).Diffusion M
        (CEV.new M rate vol carry ic expiry beta).InitialCondition = vol * ic
    ∧ (CEV.new M rate vol carry ic expiry beta).Diffusion M ic
        = (GBM.new rate vol carry ic expiry).Diffusion M ic
    ∧ (∃ s : CEV ℝ, CEV.new M rate vol carry ic expiry beta = ISDE.cev s
        ∧ s.m_vol = vol * ic ^ (1 - beta)) := by
  have hval : (CEV.new M rate vol carry ic expiry beta).Diffusion M ic = vol * ic := by
    simp only [CEV.new, ISDE.Diffusion]
    rw [hpow ic _ hic, hpow ic _ hic, mul_assoc, ← Real.rpow_add hic]
    have hexp : 1 - beta + beta = 1 := by ring
    rw [hexp, Real.rpow_one]
  refine ⟨hval, ?_, ?_⟩
  · rw [hval]
    rfl
  · refine ⟨_, rfl, ?_⟩
    exact congrArg (fun t => vol * t) (hpow ic _ hic)

/-- Witness of C32: volatility 1/5, exponent 1/2, initial value 100. -/
theorem C32_cev_diffusion_at_initial_witness :
    (∀ x y : ℝ, 0 < x → (CMath.mk Real.sqrt (fun x y : ℝ => x ^ y)).pow x y = x ^ y)
    ∧ (0 : ℝ) < 100
    ∧ (CEV.new (CMath.mk Real.sqrt (fun x y : ℝ => x ^ y)) (1 / 10) (1 / 5) 0 100 1
          (1 / 2)).Diffusion (CMath.mk Real.sqrt (fun x y : ℝ => x ^ y))
        (CEV.new (CMath.mk Real.sqrt (fun x y : ℝ => x ^ y)) (1 / 10) (1 / 5) 0 100 1
          (1 / 2)).InitialCondition = 1 / 5 * 100 :=
  ⟨fun _ _ _ => rfl, by norm_num,
    (C32_cev_diffusion_at_initial (CMath.mk Real.sqrt (fun x y : ℝ => x ^ y))
      (fun _ _ _ => rfl) (1 / 10) (1 / 5) 0 100 1 (1 / 2) (by norm_num)).1⟩

end InitialValueClaims

/-! ## Pricers: what `ProcessPath` leaves unchanged -/

section FrameClaims
variable {α : Type} [LinearOrderedField α]

/-- C33: for every pricer variant and every path, `ProcessPath` leaves the
payoff function, the discount factor and the stored price unchanged, and of
the derived part changes nothing but the last average of an Asian pricer (the
averaging function and the knock predicate stay); hence for a pricer of any
variant `Price()` returns 0 at construction and after any sequence of
processed paths, and the discount factor stays the one it was constructed
with. -/
theorem C33_ProcessPath_frame (p : IPricer α) (arr : List α) (g : α → α) (D : α)
    (cls : PricerClass α) (paths : List (List α)) :
    (p.ProcessPath arr).DiscountFactor = p.DiscountFactor
    ∧ (p.ProcessPath arr).Price = p.Price
    ∧ (p.ProcessPath arr).m_payoff = p.m_payoff
    ∧ (p.ProcessPath arr).derived
        = (match p.derived with
          | PricerClass.AsianPricer _ m_avgfunc =>
            PricerClass.AsianPricer (m_avgfunc arr) m_avgfunc
          | c => c)
    ∧ (IPricer.new g D cls).Price = 0
    ∧ (paths.foldl IPricer.ProcessPath (IPricer.new g D cls)).Price = 0
    ∧ (paths.foldl IPricer.ProcessPath (IPricer.new g D cls)).DiscountFactor = D
    ∧ (paths.foldl IPricer.ProcessPath (IPricer.new g D cls)).m_NSim = (paths.length : Int) := by
  obtain ⟨-, -, -, k4, k5, k6⟩ := IPricer.ProcessPath_fields p arr
  obtain ⟨-, -, h3, -, h5, h6⟩ := IPricer.foldl_fields paths (IPricer.new g D cls)
  refine ⟨k5, k6, k4, ?_, rfl, ?_, ?_, ?_⟩
  · unfold IPricer.ProcessPath
    rcases p with ⟨pg, pD, pr, sq, s, n, pcls⟩
    cases pcls with
    | EuropeanPricer => rfl
    | AsianPricer a f => rfl
    | BarrierPricer k =>
      dsimp only
      cases hk : k arr <;> simp
  · exact h6
  · exact h5
  · rw [h3]
    simp [IPricer.new]

end FrameClaims

/-! ## BlackScholesOptionPricer: the two prices -/

section ParityClaims
variable {α : Type} [LinearOrderedField α]

theorem BlackScholesOptionPricer.loopN_fuel (M : CMath α) (E : CMathExp α) (d tol : α)
    (fuel extra n : Nat) (value v : α)
    (h : BlackScholesOptionPricer.loopN M E d tol fuel n value = some v) :
    BlackScholesOptionPricer.loopN M E d tol (fuel + extra) n value = some v := by
  induction fuel generalizing n value with
  | zero => simp [BlackScholesOptionPricer.loopN] at h
  | succ fuel ih =>
    rw [Nat.add_right_comm]
    unfold BlackScholesOptionPricer.loopN at h ⊢
    dsimp only at h ⊢
    split_ifs at h ⊢ with hc
    · exact ih _ _ h
    · exact h

theorem BlackScholesOptionPricer.N_fuel (M : CMath α) (E : CMathExp α) (d : α)
    (fuel fuel2 : Nat) (v : α) (h : BlackScholesOptionPricer.N M E fuel d = some v)
    (hfuel : fuel ≤ fuel2) :
    BlackScholesOptionPricer.N M E fuel2 d = some v := by
  obtain ⟨extra, rfl⟩ := Nat.exists_eq_add_of_le hfuel
  exact BlackScholesOptionPricer.loopN_fuel M E d _ fuel extra 4 0 v h

theorem BlackScholesOptionPricer.d1_eq_some (M : CMath α) (E : CMathExp α)
    (o : BlackScholesOptionPricer α) (d : α) (h : o.d1 M E = some d) :
    o.strikePrice ≠ 0 ∧ 0 < o.stockPrice / o.strikePrice ∧ 0 ≤ o.expiryTime
    ∧ o.volatility * M.sqrt o.expiryTime ≠ 0
    ∧ d = (E.log (o.stockPrice / o.strikePrice)
          + (o.interestRate - o.dividend + o.volatility * o.volatility / 2) * o.expiryTime)
        / (o.volatility * M.sqrt o.expiryTime) := by
  unfold BlackScholesOptionPricer.d1 at h
  cases hq : quotient? o.stockPrice o.strikePrice with
  | none => simp [hq] at h
  | some ratio =>
    obtain ⟨hK, hratio⟩ := quotient?_eq_some _ _ _ hq
    rw [hq] at h
    dsimp only at h
    by_cases hpos : 0 < ratio
    · by_cases hT : 0 ≤ o.expiryTime
      · simp only [CMathExp.log?, CMath.sqrt?, if_pos hpos, if_pos hT] at h
        obtain ⟨hdiv, hval⟩ := quotient?_eq_some _ _ _ h
        rw [hratio]
        exact ⟨hK, hpos, hT, hdiv, hval.symm⟩
      · simp [CMathExp.log?, CMath.sqrt?, hpos, hT] at h
    · simp [CMathExp.log?, hpos] at h

theorem BlackScholesOptionPricer.getNd1_eq_some (M : CMath α) (E : CMathExp α)
    (o : BlackScholesOptionPricer α) (fuel : Nat) (nd1 : α)
    (h : o.getNd1 M E fuel = some nd1) :
    ∃ d1, o.d1 M E = some d1 ∧ BlackScholesOptionPricer.N M E fuel d1 = some nd1 := by
  unfold BlackScholesOptionPricer.getNd1 at h
  cases hd : o.d1 M E with
  | none => simp [hd] at h
  | some d1 =>
    rw [hd] at h
    exact ⟨d1, rfl, h⟩

theorem BlackScholesOptionPricer.getNd2_eq_some (M : CMath α) (E : CMathExp α)
    (o : BlackScholesOptionPricer α) (fuel : Nat) (nd2 : α)
    (h : o.getNd2 M E fuel = some nd2) :
    ∃ d1, o.d1 M E = some d1 ∧ M.sqrt? o.expiryTime = some (M.sqrt o.expiryTime)
      ∧ BlackScholesOptionPricer.N M E fuel (d1 - o.volatility * M.sqrt o.expiryTime)
          = some nd2 := by
  unfold BlackScholesOptionPricer.getNd2 at h
  cases hd : o.d1 M E with
  | none => simp [hd] at h
  | some d1 =>
    have hT := (BlackScholesOptionPricer.d1_eq_some M E o d1 hd).2.2.1
    have hs : M.sqrt? o.expiryTime = some (M.sqrt o.expiryTime) := by
      simp [CMath.sqrt?, hT]
    rw [hd, hs] at h
    exact ⟨d1, rfl, hs, h⟩

theorem BlackScholesOptionPricer.getNd1_fuel (M : CMath α) (E : CMathExp α)
    (o : BlackScholesOptionPricer α) (fuel fuel2 : Nat) (nd1 : α)
    (h : o.getNd1 M E fuel = some nd1) (hfuel : fuel ≤ fuel2) :
    o.getNd1 M E fuel2 = some nd1 := by
  obtain ⟨d1, hd, hN⟩ := BlackScholesOptionPricer.getNd1_eq_some M E o fuel nd1 h
  unfold BlackScholesOptionPricer.getNd1
  rw [hd]
  exact BlackScholesOptionPricer.N_fuel M E _ fuel fuel2 nd1 hN hfuel

theorem BlackScholesOptionPricer.getNd2_fuel (M : CMath α) (E : CMathExp α)
    (o : BlackScholesOptionPricer α) (fuel fuel2 : Nat) (nd2 : α)
    (h : o.getNd2 M E fuel = some nd2) (hfuel : fuel ≤ fuel2) :
    o.getNd2 M E fuel2 = some nd2 := by
  obtain ⟨d1, hd, hs, hN⟩ := BlackScholesOptionPricer.getNd2_eq_some M E o fuel nd2 h
  unfold BlackScholesOptionPricer.getNd2
  rw [hd, hs]
  exact BlackScholesOptionPricer.N_fuel M E _ fuel fuel2 nd2 hN hfuel

/-- C31 as stated fails: for the option of test.cpp with the volatility set to
0 (stock price 60, strike 65, rate 0.08, dividend 0, expiry 0.25) the divisor
`volatility * sqrt(expiryTime)` of `d1` is zero, so `d1` is no number: `N`
runs on an infinity, terminates, and neither `callPrice()` nor `putPrice()` is
a number, whatever number of passes is allowed; their difference is not
`60*exp(0) - 65*exp(-0.02)`. -/
theorem C31_counterexample :
    (BlackScholesOptionPricer.mk (60 : ℝ) 65 (8 / 100) 0 0 (1 / 4)).volatility
        * Real.sqrt (BlackScholesOptionPricer.mk (60 : ℝ) 65 (8 / 100) 0 0 (1 / 4)).expiryTime = 0
    ∧ (BlackScholesOptionPricer.mk (60 : ℝ) 65 (8 / 100) 0 0 (1 / 4)).d1
        (CMath.mk Real.sqrt (fun x y => x ^ y)) (CMathExp.mk Real.exp Real.log Real.pi) = none
    ∧ ∀ fuel,
        (BlackScholesOptionPricer.mk (60 : ℝ) 65 (8 / 100) 0 0 (1 / 4)).callPrice
            (CMath.mk Real.sqrt (fun x y => x ^ y)) (CMathExp.mk Real.exp Real.log Real.pi) fuel
          = none
        ∧ (BlackScholesOptionPricer.mk (60 : ℝ) 65 (8 / 100) 0 0 (1 / 4)).putPrice
            (CMath.mk Real.sqrt (fun x y => x ^ y)) (CMathExp.mk Real.exp Real.log Real.pi) fuel
          = none := by
  have hd : (BlackScholesOptionPricer.mk (60 : ℝ) 65 (8 / 100) 0 0 (1 / 4)).d1
      (CMath.mk Real.sqrt (fun x y => x ^ y)) (CMathExp.mk Real.exp Real.log Real.pi)
      = none := by
    norm_num [BlackScholesOptionPricer.d1, quotient?, CMathExp.log?, CMath.sqrt?]
  refine ⟨by norm_num, hd, fun fuel => ?_⟩
  have g1 : (BlackScholesOptionPricer.mk (60 : ℝ) 65 (8 / 100) 0 0 (1 / 4)).getNd1
      (CMath.mk Real.sqrt (fun x y => x ^ y)) (CMathExp.mk Real.exp Real.log Real.pi) fuel
      = none := by
    simp only [BlackScholesOptionPricer.getNd1, hd]
  exact ⟨by simp only [BlackScholesOptionPricer.callPrice, g1],
    by simp only [BlackScholesOptionPricer.putPrice, g1]⟩

/-- C31 amended: for every stock price, strike, rate, dividend, volatility and
expiry for which `d1` is a number and `N` returns at `d1` and at `d2` (giving
`nd1` and `nd2`), the divisor `volatility * sqrt(expiryTime)` is not zero, the
strike is not zero, the ratio of stock price and strike is positive, the expiry
is not negative, `callPrice()` and `putPrice()` return, given at least as many
passes, and in exact arithmetic `callPrice() - putPrice()` is
`stockPrice*exp(-dividend*expiryTime) - strikePrice*exp(-interestRate*expiryTime)`,
whatever the values `nd1` and `nd2` are. -/
theorem C31_put_call_parity (M : CMath α) (E : CMathExp α) (o : BlackScholesOptionPricer α)
    (fuel1 fuel2 fuel : Nat) (nd1 nd2 : α)
    (h1 : o.getNd1 M E fuel1 = some nd1) (h2 : o.getNd2 M E fuel2 = some nd2)
    (hfuel1 : fuel1 ≤ fuel) (hfuel2 : fuel2 ≤ fuel) :
    o.volatility * M.sqrt o.expiryTime ≠ 0
    ∧ o.strikePrice ≠ 0 ∧ 0 < o.stockPrice / o.strikePrice ∧ 0 ≤ o.expiryTime
    ∧ (∃ d1, o.d1 M E = some d1
        ∧ BlackScholesOptionPricer.N M E fuel d1 = some nd1
        ∧ BlackScholesOptionPricer.N M E fuel (d1 - o.volatility * M.sqrt o.expiryTime)
            = some nd2)
    ∧ o.callPrice M E fuel
        = some (o.stockPrice * E.exp (-o.dividend * o.expiryTime) * nd1
            - o.strikePrice * E.exp (-o.interestRate * o.expiryTime) * nd2)
    ∧ o.putPrice M E fuel
        = some (o.strikePrice * E.exp (-o.interestRate * o.expiryTime) * (1 - nd2)
            - o.stockPrice * E.exp (-o.dividend * o.expiryTime) * (1 - nd1))
    ∧ ∃ call put, o.callPrice M E fuel = some call ∧ o.putPrice M E fuel = some put
        ∧ call - put = o.stockPrice * E.exp (-o.dividend * o.expiryTime)
            - o.strikePrice * E.exp (-o.interestRate * o.expiryTime) := by
  have k1 : o.getNd1 M E fuel = some nd1 :=
    BlackScholesOptionPricer.getNd1_fuel M E o fuel1 fuel nd1 h1 hfuel1
  have k2 : o.getNd2 M E fuel = some nd2 :=
    BlackScholesOptionPricer.getNd2_fuel M E o fuel2 fuel nd2 h2 hfuel2
  obtain ⟨d1, hd, hN1⟩ := BlackScholesOptionPricer.getNd1_eq_some M E o fuel nd1 k1
  obtain ⟨d1b, hdb, -, hN2⟩ := BlackScholesOptionPricer.getNd2_eq_some M E o fuel nd2 k2
  have hsame : d1b = d1 := Option.some.inj (hdb.symm.trans hd)
  rw [hsame] at hN2
  obtain ⟨hK, hratio, hT, hdiv, -⟩ := BlackScholesOptionPricer.d1_eq_some M E o d1 hd
  have hcall : o.callPrice M E fuel
      = some (o.stockPrice * E.exp (-o.dividend * o.expiryTime) * nd1
          - o.strikePrice * E.exp (-o.interestRate * o.expiryTime) * nd2) := by
    simp only [BlackScholesOptionPricer.callPrice, k1, k2]
  have hput : o.putPrice M E fuel
      = some (o.strikePrice * E.exp (-o.interestRate * o.expiryTime) * (1 - nd2)
          - o.stockPrice * E.exp (-o.dividend * o.expiryTime) * (1 - nd1)) := by
    simp only [BlackScholesOptionPricer.putPrice, k1, k2]
  refine ⟨hdiv, hK, hratio, hT, ⟨d1, hd, hN1, hN2⟩, hcall, hput, _, _, hcall, hput, ?_⟩
  ring

end ParityClaims

/-! ## BlackScholesOptionPricer: `N` returns for every argument -/

section SimpsonRefinement

theorem compositeSimpson_eq_terms (g : ℝ → ℝ) (a b : ℝ) (n : Nat) :
    compositeSimpson g a b n = ((List.range n).map (simpsonTerm g a ((b - a) / (n : ℝ)))).sum :=
  rfl

theorem simpsonTerm_refine (g : ℝ → ℝ) (L : ℝ) (hL : ∀ x y, |g x - g y| ≤ L * |x - y|)
    (a h : ℝ) (i : Nat) :
    |simpsonTerm g a (h / 2) (2 * i) + simpsonTerm g a (h / 2) (2 * i + 1) - simpsonTerm g a h i|
      ≤ L * h ^ 2 / 6 := by
  have e1 : a + ((2 * i : Nat) : ℝ) * (h / 2) = a + (i : ℝ) * h := by push_cast; ring
  have e2 : a + (((2 * i : Nat) : ℝ) + 1) * (h / 2) = a + (i : ℝ) * h + h / 2 := by
    push_cast; ring
  have e3 : a + ((2 * i + 1 : Nat) : ℝ) * (h / 2) = a + (i : ℝ) * h + h / 2 := by
    push_cast; ring
  have e4 : a + (((2 * i + 1 : Nat) : ℝ) + 1) * (h / 2) = a + (i : ℝ) * h + h := by
    push_cast; ring
  have e5 : a + ((i : ℝ) + 1) * h = a + (i : ℝ) * h + h := by ring
  unfold simpsonTerm
  rw [e1, e2, e3, e4, e5]
  generalize a + (i : ℝ) * h = A
  have q1 : |A + h / 2 / 2 - A| = |h| / 4 := by
    rw [show A + h / 2 / 2 - A = h / 4 by ring, abs_div]; norm_num
  have q2 : |A + h / 2 / 2 - (A + h / 2)| = |h| / 4 := by
    rw [show A + h / 2 / 2 - (A + h / 2) = -(h / 4) by ring, abs_neg, abs_div]; norm_num
  have q3 : |A + h / 2 + h / 2 / 2 - (A + h / 2)| = |h| / 4 := by
    rw [show A + h / 2 + h / 2 / 2 - (A + h / 2) = h / 4 by ring, abs_div]; norm_num
  have q4 : |A + h / 2 + h / 2 / 2 - (A + h)| = |h| / 4 := by
    rw [show A + h / 2 + h / 2 / 2 - (A + h) = -(h / 4) by ring, abs_neg, abs_div]; norm_num
  have b1 := hL (A + h / 2 / 2) A
  have b2 := hL (A + h / 2 / 2) (A + h / 2)
  have b3 := hL (A + h / 2 + h / 2 / 2) (A + h / 2)
  have b4 := hL (A + h / 2 + h / 2 / 2) (A + h)
  rw [q1] at b1
  rw [q2] at b2
  rw [q3] at b3
  rw [q4] at b4
  have hX : |(g (A + h / 2 / 2) - g A) + 3 * (g (A + h / 2 / 2) - g (A + h / 2))
      + 3 * (g (A + h / 2 + h / 2 / 2) - g (A + h / 2))
      + (g (A + h / 2 + h / 2 / 2) - g (A + h))| ≤ 2 * (L * |h|) := by
    rw [abs_le] at b1 b2 b3 b4 ⊢
    constructor <;> linarith [b1.1, b1.2, b2.1, b2.2, b3.1, b3.2, b4.1, b4.2]
  have hexpr : h / 2 / 6 * (g A + 4 * g (A + h / 2 / 2) + g (A + h / 2))
      + h / 2 / 6 * (g (A + h / 2) + 4 * g (A + h / 2 + h / 2 / 2) + g (A + h))
      - h / 6 * (g A + 4 * g (A + h / 2) + g (A + h))
      = h / 12 * ((g (A + h / 2 / 2) - g A) + 3 * (g (A + h / 2 / 2) - g (A + h / 2))
      + 3 * (g (A + h / 2 + h / 2 / 2) - g (A + h / 2))
      + (g (A + h / 2 + h / 2 / 2) - g (A + h))) := by ring
  rw [hexpr, abs_mul]
  have h12 : |h / 12| = |h| / 12 := by rw [abs_div]; norm_num
  rw [h12]
  calc |h| / 12 * _ ≤ |h| / 12 * (2 * (L * |h|)) :=
        mul_le_mul_of_nonneg_left hX (by positivity)
    _ = L * (|h| * |h|) / 6 := by ring
    _ = L * h ^ 2 / 6 := by rw [abs_mul_abs_self, pow_two]

theorem simpson_sum_refine (g : ℝ → ℝ) (L : ℝ) (hL : ∀ x y, |g x - g y| ≤ L * |x - y|)
    (a h : ℝ) (m : Nat) :
    |((List.range (2 * m)).map (simpsonTerm g a (h / 2))).sum
        - ((List.range m).map (simpsonTerm g a h)).sum| ≤ (m : ℝ) * (L * h ^ 2 / 6) := by
  induction m with
  | zero => simp
  | succ m ih =>
    have h2 : 2 * (m + 1) = 2 * m + 1 + 1 := by ring
    rw [h2, List.range_succ, List.range_succ, List.range_succ]
    simp only [List.map_append, List.sum_append, List.map_cons, List.map_nil, List.sum_cons,
      List.sum_nil, add_zero]
    have ht := simpsonTerm_refine g L hL a h m
    rw [abs_le] at ih ht ⊢
    push_cast
    constructor <;> linarith [ih.1, ih.2, ht.1, ht.2]

theorem compositeSimpson_refine (g : ℝ → ℝ) (L : ℝ) (hL : ∀ x y, |g x - g y| ≤ L * |x - y|)
    (a b : ℝ) (n : Nat) (hn : 0 < n) :
    |compositeSimpson g a b (2 * n) - compositeSimpson g a b n|
      ≤ L * (b - a) ^ 2 / (6 * (n : ℝ)) := by
  have hn0 : (n : ℝ) ≠ 0 := Nat.cast_ne_zero.mpr hn.ne'
  have hh : (b - a) / ((2 * n : Nat) : ℝ) = (b - a) / (n : ℝ) / 2 := by
    push_cast
    rw [div_div, mul_comm]
  rw [compositeSimpson_eq_terms, compositeSimpson_eq_terms, hh]
  refine (simpson_sum_refine g L hL a ((b - a) / (n : ℝ)) n).trans (le_of_eq ?_)
  field_simp
  ring

end SimpsonRefinement

section NormalDensity

theorem gauss_deriv_bound (x : ℝ) : |Real.exp (-x * x / 2) * (-x)| ≤ 1 := by
  have h1 : x * x / 2 + 1 ≤ Real.exp (x * x / 2) := Real.add_one_le_exp _
  have hpos : 0 < Real.exp (x * x / 2) := Real.exp_pos _
  have hneg : Real.exp (-x * x / 2) = (Real.exp (x * x / 2))⁻¹ := by
    rw [← Real.exp_neg]
    congr 1
    ring
  rw [abs_mul, abs_neg, hneg, abs_of_pos (inv_pos.mpr hpos), inv_mul_le_iff₀ hpos]
  have hx : |x| ≤ x * x / 2 + 1 := by
    rw [abs_le]
    constructor <;> nlinarith [sq_nonneg (x - 1), sq_nonneg (x + 1)]
  linarith

theorem gauss_lipschitz (c : ℝ) (hc0 : 0 ≤ c) (hc1 : c ≤ 1) (x y : ℝ) :
    |c * Real.exp (-x * x / 2) - c * Real.exp (-y * y / 2)| ≤ 1 * |x - y| := by
  have hd : ∀ t : ℝ, HasDerivAt (fun s : ℝ => c * Real.exp (-s * s / 2))
      (c * (Real.exp (-t * t / 2) * (-t))) t := by
    intro t
    have h1 : HasDerivAt (fun s : ℝ => -s * s / 2) (-t) t := by
      have := (((hasDerivAt_id t).neg).mul (hasDerivAt_id t)).div_const 2
      convert this using 1
      simp
    exact (h1.exp).const_mul c
  have hb : ∀ t : ℝ, ‖c * (Real.exp (-t * t / 2) * (-t))‖ ≤ 1 := by
    intro t
    rw [Real.norm_eq_abs, abs_mul, abs_of_nonneg hc0]
    calc c * _ ≤ 1 * 1 := mul_le_mul hc1 (gauss_deriv_bound t) (abs_nonneg _) zero_le_one
      _ = 1 := one_mul 1
  have := Convex.norm_image_sub_le_of_norm_hasDerivWithin_le
    (fun t _ => (hd t).hasDerivWithinAt) (fun t _ => hb t) convex_univ (Set.mem_univ y)
    (Set.mem_univ x)
  simpa [Real.norm_eq_abs] using this

theorem inv_sqrt_two_pi_le :
    0 ≤ 1 / Real.sqrt (2 * Real.pi) ∧ 1 / Real.sqrt (2 * Real.pi) ≤ 1 := by
  have h1 : (1 : ℝ) ≤ Real.sqrt (2 * Real.pi) := by
    rw [Real.one_le_sqrt]
    nlinarith [Real.pi_gt_three]
  constructor
  · positivity
  · rw [div_le_one (by linarith)]
    exact h1

theorem BlackScholesOptionPricer.f_lipschitz (pow : ℝ → ℝ → ℝ) (log : ℝ → ℝ) (x y : ℝ) :
    |BlackScholesOptionPricer.f (CMath.mk Real.sqrt pow) (CMathExp.mk Real.exp log Real.pi) x
        - BlackScholesOptionPricer.f (CMath.mk Real.sqrt pow)
            (CMathExp.mk Real.exp log Real.pi) y| ≤ 1 * |x - y| :=
  gauss_lipschitz _ inv_sqrt_two_pi_le.1 inv_sqrt_two_pi_le.2 x y

end NormalDensity

section NormalTermination
variable {α : Type} [LinearOrderedField α]

theorem BlackScholesOptionPricer.loopN_terminates (M : CMath α) (E : CMathExp α) (d tol : α)
    (k n : Nat) (value : α)
    (hk : |BlackScholesOptionPricer.pass M E d (n * 2 ^ (k + 1))
        - BlackScholesOptionPricer.pass M E d (n * 2 ^ k)| ≤ tol) :
    ∃ v, BlackScholesOptionPricer.loopN M E d tol (k + 2) n value = some v := by
  induction k generalizing n value with
  | zero =>
    rw [pow_one, pow_zero, mul_one] at hk
    unfold BlackScholesOptionPricer.loopN
    dsimp only
    split_ifs with hc
    · unfold BlackScholesOptionPricer.loopN
      dsimp only
      rw [if_neg (not_lt.mpr hk)]
      exact ⟨_, rfl⟩
    · exact ⟨_, rfl⟩
  | succ k ih =>
    unfold BlackScholesOptionPricer.loopN
    dsimp only
    split_ifs with hc
    · apply ih (n * 2) (BlackScholesOptionPricer.pass M E d n)
      have e1 : n * 2 * 2 ^ (k + 1) = n * 2 ^ (k + 1 + 1) := by ring
      have e2 : n * 2 * 2 ^ k = n * 2 ^ (k + 1) := by ring
      rw [e1, e2]
      exact hk
    · exact ⟨_, rfl⟩

end NormalTermination

section NormalTotal

/-- With the real square root and exponential, `N` returns for every argument
`d` once it is given enough passes: the values of successive passes differ by
at most `d^2 / (6 n)`, which falls below the tolerance. -/
theorem BlackScholesOptionPricer.N_terminates (pow : ℝ → ℝ → ℝ) (log : ℝ → ℝ)
    (htol : 0 < pow 10 (-12)) (d : ℝ) :
    ∃ fuel v, BlackScholesOptionPricer.N (CMath.mk Real.sqrt pow)
      (CMathExp.mk Real.exp log Real.pi) fuel d = some v := by
  obtain ⟨k, hk⟩ := pow_unbounded_of_one_lt (d ^ 2 / pow 10 (-12)) (one_lt_two : (1 : ℝ) < 2)
  obtain ⟨m, hm⟩ : ∃ m, 4 * 2 ^ k = m + 1 :=
    ⟨4 * 2 ^ k - 1, by have := Nat.two_pow_pos k; omega⟩
  have hm2 : 4 * 2 ^ (k + 1) = 2 * m + 1 + 1 := by
    rw [pow_succ]
    omega
  have hn : 0 < m + 1 := Nat.succ_pos m
  have hcast : ((m + 1 : Nat) : ℝ) = 4 * 2 ^ k := by
    rw [← hm]
    push_cast
    ring
  have hpos : (0 : ℝ) < ((m + 1 : Nat) : ℝ) := by exact_mod_cast hn
  have h2k : (0 : ℝ) < 2 ^ k := by positivity
  have hd2 : d ^ 2 < pow 10 (-12) * 2 ^ k := (div_lt_iff₀' htol).mp hk
  have hrefine := compositeSimpson_refine
    (BlackScholesOptionPricer.f (CMath.mk Real.sqrt pow) (CMathExp.mk Real.exp log Real.pi)) 1
    (BlackScholesOptionPricer.f_lipschitz pow log) 0 d (m + 1) hn
  have hbound : 1 * (d - 0) ^ 2 / (6 * ((m + 1 : Nat) : ℝ)) ≤ pow 10 (-12) := by
    rw [div_le_iff₀ (by positivity), hcast]
    nlinarith [sq_nonneg d]
  have hpass : |BlackScholesOptionPricer.pass (CMath.mk Real.sqrt pow)
        (CMathExp.mk Real.exp log Real.pi) d (4 * 2 ^ (k + 1))
      - BlackScholesOptionPricer.pass (CMath.mk Real.sqrt pow)
        (CMathExp.mk Real.exp log Real.pi) d (4 * 2 ^ k)| ≤ pow 10 (-12) := by
    have e2 : 2 * (m + 1) = 2 * m + 1 + 1 := by ring
    rw [hm2, hm, BlackScholesOptionPricer.pass_eq_simpson,
      BlackScholesOptionPricer.pass_eq_simpson, ← e2]
    have hsub : ∀ p q : ℝ, 1 / 2 + p - (1 / 2 + q) = p - q := fun p q => by ring
    rw [hsub]
    exact hrefine.trans hbound
  obtain ⟨v, hv⟩ := BlackScholesOptionPricer.loopN_terminates (CMath.mk Real.sqrt pow)
    (CMathExp.mk Real.exp log Real.pi) d (pow 10 (-12)) k 4 0 hpass
  exact ⟨k + 2, v, hv⟩

end NormalTotal

section ParityWitness

/-- Witness of C31 amended: the option of test.cpp (stock price 60, strike 65,
rate 0.08, dividend 0, volatility 0.3, expiry 0.25) with the real square root,
power, exponential and logarithm: `d1` is a number and `N` returns at `d1` and
at `d2`. -/
theorem C31_put_call_parity_witness :
    ∃ fuel1 fuel2 nd1 nd2,
      (BlackScholesOptionPricer.mk (60 : ℝ) 65 (8 / 100) 0 (3 / 10) (1 / 4)).getNd1
          (CMath.mk Real.sqrt (fun x y => x ^ y)) (CMathExp.mk Real.exp Real.log Real.pi) fuel1
        = some nd1
      ∧ (BlackScholesOptionPricer.mk (60 : ℝ) 65 (8 / 100) 0 (3 / 10) (1 / 4)).getNd2
          (CMath.mk Real.sqrt (fun x y => x ^ y)) (CMathExp.mk Real.exp Real.log Real.pi) fuel2
        = some nd2
      ∧ fuel1 ≤ max fuel1 fuel2 ∧ fuel2 ≤ max fuel1 fuel2
      ∧ ∃ call put,
          (BlackScholesOptionPricer.mk (60 : ℝ) 65 (8 / 100) 0 (3 / 10) (1 / 4)).callPrice
              (CMath.mk Real.sqrt (fun x y => x ^ y)) (CMathExp.mk Real.exp Real.log Real.pi)
              (max fuel1 fuel2) = some call
          ∧ (BlackScholesOptionPricer.mk (60 : ℝ) 65 (8 / 100) 0 (3 / 10) (1 / 4)).putPrice
              (CMath.mk Real.sqrt (fun x y => x ^ y)) (CMathExp.mk Real.exp Real.log Real.pi)
              (max fuel1 fuel2) = some put
          ∧ call - put = 60 * Real.exp (-0 * (1 / 4)) - 65 * Real.exp (-(8 / 100) * (1 / 4)) := by
  have htol : (0 : ℝ) < (fun x y : ℝ => x ^ y) 10 (-12) :=
    Real.rpow_pos_of_pos (by norm_num) _
  have hsqrt : (0 : ℝ) < Real.sqrt (1 / 4) := Real.sqrt_pos.mpr (by norm_num)
  have hs : (CMath.mk Real.sqrt (fun x y : ℝ => x ^ y)).sqrt? (1 / 4)
      = some (Real.sqrt (1 / 4)) := by
    simp [CMath.sqrt?]
  obtain ⟨d, hd⟩ : ∃ d, (BlackScholesOptionPricer.mk (60 : ℝ) 65 (8 / 100) 0 (3 / 10)
      (1 / 4)).d1 (CMath.mk Real.sqrt (fun x y => x ^ y))
        (CMathExp.mk Real.exp Real.log Real.pi) = some d := by
    have hne : (3 / 10 : ℝ) * Real.sqrt (1 / 4) ≠ 0 := by positivity
    have hK : (65 : ℝ) ≠ 0 := by norm_num
    have hr : (0 : ℝ) < 60 / 65 := by norm_num
    simp only [BlackScholesOptionPricer.d1, quotient?, CMathExp.log?, hs, if_neg hK, if_pos hr,
      if_neg hne]
    exact ⟨_, rfl⟩
  obtain ⟨fuel1, nd1, h1⟩ := BlackScholesOptionPricer.N_terminates (fun x y => x ^ y) Real.log
    htol d
  obtain ⟨fuel2, nd2, h2⟩ := BlackScholesOptionPricer.N_terminates (fun x y => x ^ y) Real.log
    htol (d - 3 / 10 * Real.sqrt (1 / 4))
  have g1 : (BlackScholesOptionPricer.mk (60 : ℝ) 65 (8 / 100) 0 (3 / 10) (1 / 4)).getNd1
      (CMath.mk Real.sqrt (fun x y => x ^ y)) (CMathExp.mk Real.exp Real.log Real.pi) fuel1
      = some nd1 := by
    simp only [BlackScholesOptionPricer.getNd1, hd]
    exact h1
  have g2 : (BlackScholesOptionPricer.mk (60 : ℝ) 65 (8 / 100) 0 (3 / 10) (1 / 4)).getNd2
      (CMath.mk Real.sqrt (fun x y => x ^ y)) (CMathExp.mk Real.exp Real.log Real.pi) fuel2
      = some nd2 := by
    simp only [BlackScholesOptionPricer.getNd2, hd, hs]
    exact h2
  exact ⟨fuel1, fuel2, nd1, nd2, g1, g2, le_max_left _ _, le_max_right _ _,
    (C31_put_call_parity (CMath.mk Real.sqrt (fun x y => x ^ y))
      (CMathExp.mk Real.exp Real.log Real.pi)
      (BlackScholesOptionPricer.mk (60 : ℝ) 65 (8 / 100) 0 (3 / 10) (1 / 4))
      fuel1 fuel2 (max fuel1 fuel2) nd1 nd2 g1 g2 (le_max_left _ _)
      (le_max_right _ _)).2.2.2.2.2.2.2⟩

end ParityWitness

/-! ## Schemes: the blend factors zero -/

section RootLemmas
variable {α : Type} [LinearOrderedField α]

theorem CMath.sqrt?_eq_some (M : CMath α) (x s : α) (h : M.sqrt? x = some s) :
    0 ≤ x ∧ s = M.sqrt x := by
  unfold CMath.sqrt? at h
  split_ifs at h with hx
  exact ⟨hx, (Option.some.inj h).symm⟩

end RootLemmas

section BlendLemmas
variable {α : Type} [LinearOrderedField α] [FloorRing α]

theorem CMath.pow?_eq_some (M : CMath α) (x y p : α) (h : M.pow? x y = some p) :
    p = M.pow x y := by
  unfold CMath.pow? at h
  split_ifs at h
  exact (Option.some.inj h).symm

theorem CMath.pow?_of_pos (M : CMath α) (x y : α) (hx : 0 < x) :
    M.pow? x y = some (M.pow x y) := by
  unfold CMath.pow?
  rw [if_neg (fun h => absurd h.1 (not_lt.mpr hx.le)), if_neg (fun h => hx.ne' h.1)]

theorem ISDE.Diffusion?_eq_some (M : CMath α) (s : ISDE α) (x d : α)
    (h : s.Diffusion? M x = some d) : d = s.Diffusion M x := by
  cases s with
  | gbm g => exact (Option.some.inj h).symm
  | cev c =>
    simp only [ISDE.Diffusion?] at h
    cases hp : M.pow? x c.m_beta with
    | none => simp [hp] at h
    | some p =>
      rw [hp] at h
      rw [← Option.some.inj h, CMath.pow?_eq_some M _ _ _ hp]
      rfl

theorem ISDE.DiffusionDerivative?_eq_some (M : CMath α) (s : ISDE α) (x d : α)
    (h : s.DiffusionDerivative? M x = some d) : d = s.DiffusionDerivative M x := by
  cases s with
  | gbm g => exact (Option.some.inj h).symm
  | cev c =>
    simp only [ISDE.DiffusionDerivative?] at h
    simp only [ISDE.DiffusionDerivative]
    split_ifs at h ⊢ with hb
    · cases hp : M.pow? x (c.m_beta - 1) with
      | none => simp [hp] at h
      | some p =>
        rw [hp] at h
        rw [← Option.some.inj h, CMath.pow?_eq_some M _ _ _ hp]
    · cases hp : M.pow? x (1 - c.m_beta) with
      | none => simp [hp] at h
      | some p =>
        rw [hp] at h
        rw [← (quotient?_eq_some _ _ _ h).2, CMath.pow?_eq_some M _ _ _ hp]

theorem ISDE.DriftCorrected?_eq_some (M : CMath α) (s : ISDE α) (x B v : α)
    (h : s.DriftCorrected? M x B = some v) :
    v = s.DriftCorrected M x B ∧ ∃ d dd, s.Diffusion? M x = some d
      ∧ s.DiffusionDerivative? M x = some dd := by
  unfold ISDE.DriftCorrected? at h
  cases hd : s.Diffusion? M x with
  | none => simp [hd] at h
  | some d =>
    cases hdd : s.DiffusionDerivative? M x with
    | none => simp [hd, hdd] at h
    | some dd =>
      rw [hd, hdd] at h
      refine ⟨?_, d, dd, rfl, rfl⟩
      rw [← Option.some.inj h, ISDE.Diffusion?_eq_some M s x d hd,
        ISDE.DiffusionDerivative?_eq_some M s x dd hdd]
      rfl

end BlendLemmas

section BlendClaims
variable {α : Type} [LinearOrderedField α] [FloorRing α]

/-- C30 as stated fails: for the CEV process with rate 0.1, volatility 0.2, no
dividend, initial value 100, expiry 1 and `beta = 0.5`, from the level 100 with
step 1 and the sample -6, `EulerFDM::advance` returns
`100 + 10*1 + 20*1*(-6) = -10`, which is also the predictor of the
predictor-corrector scheme; at the predictor `Diffusion` is
`m_vol * pow(-10, 0.5)`, a NaN, and with `A = 0` and `B = 0` the scheme
multiplies it by zero and adds it: it returns no number. -/
theorem C30_counterexample :
    (EulerFDM (CEV.new (CMath.mk Real.sqrt (fun x y => x ^ y)) (1 / 10 : ℝ) (1 / 5) 0 100 1
        (1 / 2)) 1).advance? (CMath.mk Real.sqrt (fun x y => x ^ y)) 100 0 1 (-6) = some (-10)
    ∧ (CEV.new (CMath.mk Real.sqrt (fun x y => x ^ y)) (1 / 10 : ℝ) (1 / 5) 0 100 1
        (1 / 2)).Diffusion? (CMath.mk Real.sqrt (fun x y => x ^ y)) (-10) = none
    ∧ (ModifiedPredictorCorrectorFDM (CEV.new (CMath.mk Real.sqrt (fun x y => x ^ y))
        (1 / 10 : ℝ) (1 / 5) 0 100 1 (1 / 2)) 1 0 0).advance?
          (CMath.mk Real.sqrt (fun x y => x ^ y)) 100 0 1 (-6) = none := by
  have h100 : (100 : ℝ) ^ (2⁻¹ : ℝ) = 10 := by
    have h : (100 : ℝ) = (10 : ℝ) ^ (2 : ℝ) := by norm_num
    rw [h, ← Real.rpow_mul (by norm_num)]
    norm_num
  have hfloor : Int.floor (2⁻¹ : ℝ) = 0 := by
    rw [Int.floor_eq_iff]
    constructor <;> norm_num
  have hsub : (1 : ℝ) - 2⁻¹ = 2⁻¹ := by norm_num
  have hD : (CEV.new (CMath.mk Real.sqrt (fun x y => x ^ y)) (1 / 10 : ℝ) (1 / 5) 0 100 1
      (1 / 2)).Diffusion? (CMath.mk Real.sqrt (fun x y => x ^ y)) 100 = some 20 := by
    simp [CEV.new, ISDE.Diffusion?, CMath.pow?, hsub, h100]
    norm_num
  have hDneg : (CEV.new (CMath.mk Real.sqrt (fun x y => x ^ y)) (1 / 10 : ℝ) (1 / 5) 0 100 1
      (1 / 2)).Diffusion? (CMath.mk Real.sqrt (fun x y => x ^ y)) (-10) = none := by
    simp [CEV.new, ISDE.Diffusion?, CMath.pow?, hfloor]
  have hs : (CMath.mk Real.sqrt (fun x y : ℝ => x ^ y)).sqrt? 1 = some 1 := by
    simp [CMath.sqrt?]
  have hdrift : (CEV.new (CMath.mk Real.sqrt (fun x y => x ^ y)) (1 / 10 : ℝ) (1 / 5) 0 100 1
      (1 / 2)).Drift 100 = 10 := by
    simp [CEV.new, ISDE.Drift]
    norm_num
  have hmid : (100 : ℝ) + 10 * 1 + 20 * 1 * (-6) = -10 := by norm_num
  refine ⟨?_, hDneg, ?_⟩
  · simp only [EulerFDM, IFDM.new, IFDM.advance?, hD, hs, hdrift, hmid]
  · simp only [ModifiedPredictorCorrectorFDM, IFDM.new, IFDM.advance?, hD, hs, hdrift, hmid,
      ISDE.DriftCorrected?, hDneg]

/-- C30 amended: for every process, level `x`, time `t`, step `dt ≥ 0` and
sample `z` at which the quantities that the predictor-corrector scheme
computes are numbers (the square root of the step, `Diffusion` and
`DiffusionDerivative` at the level and at the predictor), a
`ModifiedPredictorCorrectorFDM` constructed with the blend factors `A = 0` and
`B = 0` returns from `advance` the value that `EulerFDM::advance` returns,
`x + Drift(x)*dt + Diffusion(x)*sqrt(dt)*z`. -/
theorem C30_zero_blend_is_euler (M : CMath α) (sde : ISDE α) (numSubdivisions : Int)
    (x t dt z v : α) (hdt : 0 ≤ dt)
    (hnum : (ModifiedPredictorCorrectorFDM sde numSubdivisions 0 0).advance? M x t dt z
      = some v) :
    M.sqrt? dt = some (M.sqrt dt)
    ∧ (EulerFDM sde numSubdivisions).advance? M x t dt z = some v
    ∧ ((EulerFDM sde numSubdivisions).advance M x t dt z).1 = v
    ∧ ((ModifiedPredictorCorrectorFDM sde numSubdivisions 0 0).advance M x t dt z).1 = v
    ∧ v = x + sde.Drift x * dt + sde.Diffusion M x * M.sqrt dt * z := by
  have hs : M.sqrt? dt = some (M.sqrt dt) := by
    unfold CMath.sqrt?
    rw [if_pos hdt]
  have hdrift : sde.DriftCorrected M x 0 = sde.Drift x := by
    unfold ISDE.DriftCorrected
    rw [zero_mul, zero_mul, sub_zero]
  simp only [ModifiedPredictorCorrectorFDM, IFDM.new, IFDM.advance?, hs] at hnum
  cases hD : sde.Diffusion? M x with
  | none => simp [hD] at hnum
  | some d =>
    have hd := ISDE.Diffusion?_eq_some M sde x d hD
    rw [hD] at hnum
    dsimp only at hnum
    cases hc1 : sde.DriftCorrected? M (x + sde.Drift x * dt + d * M.sqrt dt * z) 0 with
    | none => simp [hc1] at hnum
    | some dcMid =>
      cases hc2 : sde.DriftCorrected? M x 0 with
      | none => simp [hc1, hc2] at hnum
      | some dcOld =>
        cases hc3 : sde.Diffusion? M (x + sde.Drift x * dt + d * M.sqrt dt * z) with
        | none => simp [hc1, hc2, hc3] at hnum
        | some dMid =>
          rw [hc1, hc2, hc3] at hnum
          have hv := Option.some.inj hnum
          have hold := (ISDE.DriftCorrected?_eq_some M sde x 0 dcOld hc2).1
          rw [hdrift] at hold
          have hval : v = x + sde.Drift x * dt + sde.Diffusion M x * M.sqrt dt * z := by
            rw [← hv, hold, hd]
            ring
          have heuler : ((EulerFDM sde numSubdivisions).advance M x t dt z).1
              = x + sde.Drift x * dt + sde.Diffusion M x * M.sqrt dt * z := rfl
          have hmpc : ((ModifiedPredictorCorrectorFDM sde numSubdivisions 0 0).advance M x t
              dt z).1 = x + sde.Drift x * dt + sde.Diffusion M x * M.sqrt dt * z := by
            show x + (0 * sde.DriftCorrected M _ 0 + (1 - 0) * sde.DriftCorrected M x 0) * dt
                + (0 * sde.Diffusion M _ + (1 - 0) * sde.Diffusion M x) * M.sqrt dt * z
              = x + sde.Drift x * dt + sde.Diffusion M x * M.sqrt dt * z
            rw [hdrift]
            ring
          refine ⟨hs, ?_, heuler.trans hval.symm, hmpc.trans hval.symm, hval⟩
          simp only [EulerFDM, IFDM.new, IFDM.advance?, hD, hs]
          rw [hval, hd]

/-- Witness of C30 amended: a geometric process from the level 100, step 1/4,
sample 3. -/
theorem C30_zero_blend_is_euler_witness :
    ∃ v : ℝ, (0 : ℝ) ≤ 1 / 4
      ∧ (ModifiedPredictorCorrectorFDM (GBM.new (1 / 10 : ℝ) (1 / 5) 0 100 1) 4 0 0).advance?
          (CMath.mk Real.sqrt (fun x y => x ^ y)) 100 0 (1 / 4) 3 = some v
      ∧ (EulerFDM (GBM.new (1 / 10 : ℝ) (1 / 5) 0 100 1) 4).advance?
          (CMath.mk Real.sqrt (fun x y => x ^ y)) 100 0 (1 / 4) 3 = some v := by
  have hq : (0 : ℝ) ≤ 1 / 4 := by norm_num
  have hs : (CMath.mk Real.sqrt (fun x y : ℝ => x ^ y)).sqrt? (1 / 4)
      = some (Real.sqrt (1 / 4)) := by
    unfold CMath.sqrt?
    rw [if_pos hq]
  have hnum : ∃ v, (ModifiedPredictorCorrectorFDM (GBM.new (1 / 10 : ℝ) (1 / 5) 0 100 1) 4 0
      0).advance? (CMath.mk Real.sqrt (fun x y => x ^ y)) 100 0 (1 / 4) 3 = some v := by
    simp only [ModifiedPredictorCorrectorFDM, IFDM.new, IFDM.advance?, GBM.new,
      ISDE.Diffusion?, ISDE.DriftCorrected?, ISDE.DiffusionDerivative?, hs]
    exact ⟨_, rfl⟩
  obtain ⟨v, hv⟩ := hnum
  exact ⟨v, hq, hv,
    (C30_zero_blend_is_euler (CMath.mk Real.sqrt (fun x y => x ^ y))
      (GBM.new (1 / 10 : ℝ) (1 / 5) 0 100 1) 4 100 0 (1 / 4) 3 v hq hv).2.1⟩

end BlendClaims
